import Mathlib

/-!
# Race stopwatch: runner store, split engine, ranking and clock

A shallow embedding of the timing engine of `src/index.js` (a React component).
React state cells (`masterTime`, `isRunning`, `runners`, `modal`, the emitted toasts)
become fields of an explicit state record; every `setRunners(prev => ...)` updater becomes a
pure function on the runner list; the clock values, ids and indices held in the state are
integers (`Int`). Where the source divides or parses numbers (`formatTime`,
`parseTargetToMs`) they are binary64 values with their rounding (section Numbers).
-/

namespace Stopwatch

/-! ## Data model -/

/-- Identifier of a split. The source draws it as `Date.now() + Math.random()` and only ever
compares it with `!==`, so it is embedded as a token supplied by the environment. -/
abbrev SplitId := Nat

/-- One entry of a runner's split log:
`{ index, total, lap, isFinish, id }`. An absent `isFinish` property is `false`. -/
structure Split where
  index : Int
  total : Int
  lap : Int
  isFinish : Bool
  id : SplitId
deriving DecidableEq, Repr, Inhabited

/-- One runner: `{ id, name, splits, finished, finalTime }`; `finalTime` is `null` or a number. -/
structure Runner where
  id : Int
  name : String
  splits : List Split
  finished : Bool
  finalTime : Option Int
deriving DecidableEq, Repr

/-- The initial value of the `runners` state when nothing is persisted. -/
def initialRunners : List Runner :=
  [{ id := 1, name := "Pelari 1", splits := [], finished := false, finalTime := none }]

/-! ## Split engine: the `setRunners` updaters -/

/-- The expression `r.splits.length > 0 ? r.splits[r.splits.length - 1].total : 0`. -/
def lastSplitTime (splits : List Split) : Int :=
  if splits.length > 0 then (splits.getD (splits.length - 1) default).total else 0

/-- The updater of `recordSplit(id)`, run with clock value `masterTime`; `newId` is the value
drawn for the new split's `id`. -/
def recordSplit (masterTime : Int) (newId : SplitId) (id : Int) (prev : List Runner) :
    List Runner :=
  prev.map fun r =>
    if r.id = id then
      let lapTime := masterTime - lastSplitTime r.splits
      { r with
        splits := r.splits ++
          [{ index := (r.splits.length : Int) + 1, total := masterTime, lap := lapTime,
             isFinish := false, id := newId }] }
    else r

/-- The assignment `newSplits[newSplits.length - 1].isFinish = true`. -/
def markLastFinish (newSplits : List Split) : List Split :=
  newSplits.set (newSplits.length - 1)
    { newSplits.getD (newSplits.length - 1) default with isFinish := true }

/-- The `splits` value computed by `finishRunner` for the runner it targets. -/
def finishSplits (masterTime : Int) (newId : SplitId) (splits : List Split) : List Split :=
  let lapTime := masterTime - lastSplitTime splits
  if lapTime > 100 then
    splits ++ [{ index := (splits.length : Int) + 1, total := masterTime, lap := lapTime,
                 isFinish := true, id := newId }]
  else if splits.length > 0 then markLastFinish splits
  else splits

/-- The updater of `finishRunner(id)`, run with clock value `masterTime`. -/
def finishRunner (masterTime : Int) (newId : SplitId) (id : Int) (prev : List Runner) :
    List Runner :=
  prev.map fun r =>
    if r.id = id then
      { r with finished := true, finalTime := some masterTime,
               splits := finishSplits masterTime newId r.splits }
    else r

/-- The `filteredSplits.map((split, idx) => ...)` of `deleteSplit`: position `idx` gets
`index = idx + 1` and `lap = total - prevTotal`, where `prevTotal` is
`idx === 0 ? 0 : filteredSplits[idx - 1].total`. -/
def recalculate (filteredSplits : List Split) : List Split :=
  filteredSplits.enum.map fun p =>
    let prevTotal : Int :=
      if p.1 = 0 then 0 else (filteredSplits.getD (p.1 - 1) default).total
    { p.2 with index := (p.1 : Int) + 1, lap := p.2.total - prevTotal }

/-- The updater run by the confirmation of `deleteSplit(runnerId, splitUniqueId)`. -/
def deleteSplit (runnerId : Int) (splitUniqueId : SplitId) (prev : List Runner) :
    List Runner :=
  prev.map fun r =>
    if r.id ≠ runnerId then r
    else
      let filteredSplits := r.splits.filter fun s => s.id ≠ splitUniqueId
      { r with splits := recalculate filteredSplits }

/-! ## Runner store: adding, renaming, removing, resetting -/

/-- The value of `Math.max(...ids)` for a non-empty argument list. -/
def maxOf : List Int → Int
  | [] => 0
  | a :: l => l.foldl max a

/-- The expression `prev.length > 0 ? Math.max(...prev.map(r => r.id)) + 1 : 1`. -/
def nextId (prev : List Runner) : Int :=
  if prev.length > 0 then maxOf (prev.map fun r => r.id) + 1 else 1

/-- The updater of `addRunner()`. -/
def addRunner (prev : List Runner) : List Runner :=
  let newId := nextId prev
  prev ++ [{ id := newId, name := "Pelari " ++ toString newId, splits := [],
             finished := false, finalTime := none }]

/-- The updater run by the confirmation of `removeRunner(id)`. -/
def removeRunner (id : Int) (prev : List Runner) : List Runner :=
  prev.filter fun r => r.id ≠ id

/-- The store written by the confirmation of `deleteAllRunners()`. -/
def deleteAllRunners (_prev : List Runner) : List Runner := []

/-- The updater of `updateRunnerName(id, newName)`. -/
def updateRunnerName (id : Int) (newName : String) (prev : List Runner) : List Runner :=
  prev.map fun r => if r.id = id then { r with name := newName } else r

/-- The list `runners.map(r => ({ ...r, splits: [], finished: false, finalTime: null }))`
written by the confirmed reset. -/
def resetRunners (runners : List Runner) : List Runner :=
  runners.map fun r => { r with splits := [], finished := false, finalTime := none }

/-! ## Name import (`handleFileChange`) -/

/-- White space removed by `String.prototype.trim`. -/
def isJsSpace (c : Char) : Bool :=
  c.val = 0x09 || c.val = 0x0A || c.val = 0x0B || c.val = 0x0C || c.val = 0x0D ||
  c.val = 0x20 || c.val = 0xA0 || c.val = 0x1680 || (0x2000 ≤ c.val && c.val ≤ 0x200A) ||
  c.val = 0x2028 || c.val = 0x2029 || c.val = 0x202F || c.val = 0x205F || c.val = 0x3000 ||
  c.val = 0xFEFF

/-- The method `trim()`. -/
def jsTrim (s : List Char) : List Char :=
  ((s.dropWhile isJsSpace).reverse.dropWhile isJsSpace).reverse

/-- The call `replace(/^q|q$/g, '')` for a quote character `q`: a leading `q` is removed,
then a `q` that ends what is left. -/
def stripQuote (q : Char) (s : List Char) : List Char :=
  let s1 := match s with
    | c :: rest => if c = q then rest else s
    | [] => []
  match s1.reverse with
  | c :: rest => if c = q then rest.reverse else s1
  | [] => []

/-- The name taken from one line: `trim().replace(/^"|"$/g, '').replace(/^'|'$/g, '')`. -/
def cleanName (line : List Char) : List Char :=
  stripQuote '\'' (stripQuote '"' (jsTrim line))

/-- The loop of `split(/\r?\n/)`: `cur` holds the current line reversed. -/
def splitLinesAux : List Char → List Char → List (List Char)
  | cur, [] => [cur.reverse]
  | cur, '\n' :: rest => cur.reverse :: splitLinesAux [] rest
  | cur, '\r' :: '\n' :: rest => cur.reverse :: splitLinesAux [] rest
  | cur, c :: rest => splitLinesAux (c :: cur) rest

/-- The call `text.split(/\r?\n/)`. -/
def splitLines (text : List Char) : List (List Char) := splitLinesAux [] text

/-- The test `s.includes(pat)`. -/
def includes (pat : List Char) : List Char → Bool
  | [] => pat.isEmpty
  | c :: rest => pat.isPrefixOf (c :: rest) || includes pat rest

/-- The test `lines[0].toLowerCase().includes('nama')`. Only `N`, `A` and `M` lower-case
to `n`, `a` and `m`, so lower-casing the ASCII letters decides it. -/
def isHeaderLine (line : List Char) : Bool :=
  includes "nama".toList (line.map Char.toLower)

/-- The loop building `newRunners`: ids count up from `currentId`, one per non-empty name. -/
def importLoop : Int → List (List Char) → List Runner
  | _, [] => []
  | currentId, line :: rest =>
    let name := cleanName line
    if name ≠ [] then
      { id := currentId, name := String.mk name, splits := [], finished := false,
        finalTime := none } :: importLoop (currentId + 1) rest
    else importLoop currentId rest

/-- The array `newRunners` of `reader.onload`; `runners` is the store the handler closed
over, from which the first new id is computed. -/
def newRunners (runners : List Runner) (text : String) : List Runner :=
  let lines := splitLines text.toList
  let startIndex := if isHeaderLine (lines.headD []) then 1 else 0
  importLoop (nextId runners) (lines.drop startIndex)

/-- The store after `reader.onload`: `setRunners(prev => [...prev, ...newRunners])`, run only
when `newRunners` is non-empty. -/
def importNames (runners : List Runner) (text : String) (prev : List Runner) : List Runner :=
  if (newRunners runners text).length > 0 then prev ++ newRunners runners text else prev

/-! ## Ranking -/

/-- Stable insertion of `a` into a list sorted by the comparator `cmp`. -/
def jsInsert {α : Type} (cmp : α → α → Int) (a : α) : List α → List α
  | [] => [a]
  | b :: l => if cmp a b ≤ 0 then a :: b :: l else b :: jsInsert cmp a l

/-- The method `Array.prototype.sort(cmp)`, which is a stable sort: elements that compare
equal keep their order. Embedded as insertion sort. -/
def jsSort {α : Type} (cmp : α → α → Int) : List α → List α
  | [] => []
  | a :: l => jsInsert cmp a (jsSort cmp l)

/-- The comparator `(a, b) => a.finalTime - b.finalTime` (a `null` operand counts as 0). -/
def cmpFinalTime (a b : Runner) : Int := a.finalTime.getD 0 - b.finalTime.getD 0

/-- The filter `r => r.finished && r.finalTime !== null`. -/
def isRanked (r : Runner) : Bool := r.finished && r.finalTime != none

/-- The list `finishedRunners`. -/
def finishedRunners (runners : List Runner) : List Runner :=
  jsSort cmpFinalTime (runners.filter isRanked)

/-- The `rank` and `label` fields of the object returned by `getRankData`
(the two colour fields are presentation only). -/
structure RankData where
  rank : Nat
  label : String
deriving DecidableEq, Repr

/-- The method `Array.prototype.findIndex`; `none` stands for the result `-1`. -/
def findIndex {α : Type} (p : α → Bool) : List α → Option Nat
  | [] => none
  | a :: l => if p a then some 0 else (findIndex p l).map (· + 1)

/-- The function `getRankData(id)`; `none` stands for `null`. -/
def getRankData (runners : List Runner) (id : Int) : Option RankData :=
  match findIndex (fun r => r.id = id) (finishedRunners runners) with
  | none => none
  | some index =>
    some { rank := index + 1,
           label := if index = 0 then "Juara 1" else if index = 1 then "Juara 2"
                    else if index = 2 then "Juara 3" else "Posisi " ++ toString (index + 1) }

/-! ## Application state and user events -/

/-- The closure stored in `modal.onConfirm`. -/
inductive ModalAction where
  /-- Set by `resetTimer`; it closes over the `runners` rendered when the dialog opened. -/
  | resetAll (runners : List Runner)
  | removeRunner (id : Int)
  | deleteAllRunners
  | deleteSplit (runnerId : Int) (splitUniqueId : SplitId)
deriving DecidableEq, Repr

/-- The state cells of `App` that the timing engine uses. `toasts` is the log of the
messages passed to `addToast`; `modal` is `none` when no dialog is open. -/
structure App where
  masterTime : Int
  isRunning : Bool
  runners : List Runner
  modal : Option ModalAction
  toasts : List String
deriving DecidableEq, Repr

/-- The handler `toggleTimer`. -/
def toggleTimer (app : App) : App :=
  let newState := !app.isRunning
  { app with isRunning := newState,
             toasts := app.toasts ++ [if newState then "Stopwatch dimulai" else "Stopwatch dipause"] }

/-- The constant `hasData` of `resetTimer`:
`masterTime > 0 || runners.some(r => r.splits.length > 0)`. -/
def hasData (app : App) : Bool :=
  decide (app.masterTime > 0) || app.runners.any fun r => r.splits.length > 0

/-- The handler `resetTimer`: with data present it only opens the confirmation dialog. -/
def resetTimer (app : App) : App :=
  if hasData app then
    { app with modal := some (ModalAction.resetAll app.runners) }
  else
    { app with isRunning := false, masterTime := 0, toasts := app.toasts ++ ["Waktu di-reset"] }

/-- A click on the dialog's confirm button: runs `modal.onConfirm`. -/
def confirmModal (app : App) : App :=
  match app.modal with
  | none => app
  | some (ModalAction.resetAll runners) =>
    { app with isRunning := false, masterTime := 0, runners := resetRunners runners,
               toasts := app.toasts ++ ["Waktu berhasil di-reset"], modal := none }
  | some (ModalAction.removeRunner id) =>
    { app with runners := removeRunner id app.runners,
               toasts := app.toasts ++ ["Pelari dihapus"], modal := none }
  | some ModalAction.deleteAllRunners =>
    { app with runners := [], toasts := app.toasts ++ ["Semua peserta berhasil dihapus"],
               modal := none }
  | some (ModalAction.deleteSplit runnerId splitUniqueId) =>
    { app with runners := deleteSplit runnerId splitUniqueId app.runners,
               toasts := app.toasts ++ ["Split berhasil dihapus"], modal := none }

/-- The toasts `addToast(r.name + " telah Finish!")` emitted inside the `finishRunner` updater. -/
def finishToasts (id : Int) (prev : List Runner) : List String :=
  (prev.filter fun r => r.id = id).map fun r => r.name ++ " telah Finish!"

/-- A click on the SPLIT button of the runner card at position `i`. The button is rendered
only when `!runner.finished` and carries `disabled={!isRunning}`. -/
def clickSplit (newId : SplitId) (i : Nat) (app : App) : App :=
  match app.runners[i]? with
  | none => app
  | some runner =>
    if !runner.finished && !(!app.isRunning) then
      { app with runners := recordSplit app.masterTime newId runner.id app.runners }
    else app

/-- A click on the STOP button of the runner card at position `i`. The button is rendered
only when `!runner.finished` and carries `disabled={!isRunning && masterTime === 0}`. -/
def clickFinish (newId : SplitId) (i : Nat) (app : App) : App :=
  match app.runners[i]? with
  | none => app
  | some runner =>
    if !runner.finished && !(!app.isRunning && decide (app.masterTime = 0)) then
      { app with runners := finishRunner app.masterTime newId runner.id app.runners,
                 toasts := app.toasts ++ finishToasts runner.id app.runners }
    else app

/-- The auto-stop effect, `useEffect(..., [runners, isRunning])`: it runs after every render
in which the store or the running flag changed. -/
def autoStop (app : App) : App :=
  if app.isRunning && decide (app.runners.length > 0) && app.runners.all (fun r => r.finished)
  then { app with isRunning := false, toasts := app.toasts ++ ["Semua pelari selesai!"] }
  else app

/-- One firing of the interval callback `setMasterTime(Date.now() - startTimeRef.current)`;
`elapsed` is the value it writes. The interval exists only while `isRunning` holds. -/
def tick (elapsed : Int) (app : App) : App :=
  if app.isRunning then { app with masterTime := elapsed } else app

/-- The handler `addRunner` on the application state: the updater and its toast. -/
def App.addRunner (app : App) : App :=
  { app with runners := Stopwatch.addRunner app.runners,
             toasts := app.toasts ++ ["Pelari " ++ toString (nextId app.runners) ++ " ditambahkan"] }

/-- The body of `reader.onload` after `text.split(/\r?\n/)`: the array `newRunners` computed
from the lines. -/
def linesToRunners (runners : List Runner) (lines : List (List Char)) : List Runner :=
  let startIndex := if isHeaderLine (lines.headD []) then 1 else 0
  importLoop (nextId runners) (lines.drop startIndex)

/-! ## Numbers

A JavaScript number is an IEEE-754 binary64 value. A finite one is taken as the rational it
denotes; every arithmetic operation returns its exact result rounded by `toDouble`. -/

/-- Rounds to the nearest integer, a tie to the even one. -/
def roundHalfEven (x : ℚ) : Int :=
  if x - ⌊x⌋ < 1 / 2 then ⌊x⌋
  else if 1 / 2 < x - ⌊x⌋ then ⌊x⌋ + 1
  else if ⌊x⌋ % 2 = 0 then ⌊x⌋ else ⌊x⌋ + 1

/-- The binary exponent of the last place of the binary64 values around `x`: 52 below the
exponent `e` with `2 ^ e ≤ |x| < 2 ^ (e + 1)`, and -1074 for the subnormal values, whose
exponent counts as -1022. -/
def ulpExp (x : ℚ) : Int := max (Int.log 2 |x|) (-1022) - 52

/-- The multiple of the last place nearest to `x`, a tie to the even one: the binary64 value
that an operation with the exact result `x` returns, when the result is finite. -/
def toDouble (x : ℚ) : ℚ := (roundHalfEven (x / 2 ^ ulpExp x) : ℚ) * 2 ^ ulpExp x

/-- The quotient `x / y` of two finite numbers, `y` not zero. -/
def jsDiv (x y : ℚ) : ℚ := toDouble (x / y)

/-- The remainder `x % y` of two finite numbers, `y` not zero: it has the sign of `x` and is
exact. -/
def jsRem (x y : ℚ) : ℚ := x - y * (if 0 ≤ x / y then ⌊x / y⌋ else ⌈x / y⌉)

/-- A number: a finite binary64 value as the rational it denotes (zero without its sign),
an infinity, or `NaN`. -/
inductive JsNumber where
  | finite (value : ℚ)
  | infinity (negative : Bool)
  | nan
deriving DecidableEq, Repr

/-- The number an operation with the exact result `x` returns: `x` rounded, or an infinity
when the rounded magnitude reaches 2^1024. -/
def JsNumber.ofRat (x : ℚ) : JsNumber :=
  if (2 : ℚ) ^ 1024 ≤ |toDouble x| then JsNumber.infinity (decide (x < 0))
  else JsNumber.finite (toDouble x)

/-- The product `x * y`. -/
def JsNumber.mul : JsNumber → JsNumber → JsNumber
  | JsNumber.finite a, JsNumber.finite b => JsNumber.ofRat (a * b)
  | JsNumber.finite a, JsNumber.infinity n =>
    if a = 0 then JsNumber.nan else JsNumber.infinity (xor n (decide (a < 0)))
  | JsNumber.infinity n, JsNumber.finite b =>
    if b = 0 then JsNumber.nan else JsNumber.infinity (xor n (decide (b < 0)))
  | JsNumber.infinity n, JsNumber.infinity m => JsNumber.infinity (xor n m)
  | _, _ => JsNumber.nan

/-- The sum `x + y`. -/
def JsNumber.add : JsNumber → JsNumber → JsNumber
  | JsNumber.finite a, JsNumber.finite b => JsNumber.ofRat (a + b)
  | JsNumber.finite _, JsNumber.infinity n => JsNumber.infinity n
  | JsNumber.infinity n, JsNumber.finite _ => JsNumber.infinity n
  | JsNumber.infinity n, JsNumber.infinity m =>
    if n = m then JsNumber.infinity n else JsNumber.nan
  | _, _ => JsNumber.nan

/-- The expression `x || 0` on a number: `NaN` and zero are falsy. -/
def JsNumber.orZero : JsNumber → JsNumber
  | JsNumber.nan => JsNumber.finite 0
  | JsNumber.finite a => if a = 0 then JsNumber.finite 0 else JsNumber.finite a
  | JsNumber.infinity n => JsNumber.infinity n

/-! ## Time formatting -/

/-- The shortest decimal `s * 10 ^ p` that reads back as the number `v`, as `(s, p)`; of
two candidates with the same number of digits the one nearer to `v`, or the even one. -/
def shortestDecimal (v : Nat) : Nat × Nat :=
  let found := (List.range ((Nat.toDigits 10 v).length + 1)).reverse.filterMap fun p =>
    let lo := v / 10 ^ p
    let hi := lo + 1
    let okLo := decide (0 < lo) && decide (toDouble ((lo * 10 ^ p : Nat) : ℚ) = (v : ℚ))
    let okHi := decide (toDouble ((hi * 10 ^ p : Nat) : ℚ) = (v : ℚ))
    if okLo && okHi then
      if v - lo * 10 ^ p < hi * 10 ^ p - v then some (lo, p)
      else if hi * 10 ^ p - v < v - lo * 10 ^ p then some (hi, p)
      else if lo % 2 = 0 then some (lo, p) else some (hi, p)
    else if okLo then some (lo, p)
    else if okHi then some (hi, p)
    else none
  found.headD (v, 0)

/-- The text of a number with an integer value, as in a template literal or `toString()`.
Below 2^53 in magnitude it is the decimal expansion; from there on the digits of the
shortest decimal that reads back as the number, followed by zeros, and from 10^21 on the
exponent form. -/
def numberToString (n : Int) : String :=
  if n.natAbs < 2 ^ 53 then toString n
  else
    let sp := shortestDecimal n.natAbs
    let digits := Nat.toDigits 10 sp.1
    let sign := if n < 0 then "-" else ""
    if digits.length + sp.2 ≤ 21 then
      sign ++ String.mk digits ++ String.mk (List.replicate sp.2 '0')
    else
      sign ++ String.mk (digits.take 1) ++
        (if digits.length > 1 then "." ++ String.mk (digits.drop 1) else "") ++
        "e+" ++ toString (digits.length + sp.2 - 1)

/-- The expression `` `0${n}`.slice(-2) ``: the last two characters of "0" followed by the
text of `n`. -/
def pad2 (n : Int) : String :=
  let s := ("0" ++ numberToString n).toList
  String.mk (s.drop (s.length - 2))

/-- The function `formatTime` on a number with an integer value (the guard for non-numbers
returns "00:00.00"). `/` is the rounded quotient `jsDiv`, `%` the exact remainder `jsRem`
and `Math.floor` the floor. An integer that is not itself a binary64 value (some integers
from 2^53 on are not) is no possible argument. -/
def formatTime (time : Int) : String :=
  let milliseconds := pad2 ⌊jsDiv (jsRem time 1000) 10⌋
  let seconds := pad2 ⌊jsRem (jsDiv time 1000) 60⌋
  let minutes := pad2 ⌊jsRem (jsDiv time 60000) 60⌋
  let hours := ⌊jsDiv time 3600000⌋
  if hours > 0 then
    numberToString hours ++ ":" ++ minutes ++ ":" ++ seconds ++ "." ++ milliseconds
  else minutes ++ ":" ++ seconds ++ "." ++ milliseconds

/-! ## Target pace -/

/-- Puts `c` in front of the first segment. -/
def consHead (c : Char) : List (List Char) → List (List Char)
  | seg :: segs => (c :: seg) :: segs
  | [] => [[c]]

/-- The method `split(sep)` for a one-character separator. -/
def jsSplit (sep : Char) : List Char → List (List Char)
  | [] => [[]]
  | c :: rest => if c = sep then [] :: jsSplit sep rest else consHead c (jsSplit sep rest)

/-- The value of a text of decimal digits. -/
def digitsValue (ds : List Char) : Nat :=
  ds.foldl (fun acc c => acc * 10 + (c.toNat - '0'.toNat)) 0

/-- The optional sign read by `parseInt`, and the text after it. -/
def stripSign : List Char → Int × List Char
  | '-' :: r => (-1, r)
  | '+' :: r => (1, r)
  | s => (1, s)

/-- The call `parseInt(s, 10)`. Leading white space is skipped, an optional sign is read,
then the longest run of decimal digits; the result is the number for the integer they
denote (that integer rounded, an infinity from 2^1024 on), and `NaN` when there is no
digit. -/
def parseInt10 (s : List Char) : JsNumber :=
  let signed := stripSign (s.dropWhile isJsSpace)
  let ds := signed.2.takeWhile Char.isDigit
  if ds.isEmpty then JsNumber.nan else JsNumber.ofRat ((signed.1 * (digitsValue ds : Int) : Int) : ℚ)

/-- The function `parseTargetToMs`. -/
def parseTargetToMs (str : String) : JsNumber :=
  if str = "" then JsNumber.finite 0
  else
    let parts := jsSplit ':' str.toList
    if parts.length ≠ 2 then JsNumber.finite 0
    else
      let min := (parseInt10 (parts.getD 0 [])).orZero
      let sec := (parseInt10 (parts.getD 1 [])).orZero
      (min.mul (JsNumber.finite 60000)).add (sec.mul (JsNumber.finite 1000))

/-! ## Chart data -/

/-- A value stored in a chart point: a text or a number. -/
inductive JsValue where
  | str (s : String)
  | num (n : Int)
deriving DecidableEq, Repr

/-- An object as the list of its own properties, in insertion order. (JavaScript enumerates
integer-like keys before the others; the property reads below do not depend on the
order.) -/
abbrev JsObject := List (String × JsValue)

/-- The property read `o[key]`; `none` stands for `undefined`. -/
def objGet : JsObject → String → Option JsValue
  | [], _ => none
  | (k, v) :: rest, key => if k = key then some v else objGet rest key

/-- Overwrites the value of the property `key` where it stands. -/
def objReplace (key : String) (v : JsValue) : JsObject → JsObject
  | [] => []
  | (k, x) :: rest =>
    if k = key then (key, v) :: objReplace key v rest else (k, x) :: objReplace key v rest

/-- The assignment `o[key] = v` of a number or text: an existing property is overwritten in
place, a new one is added last; an assignment to `__proto__` of a value that is not an
object is ignored. -/
def objSet (o : JsObject) (key : String) (v : JsValue) : JsObject :=
  if key = "__proto__" then o
  else if (objGet o key).isSome then objReplace key v o
  else o ++ [(key, v)]

/-- The body of `runners.forEach(r => ...)` in `chartData` for lap index `i`. -/
def chartStep (filterRunnerId : String) (i : Nat) (point : JsObject) (r : Runner) : JsObject :=
  if filterRunnerId ≠ "all" ∧ toString r.id ≠ filterRunnerId then point
  else
    match r.splits.find? fun s => s.index = (i : Int) with
    | some split => objSet point r.name (JsValue.num split.lap)
    | none => point

/-- The object `point` pushed for lap index `i`. -/
def chartPoint (filterRunnerId : String) (runners : List Runner) (i : Nat) : JsObject :=
  runners.foldl (chartStep filterRunnerId i) [("lapName", JsValue.str ("Lap " ++ toString i))]

/-- The constant `maxLaps`: `Math.max(0, ...runners.map(r => r.splits.length))`. -/
def maxLaps (runners : List Runner) : Nat :=
  (runners.map fun r => r.splits.length).foldl max 0

/-- The memo `chartData`. -/
def chartData (filterRunnerId : String) (runners : List Runner) : List JsObject :=
  (List.range (maxLaps runners)).map fun k => chartPoint filterRunnerId runners (k + 1)

/-! ## Export -/

/-- The function `getRank` of `exportToCSV`, as the text it contributes to a row. -/
def getRank (runners : List Runner) (id : Int) : String :=
  match findIndex (fun r => r.id = id) (finishedRunners runners) with
  | none => "-"
  | some idx => toString (idx + 1)

/-- The array `headers`. -/
def csvHeaders : List String :=
  ["Peringkat", "Nama Pelari", "Lap #", "Waktu Lap", "Waktu Total", "Status"]

/-- The array `rows`: one array of six cells per split. -/
def csvRows (runners : List Runner) : List (List String) :=
  runners.flatMap fun r => r.splits.map fun s =>
    [getRank runners r.id, "\"" ++ r.name ++ "\"", toString s.index, formatTime s.lap,
     formatTime s.total, if s.isFinish then "Finish" else "Split"]

/-- The text `csvContent` that `exportToCSV` puts in the file. -/
def csvContent (runners : List Runner) : String :=
  String.intercalate "\n"
    (String.intercalate "," csvHeaders :: (csvRows runners).map (String.intercalate ","))

/-! ## The split table -/

/-- The object `{ ...s, runnerName: r.name, runnerId: r.id }`: a copy of the split `s` with
the owner's name and id added. -/
structure SplitRow where
  split : Split
  runnerName : String
  runnerId : Int
deriving DecidableEq, Repr

/-- The comparator `(a, b) => b.total - a.total`. -/
def cmpChronological (a b : SplitRow) : Int := b.split.total - a.split.total

/-- The comparator of the grouped mode: by `runnerId`, then by `index`. -/
def cmpGrouped (a b : SplitRow) : Int :=
  if a.runnerId ≠ b.runnerId then a.runnerId - b.runnerId else a.split.index - b.split.index

/-- The array `runners.flatMap(r => r.splits.map(s => ({ ...s, ... })))`. -/
def flattenSplits (runners : List Runner) : List SplitRow :=
  runners.flatMap fun r => r.splits.map fun s =>
    { split := s, runnerName := r.name, runnerId := r.id }

/-- The memo `processedSplits`. -/
def processedSplits (runners : List Runner) (filterRunnerId sortMode : String) :
    List SplitRow :=
  let splits := flattenSplits runners
  let splits :=
    if filterRunnerId ≠ "all" then splits.filter fun s => toString s.runnerId = filterRunnerId
    else splits
  if sortMode = "chronological" then jsSort cmpChronological splits
  else jsSort cmpGrouped splits

/-! ## Operation sequences on the runner store -/

/-- One mutation of the runner store, with the values it reads from its environment. -/
inductive Op where
  | addRunner
  | importNames (closedOver : List Runner) (text : String)
  | updateRunnerName (id : Int) (newName : String)
  | recordSplit (masterTime : Int) (newId : SplitId) (id : Int)
  | finishRunner (masterTime : Int) (newId : SplitId) (id : Int)
  | deleteSplit (runnerId : Int) (splitUniqueId : SplitId)
  | removeRunner (id : Int)
  | deleteAllRunners
  | resetSession (closedOver : List Runner)

/-- The store after one operation. -/
def Op.apply : Op → List Runner → List Runner
  | Op.addRunner, rs => Stopwatch.addRunner rs
  | Op.importNames c text, rs => Stopwatch.importNames c text rs
  | Op.updateRunnerName id n, rs => Stopwatch.updateRunnerName id n rs
  | Op.recordSplit t sid id, rs => Stopwatch.recordSplit t sid id rs
  | Op.finishRunner t sid id, rs => Stopwatch.finishRunner t sid id rs
  | Op.deleteSplit rid sid, rs => Stopwatch.deleteSplit rid sid rs
  | Op.removeRunner id, rs => Stopwatch.removeRunner id rs
  | Op.deleteAllRunners, rs => Stopwatch.deleteAllRunners rs
  | Op.resetSession c, _ => resetRunners c

/-- The store after a sequence of operations, applied left to right. -/
def run (rs : List Runner) (ops : List Op) : List Runner :=
  ops.foldl (fun s op => op.apply s) rs

/-! ## Specification-side definitions -/

/-- A recursion over the log that computes what `recalculate` computes: `idx` is the
0-based position of the head and `prev` the total of the split before it. -/
def recalcFrom (idx : Nat) (prev : Int) : List Split → List Split
  | [] => []
  | s :: rest =>
    { s with index := (idx : Int) + 1, lap := s.total - prev } ::
      recalcFrom (idx + 1) s.total rest

/-- The fields of a split that `deleteSplit` copies: `id`, `total` and `isFinish`. -/
def Split.kept (s : Split) : SplitId × Int × Bool := (s.id, s.total, s.isFinish)

/-- The index/lap invariant of a log whose head sits at 0-based position `idx` after a split
of total `prev`: `index` is the 1-based position and `lap` the difference of totals. -/
def IndexLapFrom (idx : Nat) (prev : Int) : List Split → Prop
  | [] => True
  | s :: rest =>
    s.index = (idx : Int) + 1 ∧ s.lap = s.total - prev ∧ IndexLapFrom (idx + 1) s.total rest

instance IndexLapFrom.decide (l : List Split) :
    ∀ (idx : Nat) (prev : Int), Decidable (IndexLapFrom idx prev l) := by
  induction l with
  | nil => intro _ _; exact isTrue trivial
  | cons s rest ih =>
    intro idx prev
    have := ih (idx + 1) s.total
    unfold IndexLapFrom
    infer_instance

/-- The index/lap invariant of a whole log. -/
def IndexLapInv (l : List Split) : Prop := IndexLapFrom 0 0 l

instance IndexLapInv.decide (l : List Split) : Decidable (IndexLapInv l) :=
  IndexLapFrom.decide l 0 0

/-- The totals of a log are in non-decreasing order. -/
def SortedByTotal (l : List Split) : Prop := l.Pairwise fun a b => a.total ≤ b.total

/-- The lap rule of a log, by position: the first split's `lap` is its own `total`, every
later split's `lap` is its `total` minus the `total` of the split just before it. -/
def LapsConsistent (l : List Split) : Prop :=
  ∀ (k : Nat) (s : Split), l[k]? = some s →
    match k with
    | 0 => s.lap = s.total
    | j + 1 => ∃ p, l[j]? = some p ∧ s.lap = s.total - p.total

/-- What `deleteSplit` makes of the splits that followed the deleted split `d`: every
`index` is lowered by one and the first split takes over the lap of `d`. -/
def shiftAfterDelete (d : Split) : List Split → List Split
  | [] => []
  | n :: rest =>
    { n with index := n.index - 1, lap := n.lap + d.lap } ::
      rest.map fun s => { s with index := s.index - 1 }

/-- The log rule relative to the total `prev` of the split before the head: totals do not
decrease from `prev` on, and every `lap` is the difference to the total before it. -/
def LapsFrom (prev : Int) : List Split → Prop
  | [] => True
  | s :: rest => prev ≤ s.total ∧ s.lap = s.total - prev ∧ LapsFrom s.total rest

/-- The total of the last split of a log, `prev` for the empty log. -/
def lastFrom (prev : Int) : List Split → Int
  | [] => prev
  | s :: rest => lastFrom s.total rest

/-- A log obeys the log rule from 0 and holds no total above the clock value `t`. -/
def LogOK (t : Int) (l : List Split) : Prop := LapsFrom 0 l ∧ ∀ s ∈ l, s.total ≤ t

/-- The total of the last split of a log, 0 for the empty log. -/
def lastTotal (l : List Split) : Int :=
  match l.getLast? with
  | some s => s.total
  | none => 0

/-- The rank that `getRankData` reports for a runner id, if any. -/
def rankOf (runners : List Runner) (id : Int) : Option Nat :=
  (getRankData runners id).map RankData.rank

/-- The invariant of the data model: `finished` holds exactly when `finalTime` is set. -/
def FinishedIffFinal (r : Runner) : Prop := r.finished = true ↔ r.finalTime ≠ none

/-- A state with the clock running at 5000 ms over the initial store, no dialog open. -/
def runningAt5000 : App :=
  { masterTime := 5000, isRunning := true, runners := initialRunners, modal := none,
    toasts := [] }

/-- Runner `a` stands before runner `b` in the store. -/
def Before (rs : List Runner) (a b : Runner) : Prop :=
  ∃ i j : Nat, i < j ∧ rs[i]? = some a ∧ rs[j]? = some b

/-- The order a stable sort by `cmp` produces from a list ordered by `S`: `x` compares at or
below `y`, and where the two compare equal `x` came first. -/
def StableOrder {α : Type} (cmp : α → α → Int) (S : α → α → Prop) (x y : α) : Prop :=
  cmp x y ≤ 0 ∧ (cmp y x ≤ 0 → S x y)

/-- The store of the ranking example in creation order A, B: A finished at 60000 and
B at 58000. -/
def storeAB : List Runner :=
  [{ id := 1, name := "A", splits := [], finished := true, finalTime := some 60000 },
   { id := 2, name := "B", splits := [], finished := true, finalTime := some 58000 }]

/-- The store of the ranking example in creation order B, A. -/
def storeBA : List Runner :=
  [{ id := 1, name := "B", splits := [], finished := true, finalTime := some 58000 },
   { id := 2, name := "A", splits := [], finished := true, finalTime := some 60000 }]

/-- The operations of the split engine: record, finish and confirmed delete. -/
def Op.isSplitOp : Op → Bool
  | Op.recordSplit _ _ _ => true
  | Op.finishRunner _ _ _ => true
  | Op.deleteSplit _ _ => true
  | _ => false

/-- The clock value an operation reads, if it reads the clock. -/
def Op.clock : Op → Option Int
  | Op.recordSplit t _ _ => some t
  | Op.finishRunner t _ _ => some t
  | _ => none

/-- The clock values read along a sequence of operations, in order. -/
def clocks (ops : List Op) : List Int := ops.filterMap Op.clock

/-- The state reached from `runningAt5000` when its only runner is stopped and the auto-stop
effect has run: the clock is paused at 5000 ms and the completion toast is out once. -/
def autoStopped : App := autoStop (clickFinish 9 0 runningAt5000)

/-- A text whose lines are `lines`: the lines joined by line feeds. -/
def joinLines : List (List Char) → List Char
  | [] => []
  | [l] => l
  | l :: rest => l ++ '\n' :: joinLines rest

/-- A line contains the token "nama" in some letter case. -/
def ContainsNama (line : List Char) : Prop :=
  ∃ pre w post : List Char, line = pre ++ w ++ post ∧ w.map Char.toLower = "nama".toList

/-- Fresh runners for a list of names: unfinished, no final time, no splits, with
consecutive ids from `firstId` on. -/
def freshRunners (firstId : Int) : List (List Char) → List Runner
  | [] => []
  | name :: rest =>
    { id := firstId, name := String.mk name, splits := [], finished := false,
      finalTime := none } :: freshRunners (firstId + 1) rest

/-- The names an import takes from lines: the cleaned lines that are not empty. -/
def survivingNames (lines : List (List Char)) : List (List Char) :=
  (lines.map cleanName).filter fun n => n ≠ []

/-- The store an operation's handler closed over is the store it is applied to: the handler
runs atomically, with no other mutation between the render it was created in and its
effect. -/
def Op.closesOver : Op → List Runner → Prop
  | Op.importNames c _, rs => c = rs
  | Op.resetSession c, rs => c = rs
  | _, _ => True

/-- Every operation of the sequence runs atomically on the store it finds. -/
def Synchronous : List Runner → List Op → Prop
  | _, [] => True
  | rs, op :: ops => op.closesOver rs ∧ Synchronous (op.apply rs) ops

/-- A text neither begins nor ends with a double or single quote character. -/
def Unquoted (s : List Char) : Prop :=
  s.head? ≠ some '"' ∧ s.head? ≠ some '\'' ∧ s.getLast? ≠ some '"' ∧ s.getLast? ≠ some '\''

/-- A run for the id invariant: a runner is added, one name is imported, the first runner is
removed, another runner is added and the session is reset. -/
def idRun : List Op :=
  [Op.addRunner, Op.importNames (Stopwatch.addRunner initialRunners) "Budi", Op.removeRunner 1,
   Op.addRunner,
   Op.resetSession (run initialRunners
     [Op.addRunner, Op.importNames (Stopwatch.addRunner initialRunners) "Budi",
      Op.removeRunner 1, Op.addRunner])]

/-- The number `n < 100` written as exactly two decimal digits. -/
def twoDigits (n : Nat) : String := String.mk [Nat.digitChar (n / 10), Nat.digitChar (n % 10)]

/-- Two runners that share the name "Budi", each with one split. -/
def sameNameStore : List Runner :=
  [{ id := 1, name := "Budi", finished := false, finalTime := none,
     splits := [{ index := 1, total := 12000, lap := 12000, isFinish := false, id := 7 }] },
   { id := 2, name := "Budi", finished := false, finalTime := none,
     splits := [{ index := 1, total := 15000, lap := 15000, isFinish := false, id := 8 }] }]

/-- Runner A with two splits and runner B with one. -/
def chartStore : List Runner :=
  [{ id := 1, name := "A", finished := false, finalTime := none,
     splits := [{ index := 1, total := 12000, lap := 12000, isFinish := false, id := 7 },
                { index := 2, total := 20000, lap := 8000, isFinish := false, id := 8 }] },
   { id := 2, name := "B", finished := false, finalTime := none,
     splits := [{ index := 1, total := 15000, lap := 15000, isFinish := false, id := 9 }] }]

/-- Every split with the runner that owns it, runners in store order, splits in log order. -/
def ownedSplits : List Runner → List (Runner × Split)
  | [] => []
  | r :: rest => r.splits.map (fun s => (r, s)) ++ ownedSplits rest

/-- The text of the export row of a split `s` of runner `r`, `rank` being the rank cell. -/
def rowText (rank : String) (r : Runner) (s : Split) : String :=
  rank ++ "," ++ "\"" ++ r.name ++ "\"" ++ "," ++ toString s.index ++ "," ++ formatTime s.lap ++
    "," ++ formatTime s.total ++ "," ++ (if s.isFinish then "Finish" else "Split")

/-- Runner A finished at 20050 ms with two splits, runner B still running with one. -/
def exportStore : List Runner :=
  [{ id := 1, name := "A", finished := true, finalTime := some 20050,
     splits := [{ index := 1, total := 12000, lap := 12000, isFinish := false, id := 7 },
                { index := 2, total := 20050, lap := 8050, isFinish := true, id := 8 }] },
   { id := 2, name := "B", finished := false, finalTime := none,
     splits := [{ index := 1, total := 15000, lap := 15000, isFinish := false, id := 9 }] }]

/-- The runners a filter value selects: all of them for "all". -/
def selectedRunners (runners : List Runner) (filterRunnerId : String) : List Runner :=
  if filterRunnerId = "all" then runners
  else runners.filter fun r => toString r.id = filterRunnerId

/-- Row `a` stands before row `b` in `l`. -/
def RowBefore (l : List SplitRow) (a b : SplitRow) : Prop := [a, b].Sublist l

/-- A store whose only runner, not finished, has one split at 5000 ms. -/
def splitAt5000 : List Runner :=
  [{ id := 1, name := "A", finished := false, finalTime := none,
     splits := [{ index := 1, total := 5000, lap := 5000, isFinish := false, id := 7 }] }]

/-- A store whose only runner, not finished, has splits at 12000 and 20000 ms. -/
def twoSplits : List Runner :=
  [{ id := 1, name := "A", finished := false, finalTime := none,
     splits := [{ index := 1, total := 12000, lap := 12000, isFinish := false, id := 7 },
                { index := 2, total := 20000, lap := 8000, isFinish := false, id := 8 }] }]

/-- The sign a sign text stands for: -1 for "-", else 1. -/
def signOf (sg : List Char) : Int := if sg = ['-'] then -1 else 1

/-- The text `ws ++ sg ++ ds ++ r` is read by `parseInt` as white space `ws`, a sign text
`sg` (empty, "+" or "-"), decimal digits `ds` and a rest `r` that does not start with a
digit. With neither sign nor digit the rest starts with neither white space nor a sign. -/
def ReadsAs (ws sg ds r : List Char) : Prop :=
  (∀ c ∈ ws, isJsSpace c = true) ∧ (sg = [] ∨ sg = ['+'] ∨ sg = ['-']) ∧
  (∀ c ∈ ds, c.isDigit = true) ∧ (∀ c, r.head? = some c → c.isDigit = false) ∧
  (ds = [] → sg = [] → ∀ c, r.head? = some c → isJsSpace c = false ∧ c ≠ '-' ∧ c ≠ '+')

/-- The store after an import that raced with other handlers: a file with the one line
"Budi" is chosen while the store is the initial one; before the file has been read a runner
is added and finished at 60000 ms; then `reader.onload` runs with the store it closed over,
and a split is recorded at 70000 ms on the card of the imported runner. -/
def raceStore : List Runner :=
  run initialRunners
    [Op.addRunner, Op.finishRunner 60000 7 2, Op.importNames initialRunners "Budi",
     Op.recordSplit 70000 8 2]

/-- The names an import takes from a text: the cleaned, non-empty lines, after the first
line when that one is taken for the header. -/
def importedNames (text : String) : List (List Char) :=
  let lines := splitLines text.toList
  survivingNames (if isHeaderLine (lines.headD []) then lines.tail else lines)

/-- The state in which an import has raced with other handlers: a file with the one line
"Budi" was chosen while the store was the initial one; before it had been read a runner was
added and finished at 60000 ms; then `reader.onload` ran with the store it closed over. The
clock is running at 90000 ms. -/
def raceApp : App :=
  { masterTime := 90000, isRunning := true, modal := none, toasts := [],
    runners := run initialRunners
      [Op.addRunner, Op.finishRunner 60000 7 2, Op.importNames initialRunners "Budi"] }

/-! ## Lemmas on logs -/

theorem lastSplitTime_nil : lastSplitTime [] = 0 := rfl

theorem lastSplitTime_concat (l : List Split) (s : Split) :
    lastSplitTime (l ++ [s]) = s.total := by
  unfold lastSplitTime
  simp [List.getD_eq_getElem?_getD]

theorem recalculate_aux (l : List Split) : ∀ pre : List Split,
    (l.enumFrom pre.length).map (fun p =>
      ({ p.2 with index := (p.1 : Int) + 1,
                  lap := p.2.total - (if p.1 = 0 then 0
                    else ((pre ++ l).getD (p.1 - 1) default).total) } : Split))
      = recalcFrom pre.length (lastSplitTime pre) l := by
  induction l with
  | nil => intro pre; rfl
  | cons a l ih =>
    intro pre
    have h := ih (pre ++ [a])
    simp only [List.length_append, List.length_singleton, List.append_assoc,
      List.singleton_append, lastSplitTime_concat] at h
    simp only [List.enumFrom_cons, List.map_cons, recalcFrom, h]
    congr 2
    rcases List.eq_nil_or_concat pre with hp | ⟨q, b, hp⟩
    · subst hp; simp [lastSplitTime]
    · subst hp
      rw [List.concat_eq_append, lastSplitTime_concat]
      simp [List.getD_eq_getElem?_getD, List.getElem?_append, List.getElem_append_right]

theorem recalculate_eq (l : List Split) : recalculate l = recalcFrom 0 0 l := by
  have h := recalculate_aux l []
  simpa [recalculate, List.enum] using h

theorem recalcFrom_cons (idx : Nat) (prev : Int) (s : Split) (rest : List Split) :
    recalcFrom idx prev (s :: rest) =
      { s with index := (idx : Int) + 1, lap := s.total - prev } ::
        recalcFrom (idx + 1) s.total rest := rfl

theorem recalcFrom_kept (l : List Split) : ∀ (idx : Nat) (prev : Int),
    (recalcFrom idx prev l).map Split.kept = l.map Split.kept := by
  induction l with
  | nil => intro _ _; rfl
  | cons a l ih => intro idx prev; simp [recalcFrom, ih, Split.kept]

theorem recalcFrom_length (l : List Split) : ∀ (idx : Nat) (prev : Int),
    (recalcFrom idx prev l).length = l.length := by
  induction l with
  | nil => intro _ _; rfl
  | cons a l ih => intro idx prev; simp [recalcFrom, ih]

theorem recalcFrom_getElem (l : List Split) : ∀ (idx : Nat) (prev : Int) (k : Nat) (s : Split),
    (recalcFrom idx prev l)[k]? = some s →
      s.index = (idx : Int) + (k : Int) + 1 ∧
      match k with
      | 0 => s.lap = s.total - prev
      | j + 1 => ∃ p, (recalcFrom idx prev l)[j]? = some p ∧ s.lap = s.total - p.total := by
  induction l with
  | nil => intro idx prev k s h; simp [recalcFrom] at h
  | cons a l ih =>
    intro idx prev k s h
    cases k with
    | zero =>
      simp only [recalcFrom, List.getElem?_cons_zero, Option.some.injEq] at h
      subst h
      simp
    | succ k =>
      simp only [recalcFrom, List.getElem?_cons_succ] at h
      obtain ⟨hi, hl⟩ := ih (idx + 1) a.total k s h
      refine ⟨by rw [hi]; push_cast; ring, ?_⟩
      cases k with
      | zero =>
        refine ⟨{ a with index := (idx : Int) + 1, lap := a.total - prev }, ?_, ?_⟩
        · simp [recalcFrom]
        · simpa using hl
      | succ j =>
        obtain ⟨p, hp, hlap⟩ := hl
        exact ⟨p, by simpa [recalcFrom] using hp, hlap⟩

theorem deleteSplit_getElem (prev : List Runner) (runnerId : Int) (sid : SplitId) (i : Nat) :
    (deleteSplit runnerId sid prev)[i]? =
      (prev[i]?).map fun r =>
        if r.id ≠ runnerId then r
        else { r with splits := recalcFrom 0 0 (r.splits.filter fun s => s.id ≠ sid) } := by
  simp [deleteSplit, List.getElem?_map, recalculate_eq]

theorem recalcFrom_shift (l : List Split) : ∀ (idx : Nat) (prev : Int),
    IndexLapFrom (idx + 1) prev l →
      recalcFrom idx prev l = l.map fun s => { s with index := s.index - 1 } := by
  induction l with
  | nil => intro _ _ _; rfl
  | cons a l ih =>
    intro idx prev h
    obtain ⟨hi, hl, hrest⟩ := h
    simp only [recalcFrom, List.map_cons, ih (idx + 1) a.total hrest]
    congr 1
    cases a
    simp only [Split.mk.injEq, and_true, true_and] at *
    constructor
    · rw [hi]; push_cast; ring
    · rw [hl]

theorem recalcFrom_remove (pre : List Split) (d : Split) (post : List Split) :
    ∀ (idx : Nat) (prev : Int), IndexLapFrom idx prev (pre ++ d :: post) →
      recalcFrom idx prev (pre ++ post) =
        pre ++ shiftAfterDelete d post := by
  induction pre with
  | nil =>
    intro idx prev h
    obtain ⟨hi, hl, hrest⟩ := h
    cases post with
    | nil => rfl
    | cons n rest =>
      have hrest2 : IndexLapFrom (idx + 1) d.total (n :: rest) := hrest
      obtain ⟨hni, hnl, hnrest⟩ := hrest2
      simp only [List.nil_append, recalcFrom, shiftAfterDelete,
        recalcFrom_shift rest (idx + 1) n.total hnrest]
      congr 1
      cases n
      simp only [Split.mk.injEq, and_true, true_and] at *
      constructor
      · rw [hni]; push_cast; ring
      · rw [hnl, hl]; ring
  | cons a pre ih =>
    intro idx prev h
    have h2 : IndexLapFrom idx prev (a :: (pre ++ d :: post)) := h
    obtain ⟨hi, hl, hrest⟩ := h2
    rw [List.cons_append, recalcFrom_cons, ih (idx + 1) a.total hrest, List.cons_append]
    congr 1
    cases a
    simp only [Split.mk.injEq, and_true, true_and] at *
    exact ⟨hi.symm, hl.symm⟩

theorem filter_remove_one (pre : List Split) (d : Split) (post : List Split) (sid : SplitId)
    (hd : d.id = sid) (hpre : ∀ s ∈ pre, s.id ≠ sid) (hpost : ∀ s ∈ post, s.id ≠ sid) :
    (pre ++ d :: post).filter (fun s => s.id ≠ sid) = pre ++ post := by
  rw [List.filter_append, List.filter_cons]
  have h1 : pre.filter (fun s => decide (s.id ≠ sid)) = pre :=
    List.filter_eq_self.2 fun s hs => by simpa using hpre s hs
  have h2 : post.filter (fun s => decide (s.id ≠ sid)) = post :=
    List.filter_eq_self.2 fun s hs => by simpa using hpost s hs
  rw [h1, h2]
  simp [hd]

theorem id_ne_of_nodup (prev : List Runner) (hnd : (prev.map fun r => r.id).Nodup)
    (i j : Nat) (r r2 : Runner) (hr : prev[i]? = some r) (hr2 : prev[j]? = some r2)
    (hij : j ≠ i) : r2.id ≠ r.id := by
  intro heq
  have hi : i < prev.length := (List.getElem?_eq_some_iff.1 hr).1
  have hj : j < prev.length := (List.getElem?_eq_some_iff.1 hr2).1
  have e1 : (prev.map fun r => r.id)[i]? = some r.id := by simp [List.getElem?_map, hr]
  have e2 : (prev.map fun r => r.id)[j]? = some r.id := by
    simp [List.getElem?_map, hr2, heq]
  have hi2 : i < (prev.map fun r => r.id).length := by simpa using hi
  have := (List.getElem?_inj hi2 hnd (e1.trans e2.symm))
  exact hij this.symm

/-! ## Lemmas on the log rule -/

theorem lastFrom_concat (l : List Split) (s : Split) : ∀ prev : Int,
    lastFrom prev (l ++ [s]) = s.total := by
  induction l with
  | nil => intro _; rfl
  | cons a l ih => intro prev; exact ih a.total

theorem lastSplitTime_eq (l : List Split) : lastSplitTime l = lastFrom 0 l := by
  rcases List.eq_nil_or_concat l with h | ⟨q, b, h⟩
  · subst h; rfl
  · subst h; rw [List.concat_eq_append, lastSplitTime_concat, lastFrom_concat]

theorem lapsFrom_concat (l : List Split) (s : Split) : ∀ prev : Int,
    LapsFrom prev l → lastFrom prev l ≤ s.total → s.lap = s.total - lastFrom prev l →
      LapsFrom prev (l ++ [s]) := by
  induction l with
  | nil => intro prev _ h1 h2; exact ⟨h1, h2, trivial⟩
  | cons a l ih =>
    intro prev h h1 h2
    obtain ⟨ha, hl, hrest⟩ := h
    exact ⟨ha, hl, ih a.total hrest h1 h2⟩

theorem lastFrom_le (l : List Split) (t : Int) : ∀ prev : Int,
    prev ≤ t → (∀ s ∈ l, s.total ≤ t) → lastFrom prev l ≤ t := by
  induction l with
  | nil => intro prev h _; exact h
  | cons a l ih =>
    intro prev _ hall
    exact ih a.total (hall a (List.mem_cons_self a l))
      (fun s hs => hall s (List.mem_cons_of_mem a hs))

theorem lapsFrom_congr (l : List Split) : ∀ (l2 : List Split) (prev : Int),
    l.map (fun s => (s.total, s.lap)) = l2.map (fun s => (s.total, s.lap)) →
      LapsFrom prev l → LapsFrom prev l2 := by
  induction l with
  | nil =>
    intro l2 prev h _
    cases l2 with
    | nil => trivial
    | cons b l2 => simp at h
  | cons a l ih =>
    intro l2 prev h hl
    cases l2 with
    | nil => simp at h
    | cons b l2 =>
      simp only [List.map_cons, List.cons.injEq, Prod.mk.injEq] at h
      obtain ⟨⟨ht, hlap⟩, hrest⟩ := h
      obtain ⟨h1, h2, h3⟩ := hl
      exact ⟨ht ▸ h1, by rw [← ht, ← hlap]; exact h2, ht ▸ ih l2 a.total hrest h3⟩

theorem markLastFinish_nil : markLastFinish [] = [] := rfl

theorem markLastFinish_concat (l : List Split) (s : Split) :
    markLastFinish (l ++ [s]) = l ++ [{ s with isFinish := true }] := by
  simp [markLastFinish, List.getD_eq_getElem?_getD, List.set_append_right]

theorem markLastFinish_times (l : List Split) :
    (markLastFinish l).map (fun s => (s.total, s.lap)) = l.map (fun s => (s.total, s.lap)) := by
  rcases List.eq_nil_or_concat l with h | ⟨q, b, h⟩
  · subst h; rfl
  · subst h; rw [List.concat_eq_append, markLastFinish_concat]; simp

theorem lapsFrom_recalc_filter (q : Split → Bool) (l : List Split) :
    ∀ (idx : Nat) (prev prev2 : Int), prev2 ≤ prev → LapsFrom prev l →
      LapsFrom prev2 (recalcFrom idx prev2 (l.filter q)) := by
  induction l with
  | nil => intro _ _ _ _ _; trivial
  | cons a l ih =>
    intro idx prev prev2 hle h
    obtain ⟨h1, _, h3⟩ := h
    by_cases hq : q a = true
    · rw [List.filter_cons_of_pos hq, recalcFrom_cons]
      exact ⟨le_trans hle h1, rfl, ih (idx + 1) a.total a.total (le_refl _) h3⟩
    · rw [List.filter_cons_of_neg hq]
      exact ih idx a.total prev2 (le_trans hle h1) h3

theorem recalcFrom_total_le (l : List Split) (t : Int) : ∀ (idx : Nat) (prev : Int),
    (∀ s ∈ l, s.total ≤ t) → ∀ s ∈ recalcFrom idx prev l, s.total ≤ t := by
  induction l with
  | nil => intro _ _ _ s hs; simp [recalcFrom] at hs
  | cons a l ih =>
    intro idx prev hall s hs
    rw [recalcFrom_cons, List.mem_cons] at hs
    rcases hs with h | h
    · subst h; exact hall a (List.mem_cons_self a l)
    · exact ih (idx + 1) a.total (fun x hx => hall x (List.mem_cons_of_mem a hx)) s h

theorem lapsFrom_sorted (l : List Split) : ∀ prev : Int, LapsFrom prev l →
    (∀ s ∈ l, prev ≤ s.total) ∧ SortedByTotal l ∧ ∀ s ∈ l, 0 ≤ s.lap := by
  induction l with
  | nil => intro _ _; exact ⟨by simp, List.Pairwise.nil, by simp⟩
  | cons a l ih =>
    intro prev h
    obtain ⟨h1, h2, h3⟩ := h
    obtain ⟨i1, i2, i3⟩ := ih a.total h3
    refine ⟨?_, List.Pairwise.cons i1 i2, ?_⟩
    · intro s hs
      rcases List.mem_cons.1 hs with e | e
      · subst e; exact h1
      · exact le_trans h1 (i1 s e)
    · intro s hs
      rcases List.mem_cons.1 hs with e | e
      · subst e; rw [h2]; linarith
      · exact i3 s e

theorem lapsFrom_getElem (l : List Split) : ∀ (prev : Int) (k : Nat) (s : Split),
    LapsFrom prev l → l[k]? = some s →
      match k with
      | 0 => s.lap = s.total - prev
      | j + 1 => ∃ p, l[j]? = some p ∧ s.lap = s.total - p.total := by
  induction l with
  | nil => intro prev k s _ h; simp at h
  | cons a l ih =>
    intro prev k s hl h
    obtain ⟨_, h2, h3⟩ := hl
    cases k with
    | zero =>
      simp only [List.getElem?_cons_zero, Option.some.injEq] at h
      subst h; exact h2
    | succ k =>
      simp only [List.getElem?_cons_succ] at h
      have hk := ih a.total k s h3 h
      cases k with
      | zero => exact ⟨a, by simp, hk⟩
      | succ j =>
        obtain ⟨p, hp, hlap⟩ := hk
        exact ⟨p, by simpa using hp, hlap⟩

theorem logOK_mono (t t2 : Int) (l : List Split) (h : LogOK t l) (hle : t ≤ t2) :
    LogOK t2 l :=
  ⟨h.1, fun s hs => le_trans (h.2 s hs) hle⟩

theorem logOK_append (t t2 : Int) (l : List Split) (s : Split) (h : LogOK t l)
    (h0 : 0 ≤ t) (hle : t ≤ t2) (htot : s.total = t2)
    (hlap : s.lap = t2 - lastSplitTime l) : LogOK t2 (l ++ [s]) := by
  have hlast : lastFrom 0 l ≤ t := lastFrom_le l t 0 h0 h.2
  refine ⟨lapsFrom_concat l s 0 h.1 (by rw [htot]; linarith) ?_, ?_⟩
  · rw [hlap, htot, lastSplitTime_eq]
  · intro x hx
    rcases List.mem_append.1 hx with e | e
    · exact le_trans (h.2 x e) hle
    · simp only [List.mem_singleton] at e
      subst e; rw [htot]

theorem logOK_finish (t t2 : Int) (newId : SplitId) (l : List Split) (h : LogOK t l)
    (h0 : 0 ≤ t) (hle : t ≤ t2) : LogOK t2 (finishSplits t2 newId l) := by
  unfold finishSplits
  simp only
  split
  · exact logOK_append t t2 l _ h h0 hle rfl rfl
  · split
    · refine ⟨lapsFrom_congr l _ 0 (markLastFinish_times l).symm h.1, ?_⟩
      intro s hs
      have hm : s.total ∈ (markLastFinish l).map (fun x => x.total) := List.mem_map_of_mem _ hs
      have he : (markLastFinish l).map (fun x => x.total) = l.map (fun x => x.total) := by
        have := congrArg (List.map Prod.fst) (markLastFinish_times l)
        simpa [List.map_map, Function.comp_def] using this
      rw [he] at hm
      obtain ⟨y, hy, hyt⟩ := List.mem_map.1 hm
      rw [← hyt]
      exact le_trans (h.2 y hy) hle
    · exact logOK_mono t t2 l h hle

theorem logOK_delete (t : Int) (sid : SplitId) (l : List Split) (h : LogOK t l) :
    LogOK t (recalculate (l.filter fun s => s.id ≠ sid)) := by
  rw [recalculate_eq]
  refine ⟨lapsFrom_recalc_filter _ l 0 0 0 (le_refl _) h.1, ?_⟩
  exact recalcFrom_total_le _ t 0 0 (fun s hs => h.2 s (List.mem_of_mem_filter hs))

theorem storeOK_step (t : Int) (rs : List Runner) (op : Op) (h0 : 0 ≤ t)
    (hop : op.isSplitOp = true) (h : ∀ r ∈ rs, LogOK t r.splits)
    (hclock : ∀ c, op.clock = some c → t ≤ c) :
    ∀ r ∈ op.apply rs, LogOK (op.clock.getD t) r.splits := by
  cases op with
  | recordSplit c sid id =>
    intro r hr
    have hc := hclock c rfl
    simp only [Op.apply, recordSplit, List.mem_map] at hr
    obtain ⟨r0, hr0, rfl⟩ := hr
    simp only [Op.clock, Option.getD_some]
    split
    · exact logOK_append t c r0.splits _ (h r0 hr0) h0 hc rfl rfl
    · exact logOK_mono t c _ (h r0 hr0) hc
  | finishRunner c sid id =>
    intro r hr
    have hc := hclock c rfl
    simp only [Op.apply, finishRunner, List.mem_map] at hr
    obtain ⟨r0, hr0, rfl⟩ := hr
    simp only [Op.clock, Option.getD_some]
    split
    · exact logOK_finish t c sid r0.splits (h r0 hr0) h0 hc
    · exact logOK_mono t c _ (h r0 hr0) hc
  | deleteSplit rid sid =>
    intro r hr
    simp only [Op.apply, deleteSplit, List.mem_map] at hr
    obtain ⟨r0, hr0, rfl⟩ := hr
    simp only [Op.clock, Option.getD_none]
    split
    · exact h r0 hr0
    · exact logOK_delete t sid r0.splits (h r0 hr0)
  | addRunner => simp [Op.isSplitOp] at hop
  | importNames _ _ => simp [Op.isSplitOp] at hop
  | updateRunnerName _ _ => simp [Op.isSplitOp] at hop
  | removeRunner _ => simp [Op.isSplitOp] at hop
  | deleteAllRunners => simp [Op.isSplitOp] at hop
  | resetSession _ => simp [Op.isSplitOp] at hop

theorem storeOK_run (ops : List Op) : ∀ (t : Int) (rs : List Runner), 0 ≤ t →
    (∀ op ∈ ops, op.isSplitOp = true) → (∀ r ∈ rs, LogOK t r.splits) →
    List.Chain (· ≤ ·) t (clocks ops) →
    ∀ n : Nat, ∃ t2 : Int, ∀ r ∈ run rs (ops.take n), LogOK t2 r.splits := by
  induction ops with
  | nil => intro t rs _ _ h _ n; exact ⟨t, by simpa [run] using h⟩
  | cons op ops ih =>
    intro t rs h0 hops h hchain n
    cases n with
    | zero => exact ⟨t, by simpa [run] using h⟩
    | succ n =>
      have hop := hops op (List.mem_cons_self op ops)
      have hops2 : ∀ o ∈ ops, o.isSplitOp = true :=
        fun o ho => hops o (List.mem_cons_of_mem op ho)
      have hrun : run rs ((op :: ops).take (n + 1)) = run (op.apply rs) (ops.take n) := by
        simp [run]
      rw [hrun]
      cases hc : op.clock with
      | none =>
        have hstep := storeOK_step t rs op h0 hop h (by simp [hc])
        rw [hc] at hstep
        have hchain2 : List.Chain (· ≤ ·) t (clocks ops) := by
          simpa [clocks, List.filterMap_cons, hc] using hchain
        exact ih t (op.apply rs) h0 hops2 hstep hchain2 n
      | some c =>
        have hchain2 : List.Chain (· ≤ ·) t (c :: clocks ops) := by
          simpa [clocks, List.filterMap_cons, hc] using hchain
        obtain ⟨htc, hrest⟩ := List.chain_cons.1 hchain2
        have hstep := storeOK_step t rs op h0 hop h (by simp [hc, htc])
        rw [hc] at hstep
        exact ih c (op.apply rs) (le_trans h0 htc) hops2 hstep hrest n

/-! ## The split log along operation sequences -/

/-- C1: from a store whose logs are all empty, along every sequence of `recordSplit`,
`finishRunner` and confirmed `deleteSplit` operations whose clock values are non-negative
and never decrease, after every operation (after every prefix of the sequence) each runner's
splits are in non-decreasing order of `total`, the first `lap` equals its own `total`, every
later `lap` equals its `total` minus the `total` just before it, and no `lap` is negative. -/
theorem split_log_invariant (rs : List Runner) (ops : List Op)
    (hempty : ∀ r ∈ rs, r.splits = [])
    (hops : ∀ op ∈ ops, op.isSplitOp = true)
    (hclock : List.Chain (· ≤ ·) 0 (clocks ops)) :
    ∀ n : Nat, ∀ r ∈ run rs (ops.take n),
      SortedByTotal r.splits ∧ LapsConsistent r.splits ∧ ∀ s ∈ r.splits, 0 ≤ s.lap := by
  intro n r hr
  have hstart : ∀ x ∈ rs, LogOK 0 x.splits := by
    intro x hx
    rw [hempty x hx]
    exact ⟨trivial, by simp⟩
  obtain ⟨t2, hok⟩ := storeOK_run ops 0 rs (le_refl _) hops hstart hclock n
  have hl := (hok r hr).1
  obtain ⟨_, hs, hlap⟩ := lapsFrom_sorted r.splits 0 hl
  refine ⟨hs, ?_, hlap⟩
  intro k s hks
  have := lapsFrom_getElem r.splits 0 k s hl hks
  cases k with
  | zero => simpa using this
  | succ j => exact this

/-- C1, on a concrete run from the initial store: two splits, a deletion of the first, then
a finish within 100 ms of the last split. -/
theorem split_log_invariant_witness :
    SortedByTotal [{ index := 1, total := 20000, lap := 20000, isFinish := true, id := 8 }] ∧
    LapsConsistent [{ index := 1, total := 20000, lap := 20000, isFinish := true, id := 8 }] ∧
    ∀ s ∈ [({ index := 1, total := 20000, lap := 20000, isFinish := true, id := 8 } : Split)],
      0 ≤ s.lap :=
  split_log_invariant initialRunners
    [Op.recordSplit 12000 7 1, Op.recordSplit 20000 8 1, Op.deleteSplit 1 7,
     Op.finishRunner 20050 9 1]
    (by decide) (by decide) (by simp [clocks, Op.clock]) 4
    { id := 1, name := "Pelari 1", finished := true, finalTime := some 20050,
      splits := [{ index := 1, total := 20000, lap := 20000, isFinish := true, id := 8 }] }
    (by decide)

/-! ## Deleting a split -/

/-- C2: a confirmed `deleteSplit` gives every runner it targets exactly the splits whose `id`
differs from the given one, in their original order and with their `id`, `total` and
`isFinish` kept; the split at 0-based position `k` of the new log has `index = k + 1` and
`lap` equal to its `total` minus the `total` at position `k - 1` (its own `total` at
position 0). No assumption is made on the log beforehand. On the log
`[{1, 12000, 12000}, {2, 20000, 8000}]` deleting the first split leaves
`[{1, 20000, 20000}]`. -/
theorem deleteSplit_recomputes (prev : List Runner) (runnerId : Int)
    (splitUniqueId : SplitId) :
    (∀ (i : Nat) (r : Runner), prev[i]? = some r → r.id = runnerId →
      ∃ log : List Split,
        (deleteSplit runnerId splitUniqueId prev)[i]? = some { r with splits := log } ∧
        log.map Split.kept =
          (r.splits.filter fun s => s.id ≠ splitUniqueId).map Split.kept ∧
        ∀ (k : Nat) (s : Split), log[k]? = some s →
          s.index = (k : Int) + 1 ∧
          match k with
          | 0 => s.lap = s.total
          | j + 1 => ∃ p, log[j]? = some p ∧ s.lap = s.total - p.total) ∧
    deleteSplit 1 7
        [{ id := 1, name := "A", finished := false, finalTime := none,
           splits := [{ index := 1, total := 12000, lap := 12000, isFinish := false, id := 7 },
                      { index := 2, total := 20000, lap := 8000, isFinish := false, id := 8 }] }]
      = [{ id := 1, name := "A", finished := false, finalTime := none,
           splits := [{ index := 1, total := 20000, lap := 20000, isFinish := false,
                        id := 8 }] }] := by
  refine ⟨?_, by decide⟩
  intro i r hr hid
  refine ⟨recalcFrom 0 0 (r.splits.filter fun s => s.id ≠ splitUniqueId), ?_, ?_, ?_⟩
  · rw [deleteSplit_getElem, hr]; simp [hid]
  · exact recalcFrom_kept _ 0 0
  · intro k s hs
    obtain ⟨hi, hl⟩ := recalcFrom_getElem _ 0 0 k s hs
    refine ⟨by simpa using hi, ?_⟩
    cases k with
    | zero => simpa using hl
    | succ j => exact hl

/-- C3: when the targeted runner's log satisfies the index/lap invariant and holds exactly
one split `d` with the given id (`pre` before it, `post` after it), `deleteSplit` leaves
`pre` entirely unchanged, keeps every `total`, lowers by one the `index` of every split of
`post`, adds `d.lap` to the `lap` of the first split of `post` and changes no other `lap`;
the new indices are `1..N`; the runner's other fields (`finished`, `finalTime`) and every
other runner are unchanged. -/
theorem deleteSplit_frame (prev : List Runner) (runnerId : Int) (sid : SplitId)
    (i : Nat) (r : Runner) (pre post : List Split) (d : Split)
    (hr : prev[i]? = some r) (hid : r.id = runnerId)
    (hlog : r.splits = pre ++ d :: post) (hd : d.id = sid)
    (hpre : ∀ s ∈ pre, s.id ≠ sid) (hpost : ∀ s ∈ post, s.id ≠ sid)
    (hinv : IndexLapInv r.splits) :
    ∃ log : List Split,
      (deleteSplit runnerId sid prev)[i]? = some { r with splits := log } ∧
      log = pre ++ shiftAfterDelete d post ∧
      (∀ (k : Nat) (s : Split), log[k]? = some s → s.index = (k : Int) + 1) ∧
      (deleteSplit runnerId sid prev).length = prev.length ∧
      (∀ (j : Nat) (r2 : Runner), prev[j]? = some r2 → r2.id ≠ runnerId →
        (deleteSplit runnerId sid prev)[j]? = some r2) ∧
      ((prev.map fun x => x.id).Nodup → ∀ (j : Nat) (r2 : Runner), j ≠ i →
        prev[j]? = some r2 → (deleteSplit runnerId sid prev)[j]? = some r2) := by
  have hother : ∀ (j : Nat) (r2 : Runner), prev[j]? = some r2 → r2.id ≠ runnerId →
      (deleteSplit runnerId sid prev)[j]? = some r2 := by
    intro j r2 h2 hne
    rw [deleteSplit_getElem, h2]; simp [hne]
  have hfilter : (r.splits.filter fun s => s.id ≠ sid) = pre ++ post := by
    rw [hlog]; exact filter_remove_one pre d post sid hd hpre hpost
  refine ⟨recalcFrom 0 0 (pre ++ post), ?_, ?_, ?_, ?_, hother, ?_⟩
  · rw [deleteSplit_getElem, hr, Option.map_some', if_neg (by simp [hid]), hfilter]
  · exact recalcFrom_remove pre d post 0 0 (by rw [← hlog]; exact hinv)
  · intro k s hs
    simpa using (recalcFrom_getElem _ 0 0 k s hs).1
  · simp [deleteSplit]
  · intro hnd j r2 hj h2
    exact hother j r2 h2 (hid ▸ id_ne_of_nodup prev hnd i j r r2 hr h2 hj)

/-- C3, at a concrete store: deleting the first of two splits. -/
theorem deleteSplit_frame_witness :
    ∃ log : List Split,
      (deleteSplit 1 7
        [{ id := 1, name := "A", finished := false, finalTime := none,
           splits := [{ index := 1, total := 12000, lap := 12000, isFinish := false, id := 7 },
                      { index := 2, total := 20000, lap := 8000, isFinish := false,
                        id := 8 }] }])[0]? =
        some { id := 1, name := "A", finished := false, finalTime := none, splits := log } ∧
      log = [{ index := 1, total := 20000, lap := 20000, isFinish := false, id := 8 }] := by
  obtain ⟨log, h1, h2, _⟩ := deleteSplit_frame
    [{ id := 1, name := "A", finished := false, finalTime := none,
       splits := [{ index := 1, total := 12000, lap := 12000, isFinish := false, id := 7 },
                  { index := 2, total := 20000, lap := 8000, isFinish := false, id := 8 }] }]
    1 7 0
    { id := 1, name := "A", finished := false, finalTime := none,
      splits := [{ index := 1, total := 12000, lap := 12000, isFinish := false, id := 7 },
                 { index := 2, total := 20000, lap := 8000, isFinish := false, id := 8 }] }
    [] [{ index := 2, total := 20000, lap := 8000, isFinish := false, id := 8 }]
    { index := 1, total := 12000, lap := 12000, isFinish := false, id := 7 }
    rfl rfl rfl rfl (by simp) (by simp) (by decide)
  exact ⟨log, h1, by simpa using h2⟩

/-! ## Finishing and recording -/

theorem lastSplitTime_eq_lastTotal (l : List Split) : lastSplitTime l = lastTotal l := by
  rcases List.eq_nil_or_concat l with h | ⟨q, b, h⟩
  · subst h; rfl
  · subst h; rw [List.concat_eq_append, lastSplitTime_concat]; simp [lastTotal]

theorem finishRunner_getElem (prev : List Runner) (t : Int) (newId : SplitId) (id : Int)
    (i : Nat) :
    (finishRunner t newId id prev)[i]? =
      (prev[i]?).map fun r =>
        if r.id = id then
          { r with finished := true, finalTime := some t,
                   splits := finishSplits t newId r.splits }
        else r := by
  simp [finishRunner, List.getElem?_map]

theorem recordSplit_getElem (prev : List Runner) (t : Int) (newId : SplitId) (id : Int)
    (i : Nat) :
    (recordSplit t newId id prev)[i]? =
      (prev[i]?).map fun r =>
        if r.id = id then
          { r with splits := r.splits ++
              [{ index := (r.splits.length : Int) + 1, total := t,
                 lap := t - lastSplitTime r.splits, isFinish := false, id := newId }] }
        else r := by
  simp [recordSplit, List.getElem?_map]

/-- C4 (as stated, refuted): in the store left by an import that raced with `addRunner`
the unfinished runner "Budi" shares the id 2 with "Pelari 2", who finished at 60000. A
finish click on Budi's card at clock 90000 runs `finishRunner(2)`, which is applied to
"Pelari 2" as well and is not refused: the `finalTime` of "Pelari 2" becomes 90000 and a
second finish split is added to that log. -/
theorem finish_click_shared_id_counterexample :
    raceApp.runners =
      [{ id := 1, name := "Pelari 1", splits := [], finished := false, finalTime := none },
       { id := 2, name := "Pelari 2", finished := true, finalTime := some 60000,
         splits := [{ index := 1, total := 60000, lap := 60000, isFinish := true,
                      id := 7 }] },
       { id := 2, name := "Budi", splits := [], finished := false, finalTime := none }] ∧
    (clickFinish 9 2 raceApp).runners =
      [{ id := 1, name := "Pelari 1", splits := [], finished := false, finalTime := none },
       { id := 2, name := "Pelari 2", finished := true, finalTime := some 90000,
         splits := [{ index := 1, total := 60000, lap := 60000, isFinish := true, id := 7 },
                    { index := 2, total := 90000, lap := 30000, isFinish := true,
                      id := 9 }] },
       { id := 2, name := "Budi", finished := true, finalTime := some 90000,
         splits := [{ index := 1, total := 90000, lap := 90000, isFinish := true,
                      id := 9 }] }] := by
  decide

/-- C4 (amended): the STOP button is rendered on a runner card only while `!runner.finished`
holds, so a finish click on the card of a finished runner leaves the whole state unchanged
at every clock value: the runner store is the same, that runner keeps its `finalTime` and
its log. The `finishRunner` update itself is keyed by the runner id and makes no check of
`finished`: an accepted click (runner of the card not finished, button enabled) turns every
runner with the id of the card's runner, finished before or not, into a finished one with
`finalTime` the clock value of the click and the log given by the finish policy, and
leaves the runners with another id unchanged; after it a further click on the same card, at
any clock value and running flag, changes nothing. So in a store with pairwise distinct ids
no finish click on any card changes a finished runner: its `finalTime` keeps the value set
by its first finish and no split is added to or re-marked in its log. -/
theorem finish_click_rule (app : App) (newId : SplitId) (i : Nat) (r : Runner)
    (hr : app.runners[i]? = some r) :
    (r.finished = true →
      clickFinish newId i app = app ∧ (clickFinish newId i app).runners = app.runners ∧
      (clickFinish newId i app).runners[i]? = some r) ∧
    (r.finished = false → ¬ (app.isRunning = false ∧ app.masterTime = 0) →
      (∀ (j : Nat) (x : Runner), app.runners[j]? = some x →
        (clickFinish newId i app).runners[j]? =
          some (if x.id = r.id then
            { x with finished := true, finalTime := some app.masterTime,
                     splits := finishSplits app.masterTime newId x.splits }
          else x)) ∧
      ∀ (t : Int) (running : Bool) (newId2 : SplitId),
        clickFinish newId2 i
            { clickFinish newId i app with masterTime := t, isRunning := running } =
          { clickFinish newId i app with masterTime := t, isRunning := running }) ∧
    ((app.runners.map fun x => x.id).Nodup →
      ∀ (j : Nat) (x : Runner), app.runners[j]? = some x → x.finished = true →
        (clickFinish newId i app).runners[j]? = some x) := by
  have hrefused : r.finished = true → clickFinish newId i app = app := by
    intro hfin
    simp [clickFinish, hr, hfin]
  have haccepted : r.finished = false → ¬ (app.isRunning = false ∧ app.masterTime = 0) →
      clickFinish newId i app =
        { app with runners := finishRunner app.masterTime newId r.id app.runners,
                   toasts := app.toasts ++ finishToasts r.id app.runners } := by
    intro hfin hen
    have hcond : (!r.finished && !(!app.isRunning && decide (app.masterTime = 0))) = true := by
      rw [hfin]
      cases hrun : app.isRunning with
      | true => rfl
      | false =>
        have hne : app.masterTime ≠ 0 := fun e => hen ⟨hrun, e⟩
        simp [hne]
    unfold clickFinish
    rw [hr]
    simp only [hcond, if_true]
  have hall : r.finished = false → ¬ (app.isRunning = false ∧ app.masterTime = 0) →
      ∀ (j : Nat) (x : Runner), app.runners[j]? = some x →
        (clickFinish newId i app).runners[j]? =
          some (if x.id = r.id then
            { x with finished := true, finalTime := some app.masterTime,
                     splits := finishSplits app.masterTime newId x.splits }
          else x) := by
    intro hfin hen j x hx
    rw [haccepted hfin hen]
    simp only []
    rw [finishRunner_getElem, hx]
    rfl
  refine ⟨?_, ?_, ?_⟩
  · intro hfin
    have h := hrefused hfin
    exact ⟨h, by rw [h], by rw [h]; exact hr⟩
  · intro hfin hen
    refine ⟨hall hfin hen, ?_⟩
    intro t running newId2
    have hget := hall hfin hen i r hr
    rw [if_pos rfl] at hget
    generalize clickFinish newId i app = app1 at hget
    unfold clickFinish
    simp only []
    rw [hget]
    simp
  · intro hnd j x hx hxfin
    cases hfin : r.finished with
    | true => rw [hrefused hfin]; exact hx
    | false =>
      by_cases hen : app.isRunning = false ∧ app.masterTime = 0
      · have : clickFinish newId i app = app := by
          simp [clickFinish, hr, hfin, hen.1, hen.2]
        rw [this]; exact hx
      · have hji : j ≠ i := by
          intro e
          rw [e, hr] at hx
          have : r = x := Option.some.inj hx
          rw [this, hxfin] at hfin
          exact absurd hfin (by decide)
        rw [hall hfin hen j x hx, if_neg (id_ne_of_nodup app.runners hnd i j r x hr hx hji)]

/-- C4 (amended), at a concrete state: a finish click at clock 90000 on the card of a runner
finished at 60000. -/
theorem finish_click_rule_witness :
    clickFinish 9 0
        { masterTime := 90000, isRunning := true, modal := none, toasts := [],
          runners := [{ id := 1, name := "A", finished := true, finalTime := some 60000,
                        splits := [{ index := 1, total := 60000, lap := 60000,
                                     isFinish := true, id := 7 }] }] }
      = { masterTime := 90000, isRunning := true, modal := none, toasts := [],
          runners := [{ id := 1, name := "A", finished := true, finalTime := some 60000,
                        splits := [{ index := 1, total := 60000, lap := 60000,
                                     isFinish := true, id := 7 }] }] } :=
  ((finish_click_rule
    { masterTime := 90000, isRunning := true, modal := none, toasts := [],
      runners := [{ id := 1, name := "A", finished := true, finalTime := some 60000,
                    splits := [{ index := 1, total := 60000, lap := 60000,
                                 isFinish := true, id := 7 }] }] }
    9 0
    { id := 1, name := "A", finished := true, finalTime := some 60000,
      splits := [{ index := 1, total := 60000, lap := 60000, isFinish := true, id := 7 }] }
    rfl).1 rfl).1

/-- C5: while the clock is not running the SPLIT button is disabled, so a split request for
any runner card at any clock value leaves the state unchanged: the runner store is the same
and no split is appended to any log. -/
theorem clickSplit_refused_when_paused (app : App) (newId : SplitId) (i : Nat)
    (hpaused : app.isRunning = false) :
    clickSplit newId i app = app ∧ (clickSplit newId i app).runners = app.runners := by
  have h : clickSplit newId i app = app := by
    unfold clickSplit
    cases app.runners[i]? with
    | none => rfl
    | some runner => simp [hpaused]
  exact ⟨h, by rw [h]⟩

/-- C5, at a concrete paused state. -/
theorem clickSplit_refused_when_paused_witness :
    (clickSplit 9 0
        { masterTime := 5000, isRunning := false, modal := none, toasts := [],
          runners := initialRunners }).runners = initialRunners :=
  (clickSplit_refused_when_paused
    { masterTime := 5000, isRunning := false, modal := none, toasts := [],
      runners := initialRunners } 9 0 rfl).2

/-- C6: `finishRunner` at clock value `t` turns every runner with the given id (finished
before or not) into one with `finished = true` and `finalTime = t`; with
`d = t - lastTotal` it appends exactly one finish split `{length + 1, t, d}` when `d > 100`,
marks the existing last split as finish (no other field changed, nothing appended) when
`d ≤ 100` and the log is non-empty, and keeps the empty log when `d ≤ 100` and the log is
empty. The store keeps its length and every runner with another id is unchanged; with
pairwise distinct ids that is every runner at another position. -/
theorem finishRunner_policy (prev : List Runner) (t : Int) (newId : SplitId) (id : Int)
    (i : Nat) (r : Runner) (hr : prev[i]? = some r) (hid : r.id = id) :
    ∃ log : List Split,
      (finishRunner t newId id prev)[i]? =
        some { r with finished := true, finalTime := some t, splits := log } ∧
      (t - lastTotal r.splits > 100 →
        log = r.splits ++
          [{ index := (r.splits.length : Int) + 1, total := t, lap := t - lastTotal r.splits,
             isFinish := true, id := newId }]) ∧
      (t - lastTotal r.splits ≤ 100 → ∀ (pre : List Split) (s : Split),
        r.splits = pre ++ [s] → log = pre ++ [{ s with isFinish := true }]) ∧
      (t - lastTotal r.splits ≤ 100 → r.splits = [] → log = []) ∧
      (finishRunner t newId id prev).length = prev.length ∧
      (∀ (j : Nat) (r2 : Runner), prev[j]? = some r2 → r2.id ≠ id →
        (finishRunner t newId id prev)[j]? = some r2) ∧
      ((prev.map fun x => x.id).Nodup → ∀ (j : Nat) (r2 : Runner), j ≠ i →
        prev[j]? = some r2 → (finishRunner t newId id prev)[j]? = some r2) := by
  have hother : ∀ (j : Nat) (r2 : Runner), prev[j]? = some r2 → r2.id ≠ id →
      (finishRunner t newId id prev)[j]? = some r2 := by
    intro j r2 h2 hne
    rw [finishRunner_getElem, h2]; simp [hne]
  refine ⟨finishSplits t newId r.splits, ?_, ?_, ?_, ?_, ?_, hother, ?_⟩
  · rw [finishRunner_getElem, hr]; simp [hid]
  · intro hd
    simp only [finishSplits, lastSplitTime_eq_lastTotal]
    rw [if_pos hd]
  · intro hd pre s hs
    simp only [finishSplits, lastSplitTime_eq_lastTotal]
    rw [if_neg (not_lt.2 hd), hs, if_pos (by simp), markLastFinish_concat]
  · intro hd hs
    simp only [finishSplits, lastSplitTime_eq_lastTotal]
    rw [if_neg (not_lt.2 hd), hs]
    rfl
  · simp [finishRunner]
  · intro hnd j r2 hj h2
    exact hother j r2 h2 (hid ▸ id_ne_of_nodup prev hnd i j r r2 hr h2 hj)

/-- C6, at a concrete store: finishing 50 ms after the last split marks that split. -/
theorem finishRunner_policy_witness :
    ∃ log : List Split,
      (finishRunner 20050 9 1
        [{ id := 1, name := "A", finished := false, finalTime := none,
           splits := [{ index := 1, total := 12000, lap := 12000, isFinish := false, id := 7 },
                      { index := 2, total := 20000, lap := 8000, isFinish := false,
                        id := 8 }] }])[0]? =
        some { id := 1, name := "A", finished := true, finalTime := some 20050,
               splits := log } ∧
      log = [{ index := 1, total := 12000, lap := 12000, isFinish := false, id := 7 },
             { index := 2, total := 20000, lap := 8000, isFinish := true, id := 8 }] := by
  obtain ⟨log, h1, _, h3, _⟩ := finishRunner_policy
    [{ id := 1, name := "A", finished := false, finalTime := none,
       splits := [{ index := 1, total := 12000, lap := 12000, isFinish := false, id := 7 },
                  { index := 2, total := 20000, lap := 8000, isFinish := false, id := 8 }] }]
    20050 9 1 0
    { id := 1, name := "A", finished := false, finalTime := none,
      splits := [{ index := 1, total := 12000, lap := 12000, isFinish := false, id := 7 },
                 { index := 2, total := 20000, lap := 8000, isFinish := false, id := 8 }] }
    rfl rfl
  exact ⟨log, h1, h3 (by decide)
    [{ index := 1, total := 12000, lap := 12000, isFinish := false, id := 7 }]
    { index := 2, total := 20000, lap := 8000, isFinish := false, id := 8 } rfl⟩

/-- C7: in a store with pairwise distinct ids, `recordSplit` at clock value `t` for the id
of the runner at position `i` appends to that runner's log exactly one split with
`total = t`, `index = length + 1`, `lap = t - lastTotal` (`t` for an empty log) and no finish
mark; the earlier splits, the runner's `name`, `finished` and `finalTime`, the length of
the store and every other runner are unchanged. -/
theorem recordSplit_appends (prev : List Runner) (t : Int) (newId : SplitId) (id : Int)
    (i : Nat) (r : Runner) (hnd : (prev.map fun x => x.id).Nodup)
    (hr : prev[i]? = some r) (hid : r.id = id) :
    (recordSplit t newId id prev)[i]? =
      some { r with splits := r.splits ++
        [{ index := (r.splits.length : Int) + 1, total := t, lap := t - lastTotal r.splits,
           isFinish := false, id := newId }] } ∧
    (r.splits = [] → t - lastTotal r.splits = t) ∧
    (recordSplit t newId id prev).length = prev.length ∧
    (∀ (j : Nat) (r2 : Runner), j ≠ i → prev[j]? = some r2 →
      (recordSplit t newId id prev)[j]? = some r2) := by
  refine ⟨?_, ?_, ?_, ?_⟩
  · rw [recordSplit_getElem, hr]; simp [hid, lastSplitTime_eq_lastTotal]
  · intro h; rw [h]; simp [lastTotal]
  · simp [recordSplit]
  · intro j r2 hj h2
    have hne : r2.id ≠ id := hid ▸ id_ne_of_nodup prev hnd i j r r2 hr h2 hj
    rw [recordSplit_getElem, h2]; simp [hne]

/-- C7, at a concrete store: the second split of the first of two runners. -/
theorem recordSplit_appends_witness :
    (recordSplit 20000 8 1
      [{ id := 1, name := "A", finished := false, finalTime := none,
         splits := [{ index := 1, total := 12000, lap := 12000, isFinish := false, id := 7 }] },
       { id := 2, name := "B", finished := false, finalTime := none, splits := [] }])[0]? =
      some { id := 1, name := "A", finished := false, finalTime := none,
             splits := [{ index := 1, total := 12000, lap := 12000, isFinish := false, id := 7 },
                        { index := 2, total := 20000, lap := 8000, isFinish := false,
                          id := 8 }] } :=
  (recordSplit_appends
    [{ id := 1, name := "A", finished := false, finalTime := none,
       splits := [{ index := 1, total := 12000, lap := 12000, isFinish := false, id := 7 }] },
     { id := 2, name := "B", finished := false, finalTime := none, splits := [] }]
    20000 8 1 0
    { id := 1, name := "A", finished := false, finalTime := none,
      splits := [{ index := 1, total := 12000, lap := 12000, isFinish := false, id := 7 }] }
    (by decide) rfl rfl).1

/-! ## The `finished`/`finalTime` invariant -/

theorem importLoop_fresh (lines : List (List Char)) : ∀ (currentId : Int),
    ∀ r ∈ importLoop currentId lines, r.finished = false ∧ r.finalTime = none := by
  induction lines with
  | nil => intro _ r hr; simp [importLoop] at hr
  | cons line rest ih =>
    intro currentId r hr
    simp only [importLoop] at hr
    split at hr
    · rcases List.mem_cons.1 hr with e | e
      · subst e; exact ⟨rfl, rfl⟩
      · exact ih _ r e
    · exact ih _ r hr

theorem finishedIffFinal_step (op : Op) (rs : List Runner)
    (h : ∀ r ∈ rs, FinishedIffFinal r) : ∀ r ∈ op.apply rs, FinishedIffFinal r := by
  intro r hr
  cases op with
  | addRunner =>
    simp only [Op.apply, addRunner, List.mem_append, List.mem_singleton] at hr
    rcases hr with e | e
    · exact h r e
    · subst e; simp [FinishedIffFinal]
  | importNames c text =>
    simp only [Op.apply, importNames] at hr
    split at hr
    · rcases List.mem_append.1 hr with e | e
      · exact h r e
      · obtain ⟨h1, h2⟩ := importLoop_fresh _ _ r e
        simp [FinishedIffFinal, h1, h2]
    · exact h r hr
  | updateRunnerName id n =>
    simp only [Op.apply, updateRunnerName, List.mem_map] at hr
    obtain ⟨r0, hr0, rfl⟩ := hr
    have := h r0 hr0
    split
    · exact this
    · exact this
  | recordSplit t sid id =>
    simp only [Op.apply, recordSplit, List.mem_map] at hr
    obtain ⟨r0, hr0, rfl⟩ := hr
    have := h r0 hr0
    split
    · exact this
    · exact this
  | finishRunner t sid id =>
    simp only [Op.apply, finishRunner, List.mem_map] at hr
    obtain ⟨r0, hr0, rfl⟩ := hr
    split
    · simp [FinishedIffFinal]
    · exact h r0 hr0
  | deleteSplit rid sid =>
    simp only [Op.apply, deleteSplit, List.mem_map] at hr
    obtain ⟨r0, hr0, rfl⟩ := hr
    have := h r0 hr0
    split
    · exact this
    · exact this
  | removeRunner id =>
    simp only [Op.apply, removeRunner] at hr
    exact h r (List.mem_of_mem_filter hr)
  | deleteAllRunners =>
    simp [Op.apply, deleteAllRunners] at hr
  | resetSession c =>
    simp only [Op.apply, resetRunners, List.mem_map] at hr
    obtain ⟨r0, _, rfl⟩ := hr
    simp [FinishedIffFinal]

theorem finishedIffFinal_run (ops : List Op) : ∀ rs : List Runner,
    (∀ r ∈ rs, FinishedIffFinal r) → ∀ r ∈ run rs ops, FinishedIffFinal r := by
  induction ops with
  | nil => intro rs h; simpa [run] using h
  | cons op ops ih =>
    intro rs h
    have := ih (op.apply rs) (finishedIffFinal_step op rs h)
    simpa [run] using this

/-- C9: in every state reached from the initial store (one default runner, not finished,
`finalTime` null) by any sequence of `addRunner`, name import, `updateRunnerName`,
`recordSplit`, `finishRunner`, `deleteSplit`, `removeRunner`, `deleteAllRunners` and the
confirmed session reset, every runner has `finished = true` exactly when its `finalTime`
is not null. -/
theorem finished_iff_finalTime_reachable (ops : List Op) :
    ∀ r ∈ run initialRunners ops, (r.finished = true ↔ r.finalTime ≠ none) := by
  apply finishedIffFinal_run ops initialRunners
  intro r hr
  simp only [initialRunners, List.mem_singleton] at hr
  subst hr
  simp [FinishedIffFinal]

/-- C9, on a concrete run: a second runner is added and the first one finishes at 500 ms. -/
theorem finished_iff_finalTime_reachable_witness :
    (true = true ↔ (some 500 : Option Int) ≠ none) :=
  finished_iff_finalTime_reachable [Op.addRunner, Op.finishRunner 500 9 1]
    { id := 1, name := "Pelari 1", finished := true, finalTime := some 500,
      splits := [{ index := 1, total := 500, lap := 500, isFinish := true, id := 9 }] }
    (by decide)

/-! ## Resetting the clock -/

/-- C10 (as stated, refuted): a running clock at 5000 ms is not left running by the reset.
`resetTimer` opens the dialog, and its confirmation sets the elapsed value to 0 and
`isRunning` to false. -/
theorem resetTimer_running_counterexample :
    runningAt5000.isRunning = true ∧
    (resetTimer runningAt5000).modal = some (ModalAction.resetAll initialRunners) ∧
    (confirmModal (resetTimer runningAt5000)).masterTime = 0 ∧
    (confirmModal (resetTimer runningAt5000)).isRunning = false := by
  decide

/-- C10 (amended): resetting sets the elapsed value to 0 and pauses the clock, whether or not
it was running. With no data (`masterTime` is 0 and no runner has a split) `resetTimer`
does so at once; with data it only opens the confirmation dialog, leaving clock and store
as they are, and the confirmation then sets `masterTime = 0`, `isRunning = false` and
resets every runner of the store the dialog was opened on. -/
theorem resetTimer_pauses (app : App) :
    (hasData app = false →
      (resetTimer app).masterTime = 0 ∧ (resetTimer app).isRunning = false ∧
      (resetTimer app).runners = app.runners) ∧
    (hasData app = true →
      resetTimer app = { app with modal := some (ModalAction.resetAll app.runners) } ∧
      (confirmModal (resetTimer app)).masterTime = 0 ∧
      (confirmModal (resetTimer app)).isRunning = false ∧
      (confirmModal (resetTimer app)).runners = resetRunners app.runners) ∧
    (∀ (later : App) (rs : List Runner), later.modal = some (ModalAction.resetAll rs) →
      (confirmModal later).masterTime = 0 ∧ (confirmModal later).isRunning = false ∧
      (confirmModal later).runners = resetRunners rs) := by
  refine ⟨?_, ?_, ?_⟩
  · intro h
    simp [resetTimer, h]
  · intro h
    simp [resetTimer, h, confirmModal]
  · intro later rs h
    simp [confirmModal, h]

/-! ## Ranking: the stable sort and `getRankData` -/

theorem mem_jsInsert {α : Type} (cmp : α → α → Int) (a x : α) (l : List α) :
    x ∈ jsInsert cmp a l ↔ x = a ∨ x ∈ l := by
  induction l with
  | nil => simp [jsInsert]
  | cons b l ih =>
    simp only [jsInsert]
    split
    · simp
    · simp only [List.mem_cons, ih]
      tauto

theorem jsInsert_perm {α : Type} (cmp : α → α → Int) (a : α) (l : List α) :
    (jsInsert cmp a l).Perm (a :: l) := by
  induction l with
  | nil => simp [jsInsert]
  | cons b l ih =>
    simp only [jsInsert]
    split
    · exact List.Perm.refl _
    · exact (List.Perm.cons b ih).trans (List.Perm.swap a b l)

theorem jsSort_perm {α : Type} (cmp : α → α → Int) (l : List α) :
    (jsSort cmp l).Perm l := by
  induction l with
  | nil => exact List.Perm.refl _
  | cons a l ih =>
    simp only [jsSort]
    exact (jsInsert_perm cmp a _).trans (List.Perm.cons a ih)

theorem jsInsert_stable {α : Type} (cmp : α → α → Int) (S : α → α → Prop)
    (htrans : ∀ x y z, cmp x y ≤ 0 → cmp y z ≤ 0 → cmp x z ≤ 0)
    (htotal : ∀ x y, cmp x y ≤ 0 ∨ cmp y x ≤ 0) (a : α) (l : List α)
    (hl : l.Pairwise (StableOrder cmp S)) (hS : ∀ b ∈ l, S a b) :
    (jsInsert cmp a l).Pairwise (StableOrder cmp S) := by
  induction l with
  | nil => simp [jsInsert]
  | cons b l ih =>
    obtain ⟨hb, hrest⟩ := List.pairwise_cons.1 hl
    simp only [jsInsert]
    split
    · rename_i hab
      refine List.Pairwise.cons ?_ hl
      intro x hx
      rcases List.mem_cons.1 hx with e | e
      · subst e; exact ⟨hab, fun _ => hS x (List.mem_cons_self x l)⟩
      · exact ⟨htrans a b x hab (hb x e).1, fun _ => hS x (List.mem_cons_of_mem b e)⟩
    · rename_i hab
      refine List.Pairwise.cons ?_ (ih hrest fun x hx => hS x (List.mem_cons_of_mem b hx))
      intro x hx
      rcases (mem_jsInsert cmp a x l).1 hx with e | e
      · subst e
        exact ⟨(htotal x b).resolve_left hab, fun h => absurd h hab⟩
      · exact hb x e

theorem jsSort_stable {α : Type} (cmp : α → α → Int) (S : α → α → Prop)
    (htrans : ∀ x y z, cmp x y ≤ 0 → cmp y z ≤ 0 → cmp x z ≤ 0)
    (htotal : ∀ x y, cmp x y ≤ 0 ∨ cmp y x ≤ 0) (l : List α) (hS : l.Pairwise S) :
    (jsSort cmp l).Pairwise (StableOrder cmp S) := by
  induction l with
  | nil => simp [jsSort]
  | cons a l ih =>
    obtain ⟨ha, hrest⟩ := List.pairwise_cons.1 hS
    simp only [jsSort]
    exact jsInsert_stable cmp S htrans htotal a _ (ih hrest)
      fun b hb => ha b ((jsSort_perm cmp l).mem_iff.1 hb)

theorem findIndex_some {α : Type} (p : α → Bool) (l : List α) : ∀ k : Nat,
    findIndex p l = some k → ∃ r, l[k]? = some r ∧ p r = true := by
  induction l with
  | nil => intro k h; simp [findIndex] at h
  | cons a l ih =>
    intro k h
    simp only [findIndex] at h
    split at h
    · rename_i hp
      simp only [Option.some.injEq] at h
      subst h
      exact ⟨a, by simp, hp⟩
    · cases hf : findIndex p l with
      | none => simp [hf] at h
      | some m =>
        simp only [hf, Option.map_some', Option.some.injEq] at h
        subst h
        obtain ⟨r, hr, hpr⟩ := ih m hf
        exact ⟨r, by simpa using hr, hpr⟩

theorem findIndex_none {α : Type} (p : α → Bool) (l : List α) :
    findIndex p l = none → ∀ r ∈ l, p r = false := by
  induction l with
  | nil => intro _ r hr; simp at hr
  | cons a l ih =>
    intro h r hr
    simp only [findIndex] at h
    split at h
    · simp at h
    · rename_i hp
      cases hf : findIndex p l with
      | none =>
        rcases List.mem_cons.1 hr with e | e
        · subst e; simpa using hp
        · exact ih hf r e
      | some m => simp [hf] at h

theorem findIndex_of_nodup (l : List Runner) : ∀ (k : Nat) (r : Runner),
    (l.map fun x => x.id).Nodup → l[k]? = some r →
      findIndex (fun x => decide (x.id = r.id)) l = some k := by
  induction l with
  | nil => intro k r _ h; simp at h
  | cons a l ih =>
    intro k r hnd h
    simp only [List.map_cons, List.nodup_cons] at hnd
    obtain ⟨hna, hnd2⟩ := hnd
    cases k with
    | zero =>
      simp only [List.getElem?_cons_zero, Option.some.injEq] at h
      subst h
      simp [findIndex]
    | succ k =>
      simp only [List.getElem?_cons_succ] at h
      have hmem : r ∈ l := List.mem_iff_getElem?.2 ⟨k, h⟩
      have hne : a.id ≠ r.id := by
        intro e
        exact hna (e ▸ List.mem_map_of_mem (fun x => x.id) hmem)
      simp [findIndex, hne, ih k r hnd2 h]

theorem rankOf_eq (rs : List Runner) (id : Int) :
    rankOf rs id =
      (findIndex (fun r => decide (r.id = id)) (finishedRunners rs)).map (· + 1) := by
  unfold rankOf getRankData
  cases findIndex (fun r => decide (r.id = id)) (finishedRunners rs) <;> rfl

theorem finishedRunners_perm (rs : List Runner) :
    (finishedRunners rs).Perm (rs.filter isRanked) :=
  jsSort_perm cmpFinalTime _

theorem mem_finishedRunners (rs : List Runner) (r : Runner) :
    r ∈ finishedRunners rs ↔ r ∈ rs ∧ isRanked r = true := by
  rw [(finishedRunners_perm rs).mem_iff, List.mem_filter]

theorem finishedRunners_nodup (rs : List Runner) (hnd : (rs.map fun x => x.id).Nodup) :
    ((finishedRunners rs).map fun x => x.id).Nodup := by
  have h1 : ((rs.filter isRanked).map fun x => x.id).Nodup :=
    List.Nodup.sublist (List.Sublist.map _ (List.filter_sublist rs)) hnd
  exact ((finishedRunners_perm rs).map _).nodup_iff.2 h1

theorem before_pairwise (rs : List Runner) : rs.Pairwise (Before rs) := by
  rw [List.pairwise_iff_getElem]
  intro i j hi hj hij
  exact ⟨i, j, hij, List.getElem?_eq_getElem hi, List.getElem?_eq_getElem hj⟩

theorem finishedRunners_stable (rs : List Runner) :
    (finishedRunners rs).Pairwise (StableOrder cmpFinalTime (Before rs)) := by
  apply jsSort_stable
  · intro x y z h1 h2
    unfold cmpFinalTime at *
    omega
  · intro x y
    unfold cmpFinalTime
    omega
  · exact List.Pairwise.sublist (List.filter_sublist rs) (before_pairwise rs)

theorem position_unique (rs : List Runner) (hnd : (rs.map fun x => x.id).Nodup)
    (i j : Nat) (a : Runner) (hi : rs[i]? = some a) (hj : rs[j]? = some a) : i = j := by
  by_contra h
  exact id_ne_of_nodup rs hnd i j a a hi hj (fun e => h e.symm) rfl

theorem rank_position (rs : List Runner) (hnd : (rs.map fun x => x.id).Nodup)
    (a : Runner) (ha : a ∈ rs) (n : Nat) (hrank : rankOf rs a.id = some n) :
    ∃ k, n = k + 1 ∧ (finishedRunners rs)[k]? = some a := by
  rw [rankOf_eq] at hrank
  cases hf : findIndex (fun r => decide (r.id = a.id)) (finishedRunners rs) with
  | none => simp [hf] at hrank
  | some k =>
    simp only [hf, Option.map_some', Option.some.injEq] at hrank
    obtain ⟨r, hr, hp⟩ := findIndex_some _ _ k hf
    have hrmem : r ∈ rs :=
      ((mem_finishedRunners rs r).1 (List.mem_iff_getElem?.2 ⟨k, hr⟩)).1
    have hra : r = a :=
      List.inj_on_of_nodup_map hnd hrmem ha (by simpa using hp)
    exact ⟨k, hrank.symm, hra ▸ hr⟩

theorem rank_lt_of_stable (rs : List Runner) (hnd : (rs.map fun x => x.id).Nodup)
    (a b : Runner) (ha : a ∈ rs) (hb : b ∈ rs) (na nb : Nat)
    (hra : rankOf rs a.id = some na) (hrb : rankOf rs b.id = some nb) (hab : a ≠ b)
    (hno : ¬ StableOrder cmpFinalTime (Before rs) b a) : na < nb := by
  obtain ⟨ka, hna, hka⟩ := rank_position rs hnd a ha na hra
  obtain ⟨kb, hnb, hkb⟩ := rank_position rs hnd b hb nb hrb
  subst hna hnb
  rcases Nat.lt_trichotomy ka kb with h | h | h
  · omega
  · subst h
    rw [hka] at hkb
    exact absurd (Option.some.inj hkb) hab
  · exfalso
    obtain ⟨h1, e1⟩ := List.getElem?_eq_some_iff.1 hka
    obtain ⟨h2, e2⟩ := List.getElem?_eq_some_iff.1 hkb
    have := (List.pairwise_iff_getElem.1 (finishedRunners_stable rs)) kb ka h2 h1 h
    rw [e1, e2] at this
    exact hno this

theorem getRankData_none_of_unranked (rs : List Runner)
    (hnd : (rs.map fun x => x.id).Nodup) (r : Runner) (hr : r ∈ rs)
    (hun : isRanked r = false) : getRankData rs r.id = none := by
  unfold getRankData
  cases hf : findIndex (fun x => decide (x.id = r.id)) (finishedRunners rs) with
  | none => rfl
  | some k =>
    exfalso
    obtain ⟨r2, hr2, hp⟩ := findIndex_some _ _ k hf
    have hmem := (mem_finishedRunners rs r2).1 (List.mem_iff_getElem?.2 ⟨k, hr2⟩)
    have he : r2 = r := List.inj_on_of_nodup_map hnd hmem.1 hr (by simpa using hp)
    rw [he, hun] at hmem
    exact Bool.false_ne_true hmem.2

/-- C8: for a store with pairwise distinct ids, `finishedRunners` is a rearrangement of the
runners that pass the filter `finished && finalTime !== null`, and the rank reported by
`getRankData` for a runner is its 1-based position in it: the ranks read along that list
are exactly `1..k`, every such runner has a rank in `1..k`, a smaller `finalTime` gives a
smaller rank (so rank 1 has the minimum `finalTime`), equal `finalTime`s are ranked in store
order, and a runner that fails the filter (in particular an unfinished one) gets `null`.
Where `finished` holds exactly when `finalTime` is set, the filter selects exactly the
finished runners. A finished at 60000 and B at 58000 give B rank 1 and A rank 2 in either
store order. -/
theorem getRankData_rank (rs : List Runner) (hnd : (rs.map fun x => x.id).Nodup) :
    (finishedRunners rs).Perm (rs.filter isRanked) ∧
    (∀ (k : Nat) (r : Runner), (finishedRunners rs)[k]? = some r →
      rankOf rs r.id = some (k + 1)) ∧
    (finishedRunners rs).map (fun r => rankOf rs r.id) =
      (List.range (rs.filter isRanked).length).map (fun k => some (k + 1)) ∧
    (∀ r ∈ rs, isRanked r = true →
      ∃ n, rankOf rs r.id = some n ∧ 1 ≤ n ∧ n ≤ (rs.filter isRanked).length) ∧
    (∀ a ∈ rs, ∀ b ∈ rs, ∀ (x y : Int) (na nb : Nat),
      a.finalTime = some x → b.finalTime = some y → x < y →
      rankOf rs a.id = some na → rankOf rs b.id = some nb → na < nb) ∧
    (∀ a ∈ rs, ∀ b ∈ rs, ∀ (x y : Int),
      a.finalTime = some x → b.finalTime = some y →
      rankOf rs a.id = some 1 → isRanked b = true → x ≤ y) ∧
    (∀ (i j : Nat) (a b : Runner) (x : Int) (na nb : Nat), i < j →
      rs[i]? = some a → rs[j]? = some b → a.finalTime = some x → b.finalTime = some x →
      rankOf rs a.id = some na → rankOf rs b.id = some nb → na < nb) ∧
    (∀ r ∈ rs, isRanked r = false → getRankData rs r.id = none) ∧
    (∀ r ∈ rs, r.finished = false → getRankData rs r.id = none) ∧
    ((∀ r ∈ rs, FinishedIffFinal r) →
      rs.filter isRanked = rs.filter fun r => r.finished) ∧
    (rankOf storeAB 2 = some 1 ∧ rankOf storeAB 1 = some 2 ∧
      rankOf storeBA 1 = some 1 ∧ rankOf storeBA 2 = some 2) := by
  have hlen : (finishedRunners rs).length = (rs.filter isRanked).length :=
    (finishedRunners_perm rs).length_eq
  have hpos : ∀ (k : Nat) (r : Runner), (finishedRunners rs)[k]? = some r →
      rankOf rs r.id = some (k + 1) := by
    intro k r hk
    rw [rankOf_eq, findIndex_of_nodup _ k r (finishedRunners_nodup rs hnd) hk]
    rfl
  have hhas : ∀ r ∈ rs, isRanked r = true →
      ∃ n, rankOf rs r.id = some n ∧ 1 ≤ n ∧ n ≤ (rs.filter isRanked).length := by
    intro r hr hrk
    obtain ⟨k, hk⟩ := List.mem_iff_getElem?.1 ((mem_finishedRunners rs r).2 ⟨hr, hrk⟩)
    have hklt : k < (finishedRunners rs).length := (List.getElem?_eq_some_iff.1 hk).1
    exact ⟨k + 1, hpos k r hk, by omega, by omega⟩
  have hlt : ∀ a ∈ rs, ∀ b ∈ rs, ∀ (x y : Int) (na nb : Nat),
      a.finalTime = some x → b.finalTime = some y → x < y →
      rankOf rs a.id = some na → rankOf rs b.id = some nb → na < nb := by
    intro a ha b hb x y na nb hx hy hxy hra hrb
    refine rank_lt_of_stable rs hnd a b ha hb na nb hra hrb ?_ ?_
    · intro e
      rw [e, hy] at hx
      have := Option.some.inj hx
      omega
    · intro hso
      have := hso.1
      simp only [cmpFinalTime, hx, hy, Option.getD_some] at this
      omega
  refine ⟨finishedRunners_perm rs, hpos, ?_, hhas, hlt, ?_, ?_,
    fun r hr hun => getRankData_none_of_unranked rs hnd r hr hun, ?_, ?_, by decide⟩
  · apply List.ext_getElem
    · simp [hlen]
    · intro k h1 h2
      have hk : k < (finishedRunners rs).length := by simpa using h1
      have := hpos k _ (List.getElem?_eq_getElem hk)
      simp [this]
  · intro a ha b hb x y hx hy hra hrkb
    by_contra hcon
    obtain ⟨nb, hrb, h1, _⟩ := hhas b hb hrkb
    have := hlt b hb a ha y x nb 1 hy hx (by omega) hrb hra
    omega
  · intro i j a b x na nb hij hi hj hx hy hra hrb
    have ha : a ∈ rs := List.mem_iff_getElem?.2 ⟨i, hi⟩
    have hb : b ∈ rs := List.mem_iff_getElem?.2 ⟨j, hj⟩
    refine rank_lt_of_stable rs hnd a b ha hb na nb hra hrb ?_ ?_
    · intro e
      rw [e] at hi
      have := position_unique rs hnd i j b hi hj
      omega
    · intro hso
      have hle : cmpFinalTime a b ≤ 0 := by
        simp [cmpFinalTime, hx, hy]
      obtain ⟨i2, j2, hlt2, hi2, hj2⟩ := hso.2 hle
      have e1 := position_unique rs hnd i2 j b hi2 hj
      have e2 := position_unique rs hnd j2 i a hj2 hi
      omega
  · intro r hr hfin
    exact getRankData_none_of_unranked rs hnd r hr (by simp [isRanked, hfin])
  · intro hinv
    apply List.filter_congr
    intro r hr
    have := hinv r hr
    unfold FinishedIffFinal at this
    cases hf : r.finished <;> cases ht : r.finalTime <;> simp_all [isRanked]

/-- C8, on the example store A, B: the runner B (id 2) has a rank between 1 and 2. -/
theorem getRankData_rank_witness :
    ∃ n, rankOf storeAB 2 = some n ∧ 1 ≤ n ∧ n ≤ (storeAB.filter isRanked).length :=
  (getRankData_rank storeAB (by decide)).2.2.2.1
    { id := 2, name := "B", splits := [], finished := true, finalTime := some 58000 }
    (by decide) (by decide)

/-! ## The auto-stop effect -/

/-- C11: when the clock is running, the store has at least one runner and every runner is
finished, the auto-stop step pauses the clock and emits the completion notification
"Semua pelari selesai!", changing nothing else; when the store is empty or some runner is
unfinished it leaves the state, the running flag included, unchanged. -/
theorem autoStop_rule (app : App) :
    (app.isRunning = true → app.runners ≠ [] → (∀ r ∈ app.runners, r.finished = true) →
      autoStop app =
        { app with isRunning := false, toasts := app.toasts ++ ["Semua pelari selesai!"] }) ∧
    ((app.runners = [] ∨ ∃ r ∈ app.runners, r.finished = false) →
      autoStop app = app ∧ (autoStop app).isRunning = app.isRunning) := by
  constructor
  · intro hrun hne hall
    have hlen : app.runners.length > 0 := List.length_pos.2 hne
    have hall2 : app.runners.all (fun r => r.finished) = true := by
      simpa [List.all_eq_true] using hall
    simp [autoStop, hrun, hlen, hall2]
  · intro h
    have : autoStop app = app := by
      unfold autoStop
      rcases h with h | ⟨r, hr, hf⟩
      · simp [h]
      · have hall2 : app.runners.all (fun r => r.finished) = false := by
          rw [List.all_eq_false]
          exact ⟨r, hr, by simp [hf]⟩
        simp [hall2]
    exact ⟨this, by rw [this]⟩

/-- C12 (as stated, refuted): after the auto-pause at 5000 ms, pressing Start again makes
the auto-stop step pause and notify a second time; and after adding a runner, pressing
Start makes the clock run and a tick advance the elapsed value to 9000 ms. -/
theorem autoStop_once_counterexample :
    autoStopped.isRunning = false ∧ autoStopped.masterTime = 5000 ∧
    autoStopped.toasts.count "Semua pelari selesai!" = 1 ∧
    (autoStop (toggleTimer autoStopped)).toasts.count "Semua pelari selesai!" = 2 ∧
    (tick 9000 (autoStop (toggleTimer (autoStop (App.addRunner autoStopped))))).isRunning
      = true ∧
    (tick 9000 (autoStop (toggleTimer (autoStop (App.addRunner autoStopped))))).masterTime
      = 9000 := by
  decide

/-- C12 (amended): in a state whose store is non-empty with every runner finished, the
auto-stop step leaves the clock paused with the elapsed value unchanged, and no tick
advances the elapsed value after it. This happens every time, not once per session:
pressing Start in such a paused state is undone by the auto-stop step before any tick, the
elapsed value stays, and the completion notification is emitted again. -/
theorem autoStop_every_time (app : App) (hne : app.runners ≠ [])
    (hall : ∀ r ∈ app.runners, r.finished = true) :
    (autoStop app).isRunning = false ∧
    (autoStop app).masterTime = app.masterTime ∧
    (∀ t : Int, tick t (autoStop app) = autoStop app) ∧
    (app.isRunning = false →
      autoStop (toggleTimer app) =
        { app with toasts := app.toasts ++ ["Stopwatch dimulai", "Semua pelari selesai!"] }) := by
  have hlen : app.runners.length > 0 := List.length_pos.2 hne
  have hall2 : app.runners.all (fun r => r.finished) = true := by
    simpa [List.all_eq_true] using hall
  have hpaused : (autoStop app).isRunning = false := by
    unfold autoStop
    cases hr : app.isRunning <;> simp [hr, hlen, hall2]
  refine ⟨hpaused, ?_, ?_, ?_⟩
  · unfold autoStop
    split <;> rfl
  · intro t
    simp [tick, hpaused]
  · intro hp
    cases app with
    | mk masterTime isRunning runners modal toasts =>
      simp only at hp hlen hall2
      subst hp
      simp [autoStop, toggleTimer, hlen, hall2]

/-- C12 (amended), at the state reached by the auto-pause at 5000 ms. -/
theorem autoStop_every_time_witness :
    (autoStop autoStopped).isRunning = false ∧
    (autoStop autoStopped).masterTime = autoStopped.masterTime :=
  ⟨(autoStop_every_time autoStopped (by decide) (by decide)).1,
   (autoStop_every_time autoStopped (by decide) (by decide)).2.1⟩

/-! ## Name import -/

theorem newRunners_eq (runners : List Runner) (text : String) :
    newRunners runners text = linesToRunners runners (splitLines text.toList) := rfl

theorem splitLinesAux_last (l : List Char) (hn : '\n' ∉ l) (hr : '\r' ∉ l) :
    ∀ cur : List Char, splitLinesAux cur l = [cur.reverse ++ l] := by
  induction l with
  | nil => intro cur; simp [splitLinesAux]
  | cons c l ih =>
    intro cur
    simp only [List.mem_cons, not_or] at hn hr
    have h := ih hn.2 hr.2 (c :: cur)
    rw [splitLinesAux]
    · simpa using h
    · intro h2; exact hn.1 h2.symm
    · intro rest2 h2 _; exact hr.1 h2.symm

theorem splitLinesAux_line (l : List Char) (hn : '\n' ∉ l) (hr : '\r' ∉ l) :
    ∀ (cur rest : List Char),
      splitLinesAux cur (l ++ '\n' :: rest) = (cur.reverse ++ l) :: splitLinesAux [] rest := by
  induction l with
  | nil => intro cur rest; simp [splitLinesAux]
  | cons c l ih =>
    intro cur rest
    simp only [List.mem_cons, not_or] at hn hr
    have h := ih hn.2 hr.2 (c :: cur) rest
    rw [List.cons_append, splitLinesAux]
    · simpa using h
    · intro h2; exact hn.1 h2.symm
    · intro rest2 h2 _; exact hr.1 h2.symm

theorem splitLines_joinLines (lines : List (List Char)) (hne : lines ≠ [])
    (hfree : ∀ l ∈ lines, '\n' ∉ l ∧ '\r' ∉ l) : splitLines (joinLines lines) = lines := by
  unfold splitLines
  induction lines with
  | nil => exact absurd rfl hne
  | cons l rest ih =>
    have hl := hfree l (List.mem_cons_self l rest)
    cases rest with
    | nil => simpa [joinLines] using splitLinesAux_last l hl.1 hl.2 []
    | cons l2 rest2 =>
      have := ih (by simp) (fun x hx => hfree x (List.mem_cons_of_mem l hx))
      simp only [joinLines] at this ⊢
      rw [splitLinesAux_line l hl.1 hl.2, this]
      simp

theorem importLoop_eq (lines : List (List Char)) : ∀ currentId : Int,
    importLoop currentId lines = freshRunners currentId (survivingNames lines) := by
  induction lines with
  | nil => intro _; rfl
  | cons line rest ih =>
    intro currentId
    by_cases h : cleanName line = []
    · simp [importLoop, survivingNames, h, ← ih]
      simpa [survivingNames] using ih currentId
    · simp only [importLoop, survivingNames, List.map_cons]
      rw [if_pos h, List.filter_cons_of_pos (by simpa using h)]
      simp only [freshRunners]
      congr 1
      simpa [survivingNames] using ih (currentId + 1)

theorem survivingNames_valid (lines : List (List Char))
    (hvalid : ∀ l ∈ lines, cleanName l ≠ []) : survivingNames lines = lines.map cleanName := by
  unfold survivingNames
  apply List.filter_eq_self.2
  intro n hn
  obtain ⟨l, hl, rfl⟩ := List.mem_map.1 hn
  simpa using hvalid l hl

theorem freshRunners_length (names : List (List Char)) : ∀ firstId : Int,
    (freshRunners firstId names).length = names.length := by
  induction names with
  | nil => intro _; rfl
  | cons n rest ih => intro firstId; simp [freshRunners, ih]

theorem freshRunners_getElem (names : List (List Char)) :
    ∀ (firstId : Int) (k : Nat) (n : List Char), names[k]? = some n →
      (freshRunners firstId names)[k]? =
        some { id := firstId + (k : Int), name := String.mk n, splits := [],
               finished := false, finalTime := none } := by
  induction names with
  | nil => intro _ k n h; simp at h
  | cons a rest ih =>
    intro firstId k n h
    cases k with
    | zero =>
      simp only [List.getElem?_cons_zero, Option.some.injEq] at h
      subst h
      simp [freshRunners]
    | succ k =>
      simp only [List.getElem?_cons_succ] at h
      have := ih (firstId + 1) k n h
      simp only [freshRunners, List.getElem?_cons_succ, this]
      congr 2
      push_cast
      ring

theorem freshRunners_ids (names : List (List Char)) : ∀ firstId : Int,
    (freshRunners firstId names).map (fun r => r.id) =
      (List.range names.length).map fun (k : Nat) => firstId + (k : Int) := by
  induction names with
  | nil => intro _; rfl
  | cons a rest ih =>
    intro firstId
    simp only [freshRunners, List.map_cons, List.length_cons, List.range_succ_eq_map,
      List.map_map, ih (firstId + 1)]
    refine congrArg₂ _ (by simp) ?_
    apply List.map_congr_left
    intro k _
    simp only [Function.comp, Nat.succ_eq_add_one]
    push_cast
    ring

theorem jsTrim_last (s : List Char) (c : Char) (h : (jsTrim s).getLast? = some c) :
    isJsSpace c = false := by
  unfold jsTrim at h
  rw [List.getLast?_reverse] at h
  have := List.head?_dropWhile_not isJsSpace (s.dropWhile isJsSpace).reverse
  rw [h] at this
  exact this

theorem jsTrim_head (s : List Char) (c : Char) (h : (jsTrim s).head? = some c) :
    isJsSpace c = false := by
  have hpre : jsTrim s <+: s.dropWhile isJsSpace :=
    List.rdropWhile_prefix isJsSpace (s.dropWhile isJsSpace)
  obtain ⟨t, ht⟩ := hpre
  have hhead : (s.dropWhile isJsSpace).head? = some c := by
    rw [← ht]
    cases hj : jsTrim s with
    | nil => rw [hj] at h; simp at h
    | cons a l => rw [hj] at h; simpa using h
  have := List.head?_dropWhile_not isJsSpace s
  rw [hhead] at this
  exact this

theorem stripQuote_of_unquoted (q : Char) (s : List Char) (h1 : s.head? ≠ some q)
    (h2 : s.getLast? ≠ some q) : stripQuote q s = s := by
  unfold stripQuote
  cases s with
  | nil => rfl
  | cons c rest =>
    have hc : c ≠ q := by simpa using h1
    simp only [if_neg hc]
    cases hrev : (c :: rest).reverse with
    | nil => simp at hrev
    | cons d t =>
      have hd : (c :: rest).getLast? = some d := by
        rw [List.getLast?_eq_head?_reverse, hrev]; rfl
      have hdq : d ≠ q := by
        intro e; rw [hd, e] at h2; exact h2 rfl
      simp [hdq]

theorem includes_iff (pat s : List Char) : includes pat s = true ↔ pat <:+: s := by
  induction s with
  | nil => simp [includes]
  | cons c rest ih =>
    simp only [includes, Bool.or_eq_true, ih, List.isPrefixOf_iff_prefix, List.infix_cons_iff]

theorem isHeaderLine_iff (line : List Char) : isHeaderLine line = true ↔ ContainsNama line := by
  unfold isHeaderLine ContainsNama
  rw [includes_iff]
  constructor
  · rintro ⟨a, b, h⟩
    obtain ⟨l1, l2, h1, h2, h3⟩ := List.map_eq_append_iff.1 h.symm
    obtain ⟨l3, l4, h4, h5, h6⟩ := List.map_eq_append_iff.1 h2
    exact ⟨l3, l4, l2, by rw [h1, h4], h6⟩
  · rintro ⟨pre, w, post, h, hw⟩
    exact ⟨pre.map Char.toLower, post.map Char.toLower, by simp [h, hw]⟩

theorem freshRunners_mem (names : List (List Char)) (firstId : Int) (r : Runner)
    (hr : r ∈ freshRunners firstId names) :
    ∃ n ∈ names, r.name = String.mk n ∧ r.splits = [] ∧ r.finished = false ∧
      r.finalTime = none := by
  obtain ⟨k, hk⟩ := List.mem_iff_getElem?.1 hr
  have hlt : k < names.length := by
    rw [← freshRunners_length names firstId]
    exact (List.getElem?_eq_some_iff.1 hk).1
  have hn : names[k]? = some names[k] := List.getElem?_eq_getElem hlt
  rw [freshRunners_getElem names firstId k _ hn] at hk
  have := Option.some.inj hk
  subst this
  exact ⟨names[k], List.getElem_mem hlt, rfl, rfl, rfl, rfl⟩

theorem linesToRunners_header (rs : List Runner) (lines : List (List Char))
    (h : isHeaderLine (lines.headD []) = true) :
    linesToRunners rs lines = freshRunners (nextId rs) (survivingNames lines.tail) := by
  unfold linesToRunners
  simp only [h, if_true, importLoop_eq, List.drop_one]

theorem linesToRunners_plain (rs : List Runner) (lines : List (List Char))
    (h : isHeaderLine (lines.headD []) = false) :
    linesToRunners rs lines = freshRunners (nextId rs) (survivingNames lines) := by
  unfold linesToRunners
  simp only [h, importLoop_eq, List.drop_zero]
  rfl

theorem importNames_eq (rs : List Runner) (text : String) (prev : List Runner) :
    importNames rs text prev = prev ++ linesToRunners rs (splitLines text.toList) := by
  unfold importNames
  rw [newRunners_eq]
  split
  · rfl
  · rename_i h
    have : linesToRunners rs (splitLines text.toList) = [] := by
      apply List.eq_nil_of_length_eq_zero
      omega
    rw [this, List.append_nil]

/-- C13 (as stated, refuted): the two lines "Purnama" and "Budi" are both valid non-empty
runner names, yet importing them adds one runner, not two: the first line contains "nama"
and is taken for the header. -/
theorem import_name_taken_for_header_counterexample :
    cleanName "Purnama".toList = "Purnama".toList ∧
    cleanName "Budi".toList = "Budi".toList ∧
    importNames initialRunners "Purnama\nBudi" initialRunners =
      initialRunners ++
        [{ id := 2, name := "Budi", splits := [], finished := false, finalTime := none }] := by
  decide

/-- C13 (amended): for N lines that each clean to a non-empty name, when the first line does
not contain "nama" in any letter case, the import appends exactly N new runners in line
order, the `k`-th (from 0) with the id `nextId + k`, the name `cleanName` of the `k`-th
line, `finished = false`, `finalTime = null` and an empty log; when the first line does
contain "nama" it is the header and the same holds for the N - 1 lines after it. The store
after the import is the old store followed by these runners, and a list of lines free of
line breaks is what its newline-joined text splits into. -/
theorem import_valid_names (rs : List Runner) (lines : List (List Char))
    (hvalid : ∀ l ∈ lines, cleanName l ≠ []) :
    (¬ ContainsNama (lines.headD []) →
      (linesToRunners rs lines).length = lines.length ∧
      ∀ (k : Nat) (l : List Char), lines[k]? = some l →
        (linesToRunners rs lines)[k]? =
          some { id := nextId rs + (k : Int), name := String.mk (cleanName l), splits := [],
                 finished := false, finalTime := none }) ∧
    (ContainsNama (lines.headD []) →
      (linesToRunners rs lines).length = lines.length - 1 ∧
      ∀ (k : Nat) (l : List Char), lines[k + 1]? = some l →
        (linesToRunners rs lines)[k]? =
          some { id := nextId rs + (k : Int), name := String.mk (cleanName l), splits := [],
                 finished := false, finalTime := none }) ∧
    (∀ text : String, splitLines text.toList = lines →
      importNames rs text rs = rs ++ linesToRunners rs lines) ∧
    (lines ≠ [] → (∀ l ∈ lines, '\n' ∉ l ∧ '\r' ∉ l) →
      splitLines (String.mk (joinLines lines)).toList = lines) := by
  refine ⟨?_, ?_, ?_, ?_⟩
  · intro hno
    have hh : isHeaderLine (lines.headD []) = false := by
      rw [← Bool.not_eq_true, isHeaderLine_iff]; exact hno
    rw [linesToRunners_plain rs lines hh, survivingNames_valid lines hvalid]
    refine ⟨by simp [freshRunners_length], ?_⟩
    intro k l hk
    exact freshRunners_getElem _ _ k _ (by simp [List.getElem?_map, hk])
  · intro hyes
    have hh : isHeaderLine (lines.headD []) = true := (isHeaderLine_iff _).2 hyes
    have hv2 : ∀ l ∈ lines.tail, cleanName l ≠ [] :=
      fun l hl => hvalid l (List.mem_of_mem_tail hl)
    rw [linesToRunners_header rs lines hh, survivingNames_valid lines.tail hv2]
    refine ⟨by simp [freshRunners_length], ?_⟩
    intro k l hk
    exact freshRunners_getElem _ _ k _ (by simp [List.getElem?_map, hk])
  · intro text ht
    rw [importNames_eq, ht]
  · intro hne hfree
    exact splitLines_joinLines lines hne hfree

/-- C13 (amended), on the two names of the import template. -/
theorem import_valid_names_witness :
    (linesToRunners initialRunners ["Budi Santoso".toList, "Siti Aminah".toList]).length = 2 :=
  ((import_valid_names initialRunners ["Budi Santoso".toList, "Siti Aminah".toList]
    (by decide)).1 (by rw [← isHeaderLine_iff]; decide)).1

/-- C14 (as stated, refuted): a line holding ` Budi ` inside double quotes yields the name
` Budi `, which begins and ends with a space; and a line holding `Budi` inside two layers
of double quotes yields a name that is still wrapped in double quotes. -/
theorem import_name_not_clean_counterexample :
    newRunners initialRunners "\" Budi \"" =
      [{ id := 2, name := " Budi ", splits := [], finished := false, finalTime := none }] ∧
    newRunners initialRunners "\"\"Budi\"\"" =
      [{ id := 2, name := "\"Budi\"", splits := [], finished := false,
         finalTime := none }] := by
  decide

/-- C14 (amended): the import skips the first line exactly when it contains "nama" in any
letter case; the runners it creates are, in order, one fresh runner per remaining line whose
cleaned text is not empty, so every created name is non-empty and a line that cleans to the
empty text creates no runner. The cleaned text is the line trimmed of white space, then
without one double quote at either end, then without one single quote at either end, and
nothing is stripped after that: the trimmed line never begins or ends with white space,
and a trimmed line that neither begins nor ends with a quote character is the name itself. -/
theorem import_lines_rule (rs : List Runner) (lines : List (List Char)) :
    (ContainsNama (lines.headD []) →
      linesToRunners rs lines = freshRunners (nextId rs) (survivingNames lines.tail)) ∧
    (¬ ContainsNama (lines.headD []) →
      linesToRunners rs lines = freshRunners (nextId rs) (survivingNames lines)) ∧
    (∀ r ∈ linesToRunners rs lines,
      r.name ≠ "" ∧ r.splits = [] ∧ r.finished = false ∧ r.finalTime = none ∧
      ∃ l ∈ lines, r.name = String.mk (cleanName l)) ∧
    ((∀ l ∈ lines, cleanName l = []) → linesToRunners rs lines = []) ∧
    (∀ l : List Char, cleanName l = stripQuote '\'' (stripQuote '"' (jsTrim l))) ∧
    (∀ (l : List Char) (c : Char), (jsTrim l).head? = some c → isJsSpace c = false) ∧
    (∀ (l : List Char) (c : Char), (jsTrim l).getLast? = some c → isJsSpace c = false) ∧
    (∀ l : List Char, Unquoted (jsTrim l) → cleanName l = jsTrim l) := by
  have hmem : ∀ (ls : List (List Char)), (∀ l ∈ ls, l ∈ lines) →
      ∀ r ∈ freshRunners (nextId rs) (survivingNames ls),
        r.name ≠ "" ∧ r.splits = [] ∧ r.finished = false ∧ r.finalTime = none ∧
        ∃ l ∈ lines, r.name = String.mk (cleanName l) := by
    intro ls hls r hr
    obtain ⟨n, hn, h1, h2, h3, h4⟩ := freshRunners_mem _ _ r hr
    obtain ⟨hn1, hn2⟩ := List.mem_filter.1 hn
    obtain ⟨l, hl, rfl⟩ := List.mem_map.1 hn1
    have hne : cleanName l ≠ [] := by simpa using hn2
    refine ⟨?_, h2, h3, h4, l, hls l hl, h1⟩
    rw [h1]
    intro e
    exact hne (congrArg String.data e)
  have hcases : ∀ r ∈ linesToRunners rs lines,
      r.name ≠ "" ∧ r.splits = [] ∧ r.finished = false ∧ r.finalTime = none ∧
      ∃ l ∈ lines, r.name = String.mk (cleanName l) := by
    intro r hr
    cases hh : isHeaderLine (lines.headD []) with
    | true =>
      rw [linesToRunners_header rs lines hh] at hr
      exact hmem lines.tail (fun l hl => List.mem_of_mem_tail hl) r hr
    | false =>
      rw [linesToRunners_plain rs lines hh] at hr
      exact hmem lines (fun l hl => hl) r hr
  refine ⟨fun h => linesToRunners_header rs lines ((isHeaderLine_iff _).2 h), ?_, hcases, ?_,
    fun _ => rfl, jsTrim_head, jsTrim_last, ?_⟩
  · intro hno
    exact linesToRunners_plain rs lines (by rw [← Bool.not_eq_true, isHeaderLine_iff]; exact hno)
  · intro hall
    cases hl : linesToRunners rs lines with
    | nil => rfl
    | cons r rest =>
      exfalso
      obtain ⟨_, _, _, _, l, hmeml, hname⟩ := hcases r (by rw [hl]; exact List.mem_cons_self r rest)
      have hr := hcases r (by rw [hl]; exact List.mem_cons_self r rest)
      rw [hall l hmeml] at hname
      exact hr.1 hname
  · intro l hu
    obtain ⟨h1, h2, h3, h4⟩ := hu
    unfold cleanName
    rw [stripQuote_of_unquoted '"' (jsTrim l) h1 h3,
      stripQuote_of_unquoted '\'' (jsTrim l) h2 h4]

/-! ## Runner ids -/

theorem foldl_max_ge {α : Type} [LinearOrder α] (l : List α) : ∀ a : α,
    a ≤ l.foldl max a ∧ ∀ x ∈ l, x ≤ l.foldl max a := by
  induction l with
  | nil => intro a; simp
  | cons b l ih =>
    intro a
    obtain ⟨h1, h2⟩ := ih (max a b)
    refine ⟨le_trans (le_max_left a b) h1, ?_⟩
    intro x hx
    rcases List.mem_cons.1 hx with e | e
    · subst e; exact le_trans (le_max_right a x) h1
    · exact h2 x e

theorem foldl_max_mem {α : Type} [LinearOrder α] (l : List α) : ∀ a : α,
    l.foldl max a = a ∨ l.foldl max a ∈ l := by
  induction l with
  | nil => intro a; simp
  | cons b l ih =>
    intro a
    rcases ih (max a b) with h | h
    · rcases max_choice a b with e | e
      · left; rw [List.foldl_cons, h, e]
      · right; rw [List.foldl_cons, h, e]; exact List.mem_cons_self b l
    · right; exact List.mem_cons_of_mem b h

theorem maxOf_ge (l : List Int) : ∀ x ∈ l, x ≤ maxOf l := by
  cases l with
  | nil => intro x hx; simp at hx
  | cons a l =>
    intro x hx
    rcases List.mem_cons.1 hx with e | e
    · subst e; exact (foldl_max_ge l x).1
    · exact (foldl_max_ge l a).2 x e

theorem maxOf_mem (l : List Int) (hne : l ≠ []) : maxOf l ∈ l := by
  cases l with
  | nil => exact absurd rfl hne
  | cons a l =>
    rcases foldl_max_mem l a with h | h
    · simp only [maxOf, h]; exact List.mem_cons_self a l
    · exact List.mem_cons_of_mem a h

theorem nextId_of_ne_nil (rs : List Runner) (hne : rs ≠ []) :
    nextId rs = maxOf (rs.map fun r => r.id) + 1 := by
  unfold nextId
  rw [if_pos (List.length_pos.2 hne)]

theorem nextId_gt (rs : List Runner) : ∀ r ∈ rs, r.id < nextId rs := by
  intro r hr
  rw [nextId_of_ne_nil rs (List.ne_nil_of_mem hr)]
  have := maxOf_ge (rs.map fun r => r.id) r.id (List.mem_map_of_mem _ hr)
  omega

theorem nodup_append_fresh (rs : List Runner) (names : List (List Char))
    (hnd : (rs.map fun r => r.id).Nodup) :
    ((rs ++ freshRunners (nextId rs) names).map fun r => r.id).Nodup := by
  rw [List.map_append, freshRunners_ids, List.nodup_append]
  refine ⟨hnd, ?_, ?_⟩
  · apply List.Nodup.map _ (List.nodup_range _)
    intro a b h
    simp only at h
    omega
  · intro x hx hx2
    obtain ⟨r, hr, rfl⟩ := List.mem_map.1 hx
    obtain ⟨k, _, hk⟩ := List.mem_map.1 hx2
    have := nextId_gt rs r hr
    omega

theorem linesToRunners_fresh (rs : List Runner) (lines : List (List Char)) :
    ∃ names, linesToRunners rs lines = freshRunners (nextId rs) names := by
  cases hh : isHeaderLine (lines.headD []) with
  | true => exact ⟨_, linesToRunners_header rs lines hh⟩
  | false => exact ⟨_, linesToRunners_plain rs lines hh⟩

theorem map_keeps_ids (f : Runner → Runner) (hf : ∀ r, (f r).id = r.id) (rs : List Runner) :
    (rs.map f).map (fun r => r.id) = rs.map fun r => r.id := by
  rw [List.map_map]
  exact List.map_congr_left fun r _ => hf r

theorem nodup_step (op : Op) (rs : List Runner) (hnd : (rs.map fun r => r.id).Nodup)
    (hc : op.closesOver rs) : ((op.apply rs).map fun r => r.id).Nodup := by
  cases op with
  | addRunner =>
    have := nodup_append_fresh rs [("Pelari " ++ toString (nextId rs)).toList] hnd
    simpa [Op.apply, addRunner, freshRunners] using this
  | importNames c text =>
    have hc2 : c = rs := hc
    subst hc2
    obtain ⟨names, hn⟩ := linesToRunners_fresh c (splitLines text.toList)
    simp only [Op.apply, importNames_eq, hn]
    exact nodup_append_fresh c names hnd
  | updateRunnerName id n =>
    simp only [Op.apply, updateRunnerName]
    rw [map_keeps_ids _ (fun r => by split <;> rfl)]
    exact hnd
  | recordSplit t sid id =>
    simp only [Op.apply, recordSplit]
    rw [map_keeps_ids _ (fun r => by split <;> rfl)]
    exact hnd
  | finishRunner t sid id =>
    simp only [Op.apply, finishRunner]
    rw [map_keeps_ids _ (fun r => by split <;> rfl)]
    exact hnd
  | deleteSplit rid sid =>
    simp only [Op.apply, deleteSplit]
    rw [map_keeps_ids _ (fun r => by split <;> rfl)]
    exact hnd
  | removeRunner id =>
    simp only [Op.apply, removeRunner]
    exact List.Nodup.sublist (List.Sublist.map _ (List.filter_sublist rs)) hnd
  | deleteAllRunners => simp [Op.apply, deleteAllRunners]
  | resetSession c =>
    have hc2 : c = rs := hc
    subst hc2
    simp only [Op.apply, resetRunners]
    rw [map_keeps_ids
      (fun r => { r with splits := [], finished := false, finalTime := none }) (fun r => rfl)]
    exact hnd

theorem nodup_run (ops : List Op) : ∀ rs : List Runner,
    (rs.map fun r => r.id).Nodup → Synchronous rs ops →
      ((run rs ops).map fun r => r.id).Nodup := by
  induction ops with
  | nil => intro rs h _; simpa [run] using h
  | cons op ops ih =>
    intro rs h hs
    obtain ⟨hc, hrest⟩ := hs
    have := ih (op.apply rs) (nodup_step op rs h hc) hrest
    simpa [run] using this

theorem importNames_fresh (c rs : List Runner) (text : String) :
    importNames c text rs = rs ++ freshRunners (nextId c) (importedNames text) := by
  rw [importNames_eq]
  unfold importedNames
  cases hh : isHeaderLine ((splitLines text.toList).headD []) with
  | true => rw [linesToRunners_header c _ hh]; simp only [hh, if_true]
  | false =>
    rw [linesToRunners_plain c _ hh]
    simp only [hh, Bool.false_eq_true, if_false]

/-- C15 (as stated, refuted): a file with the one line "Budi" is chosen while the store is
the initial one, so `reader.onload` closes over that store. A runner is added before the
file has been read; it gets the id 2. The import then takes its first id from the store it
closed over, which is 2 again: the reached store holds two runners with the id 2. -/
theorem import_race_duplicate_id_counterexample :
    run initialRunners [Op.addRunner, Op.importNames initialRunners "Budi"] =
      [{ id := 1, name := "Pelari 1", splits := [], finished := false, finalTime := none },
       { id := 2, name := "Pelari 2", splits := [], finished := false, finalTime := none },
       { id := 2, name := "Budi", splits := [], finished := false, finalTime := none }] ∧
    ¬ ((run initialRunners [Op.addRunner, Op.importNames initialRunners "Budi"]).map
        fun r => r.id).Nodup := by
  decide

/-- C15 (amended): in every state reached from the initial store by operations that each
run atomically on the store they find (the store a handler closed over is the store its
update is applied to), the runner ids are pairwise distinct. `addRunner` appends one runner
whose id is `nextId`: 1 for the empty store, otherwise one more than the greatest id in the
store. An import appends its new runners after the unchanged existing ones, one per
imported name in line order, the `k`-th of them (from 0) with the id `nextId c + k`, where
`c` is the store `reader.onload` closed over: the store at the time the file was chosen,
whatever the store is when the file has been read. -/
theorem ids_distinct_when_atomic (ops : List Op) (hsync : Synchronous initialRunners ops) :
    ((run initialRunners ops).map fun r => r.id).Nodup ∧
    (∀ rs : List Runner, addRunner rs =
      rs ++ [{ id := nextId rs, name := "Pelari " ++ toString (nextId rs), splits := [],
               finished := false, finalTime := none }]) ∧
    nextId [] = 1 ∧
    (∀ rs : List Runner, rs ≠ [] →
      nextId rs - 1 ∈ (rs.map fun r => r.id) ∧ ∀ r ∈ rs, r.id ≤ nextId rs - 1) ∧
    (∀ (c rs : List Runner) (text : String),
      (importNames c text rs).length = rs.length + (importedNames text).length ∧
      (∀ i : Nat, i < rs.length → (importNames c text rs)[i]? = rs[i]?) ∧
      (∀ (k : Nat) (n : List Char), (importedNames text)[k]? = some n →
        (importNames c text rs)[rs.length + k]? =
          some { id := nextId c + (k : Int), name := String.mk n, splits := [],
                 finished := false, finalTime := none }) ∧
      ((importNames c text rs).drop rs.length).map (fun r => r.id) =
        (List.range (importedNames text).length).map fun (k : Nat) => nextId c + (k : Int)) ∧
    importedNames "Nama\nAni\n\n \"Budi\" \n" = ["Ani".toList, "Budi".toList] := by
  refine ⟨nodup_run ops initialRunners (by decide) hsync, fun _ => rfl, rfl, ?_, ?_,
    by decide⟩
  · intro rs hne
    rw [nextId_of_ne_nil rs hne]
    constructor
    · simpa using maxOf_mem (rs.map fun r => r.id) (by simpa using hne)
    · intro r hr
      have := maxOf_ge (rs.map fun r => r.id) r.id (List.mem_map_of_mem _ hr)
      omega
  · intro c rs text
    rw [importNames_fresh]
    refine ⟨?_, ?_, ?_, ?_⟩
    · rw [List.length_append, freshRunners_length]
    · intro i hi
      rw [List.getElem?_append_left hi]
    · intro k n hk
      rw [List.getElem?_append_right (Nat.le_add_right _ _), Nat.add_sub_cancel_left]
      exact freshRunners_getElem _ _ k n hk
    · rw [List.drop_left, freshRunners_ids]

/-- C15 (amended), on a concrete run: add, import one name, remove runner 1, add, reset. -/
theorem ids_distinct_when_atomic_witness :
    ((run initialRunners idRun).map fun r => r.id).Nodup :=
  (ids_distinct_when_atomic idRun ⟨trivial, rfl, trivial, trivial, rfl, trivial⟩).1

/-! ## Numbers -/

theorem floor_le_roundHalfEven (y : ℚ) : ⌊y⌋ ≤ roundHalfEven y := by
  unfold roundHalfEven
  split_ifs <;> omega

theorem le_roundHalfEven (y : ℚ) (m : ℤ) (h : (m : ℚ) ≤ y) : m ≤ roundHalfEven y :=
  le_trans (Int.le_floor.2 h) (floor_le_roundHalfEven y)

theorem roundHalfEven_lt (y : ℚ) (m : ℤ) (h : y < (m : ℚ) - 1 / 2) : roundHalfEven y < m := by
  have hf : ⌊y⌋ < m := by
    rw [Int.floor_lt]
    linarith
  have hfl : (⌊y⌋ : ℚ) ≤ y := Int.floor_le y
  unfold roundHalfEven
  by_cases h1 : y - ⌊y⌋ < 1 / 2
  · rw [if_pos h1]; exact hf
  · have h2 : ⌊y⌋ + 1 < m := by
      have : ((⌊y⌋ + 1 : ℤ) : ℚ) < m := by
        push_cast
        linarith
      exact_mod_cast this
    rw [if_neg h1]
    split_ifs <;> omega

theorem roundHalfEven_intCast (m : ℤ) : roundHalfEven (m : ℚ) = m := by
  unfold roundHalfEven
  simp

theorem roundHalfEven_eq (y : ℚ) (m : ℤ) (h1 : (m : ℚ) - 1 / 2 < y) (h2 : y < (m : ℚ) + 1 / 2) :
    roundHalfEven y = m := by
  have hlt : roundHalfEven y < m + 1 := roundHalfEven_lt y (m + 1) (by push_cast; linarith)
  have hfl : m - 1 ≤ ⌊y⌋ := Int.le_floor.2 (by push_cast; linarith)
  have hge : ⌊y⌋ ≤ roundHalfEven y := floor_le_roundHalfEven y
  by_cases hm : (m : ℚ) ≤ y
  · have := le_roundHalfEven y m hm
    omega
  · have hfloor : ⌊y⌋ = m - 1 := by
      have : ⌊y⌋ < m := Int.floor_lt.2 (lt_of_not_le hm)
      omega
    unfold roundHalfEven
    have h3 : ¬ (y - ⌊y⌋ < 1 / 2) := by
      rw [hfloor]; push_cast; linarith
    have h4 : (1 : ℚ) / 2 < y - ⌊y⌋ := by
      rw [hfloor]; push_cast; linarith
    rw [if_neg h3, if_pos h4, hfloor]
    omega

theorem ulpExp_le (x : ℚ) (k : ℤ) (hx0 : x ≠ 0) (hx : |x| < (2 : ℚ) ^ (k + 53))
    (hk : -1074 ≤ k) : ulpExp x ≤ k := by
  have hpos : 0 < |x| := abs_pos.2 hx0
  have hlog : Int.log 2 |x| < k + 53 := by
    have := (Int.lt_zpow_iff_log_lt (R := ℚ) (b := 2) (by norm_num) hpos (x := k + 53)).1
      (by exact_mod_cast hx)
    exact this
  unfold ulpExp
  have : max (Int.log 2 |x|) (-1022) ≤ k + 52 := max_le (by omega) (by omega)
  omega

theorem ulpExp_eq (x : ℚ) (l : ℤ) (h1 : (2 : ℚ) ^ l ≤ |x|) (h2 : |x| < (2 : ℚ) ^ (l + 1))
    (hl : -1022 ≤ l) : ulpExp x = l - 52 := by
  have hpos : 0 < |x| := lt_of_lt_of_le (by positivity) h1
  have hlog1 : l ≤ Int.log 2 |x| :=
    (Int.zpow_le_iff_le_log (R := ℚ) (b := 2) (by norm_num) hpos (x := l)).1
      (by exact_mod_cast h1)
  have hlog2 : Int.log 2 |x| < l + 1 :=
    (Int.lt_zpow_iff_log_lt (R := ℚ) (b := 2) (by norm_num) hpos (x := l + 1)).1
      (by exact_mod_cast h2)
  unfold ulpExp
  rw [max_eq_left (by omega)]
  omega

theorem toDouble_zero : toDouble 0 = 0 := by
  unfold toDouble
  simp [roundHalfEven]

/-- With the last place at `2 ^ (-m)`, the rounded value is `roundHalfEven (x * 2 ^ m) / 2 ^ m`. -/
theorem toDouble_of_ulpExp (x : ℚ) (m : ℕ) (h : ulpExp x = -(m : ℤ)) :
    toDouble x = (roundHalfEven (x * 2 ^ m) : ℚ) / 2 ^ m := by
  unfold toDouble
  rw [h, zpow_neg, zpow_natCast, div_inv_eq_mul, ← div_eq_mul_inv]

theorem toDouble_intCast (n : ℤ) (h : |n| < 2 ^ 53) : toDouble (n : ℚ) = n := by
  by_cases h0 : n = 0
  · subst h0; simpa using toDouble_zero
  · have hx0 : (n : ℚ) ≠ 0 := by exact_mod_cast h0
    have hle : ulpExp (n : ℚ) ≤ 0 := by
      apply ulpExp_le _ 0 hx0 _ (by norm_num)
      have h1 : ((|n| : ℤ) : ℚ) < 2 ^ 53 := by exact_mod_cast h
      have h2 : (2 : ℚ) ^ ((0 : ℤ) + 53) = 2 ^ 53 := by norm_num
      rw [h2]
      simpa using h1
    obtain ⟨m, hm⟩ : ∃ m : ℕ, ulpExp (n : ℚ) = -(m : ℤ) :=
      ⟨(-ulpExp (n : ℚ)).toNat, by omega⟩
    rw [toDouble_of_ulpExp _ m hm]
    have : (n : ℚ) * 2 ^ m = ((n * 2 ^ m : ℤ) : ℚ) := by push_cast; ring
    rw [this, roundHalfEven_intCast]
    push_cast
    field_simp

/-- The rounded quotient of a natural number below 2^53 by a positive one lies in the same
unit interval as the exact quotient. -/
theorem toDouble_div_bounds (a b k : ℕ) (hb1 : 2 ^ k ≤ b) (hb2 : b < 2 ^ (k + 1))
    (ha : a < 2 ^ 53) (hk : k ≤ 53) :
    ((a / b : ℕ) : ℚ) ≤ toDouble ((a : ℚ) / b) ∧
      toDouble ((a : ℚ) / b) < ((a / b : ℕ) : ℚ) + 1 := by
  have hbpos : 0 < b := lt_of_lt_of_le (by positivity) hb1
  have hbq : (0 : ℚ) < b := by exact_mod_cast hbpos
  by_cases ha0 : a = 0
  · subst ha0
    simp [toDouble_zero]
  generalize hqdef : a / b = q
  have hapos : (0 : ℚ) < a := by exact_mod_cast Nat.pos_of_ne_zero ha0
  have hxpos : (0 : ℚ) < (a : ℚ) / b := div_pos hapos hbq
  -- the last place is at most 2 ^ (-k)
  have hle : ulpExp ((a : ℚ) / b) ≤ -(k : ℤ) := by
    apply ulpExp_le _ _ (ne_of_gt hxpos) _ (by omega)
    rw [abs_of_pos hxpos, div_lt_iff₀ hbq]
    have h53 : (2 : ℚ) ^ (-(k : ℤ) + 53) * 2 ^ k = 2 ^ 53 := by
      rw [← zpow_natCast, ← zpow_add₀ (by norm_num : (2 : ℚ) ≠ 0)]
      have : -(k : ℤ) + 53 + k = 53 := by ring
      rw [this]; norm_num
    have hb1q : (2 : ℚ) ^ k ≤ b := by exact_mod_cast hb1
    have haq : (a : ℚ) < 2 ^ 53 := by exact_mod_cast ha
    calc (a : ℚ) < 2 ^ 53 := haq
      _ = (2 : ℚ) ^ (-(k : ℤ) + 53) * 2 ^ k := h53.symm
      _ ≤ (2 : ℚ) ^ (-(k : ℤ) + 53) * b := by
        apply mul_le_mul_of_nonneg_left hb1q (by positivity)
  obtain ⟨m, hm, hkm⟩ : ∃ m : ℕ, ulpExp ((a : ℚ) / b) = -(m : ℤ) ∧ k ≤ m :=
    ⟨(-ulpExp ((a : ℚ) / b)).toNat, by omega, by omega⟩
  rw [toDouble_of_ulpExp _ m hm]
  have hspos : (0 : ℚ) < 2 ^ m := by positivity
  -- the exact quotient lies between q and q + 1 - 1 / b
  have hdiv : b * q + a % b = a := by rw [← hqdef]; exact Nat.div_add_mod a b
  have hmod : a % b < b := Nat.mod_lt a hbpos
  have hq1 : (q : ℚ) ≤ (a : ℚ) / b := by
    rw [le_div_iff₀ hbq]
    have : q * b ≤ a := by rw [← hqdef]; exact Nat.div_mul_le_self a b
    exact_mod_cast this
  have hq2 : (a : ℚ) / b ≤ (q : ℚ) + 1 - 1 / b := by
    rw [div_le_iff₀ hbq]
    have h1 : (a : ℚ) = b * (q : ℚ) + ((a % b : ℕ) : ℚ) := by exact_mod_cast hdiv.symm
    have h2 : ((a % b : ℕ) : ℚ) ≤ b - 1 := by
      have : a % b + 1 ≤ b := hmod
      have : ((a % b + 1 : ℕ) : ℚ) ≤ b := by exact_mod_cast this
      push_cast at this
      linarith
    have h3 : ((q : ℚ) + 1 - 1 / b) * b = b * (q : ℚ) + (b - 1) := by
      field_simp
      ring
    rw [h3, h1]
    linarith
  -- more than half a last place fits into 1 / b
  have hhalf : (1 : ℚ) / 2 < 2 ^ m / b := by
    rw [lt_div_iff₀ hbq]
    have h1 : (b : ℚ) < 2 ^ (k + 1) := by exact_mod_cast hb2
    have h2 : (2 : ℚ) ^ k ≤ 2 ^ m := pow_le_pow_right₀ (by norm_num) hkm
    have h3 : (2 : ℚ) ^ (k + 1) = 2 * 2 ^ k := by ring
    linarith
  constructor
  · rw [le_div_iff₀ hspos]
    have h := le_roundHalfEven ((a : ℚ) / b * 2 ^ m) ((q : ℤ) * 2 ^ m) (by
      push_cast
      exact mul_le_mul_of_nonneg_right hq1 (le_of_lt hspos))
    have : (((q : ℤ) * 2 ^ m : ℤ) : ℚ) ≤ (roundHalfEven ((a : ℚ) / b * 2 ^ m) : ℚ) := by
      exact_mod_cast h
    push_cast at this
    exact this
  · rw [div_lt_iff₀ hspos]
    have h := roundHalfEven_lt ((a : ℚ) / b * 2 ^ m) (((q : ℤ) + 1) * 2 ^ m) (by
      push_cast
      have h1 : (a : ℚ) / b * 2 ^ m ≤ ((q : ℚ) + 1 - 1 / b) * 2 ^ m :=
        mul_le_mul_of_nonneg_right hq2 (le_of_lt hspos)
      have h2 : ((q : ℚ) + 1 - 1 / b) * 2 ^ m =
          ((q : ℚ) + 1) * 2 ^ m - 2 ^ m / b := by ring
      linarith)
    have : (roundHalfEven ((a : ℚ) / b * 2 ^ m) : ℚ) < (((q : ℤ) + 1) * 2 ^ m : ℤ) := by
      exact_mod_cast h
    push_cast at this
    exact this

theorem floor_toDouble_div (a b k : ℕ) (hb1 : 2 ^ k ≤ b) (hb2 : b < 2 ^ (k + 1))
    (ha : a < 2 ^ 53) (hk : k ≤ 53) : ⌊toDouble ((a : ℚ) / b)⌋ = ((a / b : ℕ) : ℤ) := by
  obtain ⟨h1, h2⟩ := toDouble_div_bounds a b k hb1 hb2 ha hk
  rw [Int.floor_eq_iff]
  push_cast
  exact ⟨h1, h2⟩

theorem jsRem_natCast (a b : ℕ) : jsRem (a : ℚ) (b : ℚ) = ((a % b : ℕ) : ℚ) := by
  unfold jsRem
  have h0 : (0 : ℚ) ≤ (a : ℚ) / b := by positivity
  rw [if_pos h0]
  have hfl : ⌊(a : ℚ) / b⌋ = ((a / b : ℕ) : ℤ) := by
    have := Rat.floor_intCast_div_natCast (a : ℤ) b
    simpa using this
  rw [hfl]
  have hdiv : b * (a / b) + a % b = a := Nat.div_add_mod a b
  generalize a / b = q at hdiv ⊢
  generalize a % b = r at hdiv ⊢
  have : (a : ℚ) = b * (q : ℚ) + (r : ℚ) := by exact_mod_cast hdiv.symm
  rw [this]
  push_cast
  ring

theorem floor_jsRem_of_bounds (d : ℚ) (q c : ℕ) (hc : 0 < c) (h1 : (q : ℚ) ≤ d)
    (h2 : d < (q : ℚ) + 1) : ⌊jsRem d (c : ℚ)⌋ = ((q % c : ℕ) : ℤ) := by
  have hcq : (0 : ℚ) < c := by exact_mod_cast hc
  have hd0 : (0 : ℚ) ≤ d := le_trans (by positivity) h1
  have hfl : ⌊d / c⌋ = ((q / c : ℕ) : ℤ) := by
    rw [Int.floor_eq_iff]
    have hdiv : c * (q / c) + q % c = q := Nat.div_add_mod q c
    have hmod : q % c < c := Nat.mod_lt q hc
    have e : (q : ℚ) = c * ((q / c : ℕ) : ℚ) + ((q % c : ℕ) : ℚ) := by exact_mod_cast hdiv.symm
    have hm0 : (0 : ℚ) ≤ ((q % c : ℕ) : ℚ) := by positivity
    have hm1 : ((q % c : ℕ) : ℚ) + 1 ≤ c := by exact_mod_cast hmod
    constructor
    · rw [le_div_iff₀ hcq]
      have : (((q / c : ℕ) : ℤ) : ℚ) = ((q / c : ℕ) : ℚ) := by norm_cast
      rw [this]
      nlinarith
    · rw [div_lt_iff₀ hcq]
      have : (((q / c : ℕ) : ℤ) : ℚ) = ((q / c : ℕ) : ℚ) := by norm_cast
      rw [this]
      nlinarith
  unfold jsRem
  rw [if_pos (by positivity), hfl, Int.floor_eq_iff]
  have hdiv : c * (q / c) + q % c = q := Nat.div_add_mod q c
  have e : (q : ℚ) = c * ((q / c : ℕ) : ℚ) + ((q % c : ℕ) : ℚ) := by exact_mod_cast hdiv.symm
  have e1 : (((q / c : ℕ) : ℤ) : ℚ) = ((q / c : ℕ) : ℚ) := by norm_cast
  have e2 : (((q % c : ℕ) : ℤ) : ℚ) = ((q % c : ℕ) : ℚ) := by norm_cast
  rw [e1, e2]
  constructor <;> linarith

/-! ## Time formatting -/

/-- The rounded value of `x`, from the binade of `x` and the nearest multiple of the last
place. -/
theorem toDouble_eval (x : ℚ) (l m : ℤ) (h1 : (2 : ℚ) ^ l ≤ |x|) (h2 : |x| < (2 : ℚ) ^ (l + 1))
    (hl : -1022 ≤ l) (h3 : (m : ℚ) - 1 / 2 < x / 2 ^ (l - 52))
    (h4 : x / 2 ^ (l - 52) < (m : ℚ) + 1 / 2) : toDouble x = (m : ℚ) * 2 ^ (l - 52) := by
  unfold toDouble
  rw [ulpExp_eq x l h1 h2 hl, roundHalfEven_eq _ m h3 h4]

theorem formatTime_fields (n : ℕ) (h : n < 2 ^ 53) :
    ⌊jsDiv (jsRem ((n : ℤ) : ℚ) 1000) 10⌋ = ((n % 1000 / 10 : ℕ) : ℤ) ∧
    ⌊jsRem (jsDiv ((n : ℤ) : ℚ) 1000) 60⌋ = ((n / 1000 % 60 : ℕ) : ℤ) ∧
    ⌊jsRem (jsDiv ((n : ℤ) : ℚ) 60000) 60⌋ = ((n / 60000 % 60 : ℕ) : ℤ) ∧
    ⌊jsDiv ((n : ℤ) : ℚ) 3600000⌋ = ((n / 3600000 : ℕ) : ℤ) := by
  have e10 : (10 : ℚ) = ((10 : ℕ) : ℚ) := by norm_num
  have e60 : (60 : ℚ) = ((60 : ℕ) : ℚ) := by norm_num
  have e1000 : (1000 : ℚ) = ((1000 : ℕ) : ℚ) := by norm_num
  have e60000 : (60000 : ℚ) = ((60000 : ℕ) : ℚ) := by norm_num
  have e3600000 : (3600000 : ℚ) = ((3600000 : ℕ) : ℚ) := by norm_num
  have hmod : n % 1000 < 2 ^ 53 := lt_of_le_of_lt (Nat.mod_le n 1000) h
  rw [Int.cast_natCast]
  unfold jsDiv
  refine ⟨?_, ?_, ?_, ?_⟩
  · rw [e1000, jsRem_natCast, e10]
    exact floor_toDouble_div (n % 1000) 10 3 (by norm_num) (by norm_num) hmod (by norm_num)
  · obtain ⟨h1, h2⟩ := toDouble_div_bounds n 1000 9 (by norm_num) (by norm_num) h (by norm_num)
    rw [e1000, e60]
    exact floor_jsRem_of_bounds _ (n / 1000) 60 (by norm_num) h1 h2
  · obtain ⟨h1, h2⟩ := toDouble_div_bounds n 60000 15 (by norm_num) (by norm_num) h (by norm_num)
    rw [e60000, e60]
    exact floor_jsRem_of_bounds _ (n / 60000) 60 (by norm_num) h1 h2
  · rw [e3600000]
    exact floor_toDouble_div n 3600000 21 (by norm_num) (by norm_num) h (by norm_num)

theorem formatTime_fields_at_2_63 :
    ⌊jsDiv (jsRem ((9223372036854775808 : ℤ) : ℚ) 1000) 10⌋ = 80 ∧
    ⌊jsRem (jsDiv ((9223372036854775808 : ℤ) : ℚ) 1000) 60⌋ = 56 ∧
    ⌊jsRem (jsDiv ((9223372036854775808 : ℤ) : ℚ) 60000) 60⌋ = 12 ∧
    ⌊jsDiv ((9223372036854775808 : ℤ) : ℚ) 3600000⌋ = 2562047788015 := by
  have e10 : (10 : ℚ) = ((10 : ℕ) : ℚ) := by norm_num
  have e60 : (60 : ℚ) = ((60 : ℕ) : ℚ) := by norm_num
  have e1000 : (1000 : ℚ) = ((1000 : ℕ) : ℚ) := by norm_num
  have ebig : ((9223372036854775808 : ℤ) : ℚ) = ((9223372036854775808 : ℕ) : ℚ) := by norm_num
  have d1 : toDouble ((9223372036854775808 : ℚ) / 1000) = 9223372036854776 := by
    have := toDouble_eval ((9223372036854775808 : ℚ) / 1000) 53 4611686018427388
      (by rw [abs_of_pos (by norm_num)]; norm_num) (by rw [abs_of_pos (by norm_num)]; norm_num)
      (by norm_num) (by norm_num) (by norm_num)
    rw [this]; norm_num
  have d2 : toDouble ((9223372036854775808 : ℚ) / 60000) = 4919131752989214 / 32 := by
    have := toDouble_eval ((9223372036854775808 : ℚ) / 60000) 47 4919131752989214
      (by rw [abs_of_pos (by norm_num)]; norm_num) (by rw [abs_of_pos (by norm_num)]; norm_num)
      (by norm_num) (by norm_num) (by norm_num)
    rw [this]; norm_num
  have d3 : toDouble ((9223372036854775808 : ℚ) / 3600000) = 5247073869855161 / 2048 := by
    have := toDouble_eval ((9223372036854775808 : ℚ) / 3600000) 41 5247073869855161
      (by rw [abs_of_pos (by norm_num)]; norm_num) (by rw [abs_of_pos (by norm_num)]; norm_num)
      (by norm_num) (by norm_num) (by norm_num)
    rw [this]; norm_num
  refine ⟨?_, ?_, ?_, ?_⟩
  · rw [ebig, e1000, jsRem_natCast, e10]
    unfold jsDiv
    have := floor_toDouble_div (9223372036854775808 % 1000) 10 3 (by norm_num) (by norm_num)
      (by norm_num) (by norm_num)
    rw [this]; norm_num
  · unfold jsDiv
    have : ((9223372036854775808 : ℤ) : ℚ) = (9223372036854775808 : ℚ) := by norm_num
    rw [this, d1, e60]
    have := floor_jsRem_of_bounds 9223372036854776 9223372036854776 60 (by norm_num)
      (by norm_num) (by norm_num)
    rw [this]; norm_num
  · unfold jsDiv
    have : ((9223372036854775808 : ℤ) : ℚ) = (9223372036854775808 : ℚ) := by norm_num
    rw [this, d2, e60]
    have := floor_jsRem_of_bounds (4919131752989214 / 32) 153722867280912 60 (by norm_num)
      (by norm_num) (by norm_num)
    rw [this]; norm_num
  · unfold jsDiv
    have : ((9223372036854775808 : ℤ) : ℚ) = (9223372036854775808 : ℚ) := by norm_num
    rw [this, d3, Int.floor_eq_iff]
    constructor <;> norm_num

set_option maxRecDepth 100000 in
theorem pad2_small : ∀ n : Nat, n < 100 → pad2 (n : Int) = twoDigits n := by
  decide

theorem numberToString_natCast (n : ℕ) (h : n < 2 ^ 53) :
    numberToString (n : ℤ) = toString n := by
  unfold numberToString
  rw [if_pos (by simpa using h)]
  rfl

/-- Below 2^53 the text of `formatTime` is the one computed with exact integer division. -/
theorem formatTime_exact (n : ℕ) (h : n < 2 ^ 53) :
    formatTime (n : ℤ) =
      if 0 < n / 3600000 then
        toString (n / 3600000) ++ ":" ++ twoDigits (n / 60000 % 60) ++ ":" ++
          twoDigits (n / 1000 % 60) ++ "." ++ twoDigits (n % 1000 / 10)
      else twoDigits (n / 60000 % 60) ++ ":" ++ twoDigits (n / 1000 % 60) ++ "." ++
        twoDigits (n % 1000 / 10) := by
  obtain ⟨h1, h2, h3, h4⟩ := formatTime_fields n h
  have p1 := pad2_small (n % 1000 / 10) (by omega)
  have p2 := pad2_small (n / 1000 % 60) (by omega)
  have p3 := pad2_small (n / 60000 % 60) (by omega)
  have p4 := numberToString_natCast (n / 3600000) (by omega)
  have hh : (((n / 3600000 : ℕ) : ℤ) > 0) ↔ 0 < n / 3600000 := by
    constructor
    · intro hgt; exact_mod_cast hgt
    · intro hgt; exact_mod_cast hgt
  simp only [formatTime, h1, h2, h3, h4, p1, p2, p3, p4, hh]

/-- The text of `formatTime` at a given value below 2^53, from exact integer division. -/
theorem formatTime_eval (k : ℕ) (s : String) (hk : k < 2 ^ 53)
    (hs : (if 0 < k / 3600000 then
        toString (k / 3600000) ++ ":" ++ twoDigits (k / 60000 % 60) ++ ":" ++
          twoDigits (k / 1000 % 60) ++ "." ++ twoDigits (k % 1000 / 10)
      else twoDigits (k / 60000 % 60) ++ ":" ++ twoDigits (k / 1000 % 60) ++ "." ++
        twoDigits (k % 1000 / 10)) = s) : formatTime (k : ℤ) = s := by
  rw [formatTime_exact k hk, hs]

theorem formatTime_at_2_63 : formatTime 9223372036854775808 = "2562047788015:12:56.80" := by
  obtain ⟨h1, h2, h3, h4⟩ := formatTime_fields_at_2_63
  have p1 := pad2_small 80 (by norm_num)
  have p2 := pad2_small 56 (by norm_num)
  have p3 := pad2_small 12 (by norm_num)
  have p4 := numberToString_natCast 2562047788015 (by norm_num)
  simp only [Nat.cast_ofNat] at p1 p2 p3 p4
  simp only [formatTime, h1, h2, h3, h4, p1, p2, p3, p4]
  decide

/-- C16 (as stated, refuted): the claim is stated for every integer `t ≥ 3600000`, but at
`t = 2^63 = 9223372036854775808` the quotient `t / 1000` is the binary64 value
9223372036854776, so the seconds field is "56" where `floor(t / 1000) mod 60` is 55:
`formatTime` returns "2562047788015:12:56.80", not "2562047788015:12:55.80". -/
theorem formatTime_rounded_quotient_counterexample :
    formatTime 9223372036854775808 = "2562047788015:12:56.80" ∧
    9223372036854775808 / 1000 % 60 = 55 ∧
    toString (9223372036854775808 / 3600000) ++ ":" ++
        twoDigits (9223372036854775808 / 60000 % 60) ++ ":" ++
        twoDigits (9223372036854775808 / 1000 % 60) ++ "." ++
        twoDigits (9223372036854775808 % 1000 / 10) = "2562047788015:12:55.80" ∧
    formatTime 9223372036854775808 ≠
      toString (9223372036854775808 / 3600000) ++ ":" ++
        twoDigits (9223372036854775808 / 60000 % 60) ++ ":" ++
        twoDigits (9223372036854775808 / 1000 % 60) ++ "." ++
        twoDigits (9223372036854775808 % 1000 / 10) := by
  have h : toString (9223372036854775808 / 3600000) ++ ":" ++
        twoDigits (9223372036854775808 / 60000 % 60) ++ ":" ++
        twoDigits (9223372036854775808 / 1000 % 60) ++ "." ++
        twoDigits (9223372036854775808 % 1000 / 10) = "2562047788015:12:55.80" := by decide
  refine ⟨formatTime_at_2_63, by decide, h, ?_⟩
  rw [formatTime_at_2_63, h]
  decide

/-- C16 (amended): for an integer `t` with `0 ≤ t < 3600000`, `formatTime t` is the
8-character text `MM:SS.CC` with `MM = t / 60000`, `SS = t / 1000 mod 60` and
`CC = (t mod 1000) / 10` (rounded down), each written as exactly two decimal digits; for an
integer `t` with `3600000 ≤ t < 2^53` it is `H:MM:SS.CC` with `H = t / 3600000` in decimal
without padding and `MM = t / 60000 mod 60`. So 999 ms shows as "00:00.99", 3599999 ms as
"59:59.99", 3600000 ms as "1:00:00.00" and 2^53 - 1 ms as "2501999792:59:00.99". -/
theorem formatTime_spec (n : Nat) :
    (n < 3600000 →
      formatTime (n : Int) =
        twoDigits (n / 60000) ++ ":" ++ twoDigits (n / 1000 % 60) ++ "." ++
          twoDigits (n % 1000 / 10) ∧
      (formatTime (n : Int)).length = 8) ∧
    (3600000 ≤ n → n < 2 ^ 53 →
      formatTime (n : Int) =
        toString (n / 3600000) ++ ":" ++ twoDigits (n / 60000 % 60) ++ ":" ++
          twoDigits (n / 1000 % 60) ++ "." ++ twoDigits (n % 1000 / 10)) ∧
    formatTime 999 = "00:00.99" ∧ formatTime 3599999 = "59:59.99" ∧
    formatTime 3600000 = "1:00:00.00" ∧ formatTime 86399990 = "23:59:59.99" ∧
    formatTime 9007199254740991 = "2501999792:59:00.99" := by
  refine ⟨?_, ?_, formatTime_eval 999 _ (by norm_num) (by decide),
    formatTime_eval 3599999 _ (by norm_num) (by decide),
    formatTime_eval 3600000 _ (by norm_num) (by decide),
    formatTime_eval 86399990 _ (by norm_num) (by decide),
    formatTime_eval 9007199254740991 _ (by norm_num) (by decide)⟩
  · intro hlt
    have hh : ¬ (0 < n / 3600000) := by omega
    have hm : n / 60000 % 60 = n / 60000 := by omega
    have e : formatTime (n : Int) =
        twoDigits (n / 60000) ++ ":" ++ twoDigits (n / 1000 % 60) ++ "." ++
          twoDigits (n % 1000 / 10) := by
      rw [formatTime_exact n (by omega), if_neg hh, hm]
    refine ⟨e, ?_⟩
    rw [e]
    simp [twoDigits, String.length_append]
    rfl
  · intro hge hlt
    have hh : 0 < n / 3600000 := by omega
    rw [formatTime_exact n hlt, if_pos hh]

/-! ## Target pace -/

theorem jsSplit_cons (sep c : Char) (rest : List Char) :
    jsSplit sep (c :: rest) =
      if c = sep then [] :: jsSplit sep rest else consHead c (jsSplit sep rest) := rfl

theorem jsSplit_ne_nil (sep : Char) (l : List Char) : jsSplit sep l ≠ [] := by
  cases l with
  | nil => simp [jsSplit]
  | cons c rest =>
    rw [jsSplit_cons]
    split
    · simp
    · cases jsSplit sep rest <;> simp [consHead]

theorem jsSplit_no_sep (sep : Char) (l : List Char) (h : sep ∉ l) : jsSplit sep l = [l] := by
  induction l with
  | nil => rfl
  | cons c rest ih =>
    simp only [List.mem_cons, not_or] at h
    have hc : c ≠ sep := fun e => h.1 e.symm
    rw [jsSplit_cons, if_neg hc, ih h.2]
    rfl

theorem jsSplit_append (sep : Char) (a b : List Char) (h : sep ∉ a) :
    jsSplit sep (a ++ sep :: b) = a :: jsSplit sep b := by
  induction a with
  | nil => simp [jsSplit_cons]
  | cons c rest ih =>
    simp only [List.mem_cons, not_or] at h
    have hc : c ≠ sep := fun e => h.1 e.symm
    rw [List.cons_append, jsSplit_cons, if_neg hc, ih h.2]
    rfl

theorem jsSplit_length (sep : Char) (l : List Char) :
    (jsSplit sep l).length = l.count sep + 1 := by
  induction l with
  | nil => rfl
  | cons c rest ih =>
    rw [jsSplit_cons]
    by_cases hc : c = sep
    · subst hc; simp [ih]
    · rw [if_neg hc, List.count_cons_of_ne (fun e => hc e.symm), ← ih]
      cases h : jsSplit sep rest with
      | nil => exact absurd h (jsSplit_ne_nil sep rest)
      | cons seg segs => simp [consHead]

theorem digit_not_space (c : Char) (h : c.isDigit = true) : isJsSpace c = false := by
  simp only [Char.isDigit, Bool.and_eq_true, decide_eq_true_eq] at h
  obtain ⟨h1, h2⟩ := h
  have h1' : 48 ≤ c.val.toNat := h1
  have h2' : c.val.toNat ≤ 57 := h2
  have hne : ∀ k : UInt32, k.toNat < 48 ∨ 57 < k.toNat → decide (c.val = k) = false := by
    intro k hk
    rw [decide_eq_false_iff_not]
    intro e
    rw [e] at h1' h2'
    omega
  have hrange : decide ((0x2000 : UInt32) ≤ c.val) = false := by
    rw [decide_eq_false_iff_not]
    intro hle
    have : (0x2000 : UInt32).toNat ≤ c.val.toNat := hle
    have e : (0x2000 : UInt32).toNat = 8192 := by decide
    omega
  unfold isJsSpace
  rw [hne 0x09 (by decide), hne 0x0A (by decide), hne 0x0B (by decide), hne 0x0C (by decide),
    hne 0x0D (by decide), hne 0x20 (by decide), hne 0xA0 (by decide), hne 0x1680 (by decide),
    hne 0x2028 (by decide), hne 0x2029 (by decide), hne 0x202F (by decide),
    hne 0x205F (by decide), hne 0x3000 (by decide), hne 0xFEFF (by decide), hrange]
  rfl

theorem stripSign_cons (c : Char) (rest : List Char) (hm : c ≠ '-') (hp : c ≠ '+') :
    stripSign (c :: rest) = (1, c :: rest) := by
  unfold stripSign
  split
  · rename_i r heq
    exact absurd (List.cons.inj heq).1 hm
  · rename_i r heq
    exact absurd (List.cons.inj heq).1 hp
  · rfl

theorem ofRat_intCast (n : ℤ) (h : |n| < 2 ^ 53) :
    JsNumber.ofRat (n : ℚ) = JsNumber.finite (n : ℚ) := by
  unfold JsNumber.ofRat
  rw [toDouble_intCast n h, if_neg]
  have h1 : ((|n| : ℤ) : ℚ) < 2 ^ 53 := by exact_mod_cast h
  have h2 : (2 : ℚ) ^ 53 < 2 ^ 1024 := by norm_num
  have h3 : |(n : ℚ)| = ((|n| : ℤ) : ℚ) := by simp
  rw [h3]
  intro hge
  linarith

theorem orZero_finite (q : ℚ) : (JsNumber.finite q).orZero = JsNumber.finite q := by
  show (if q = 0 then JsNumber.finite 0 else JsNumber.finite q) = JsNumber.finite q
  split_ifs with h
  · rw [h]
  · rfl

/-- The sum of minutes and seconds is exact while it stays below 2^53. -/
theorem targetSum_exact (m s : ℤ) (h : |m| * 60000 + |s| * 1000 < 2 ^ 53) :
    ((JsNumber.finite (m : ℚ)).mul (JsNumber.finite 60000)).add
        ((JsNumber.finite (s : ℚ)).mul (JsNumber.finite 1000)) =
      JsNumber.finite ((m * 60000 + s * 1000 : ℤ) : ℚ) := by
  have hm0 : 0 ≤ |m| := abs_nonneg m
  have hs0 : 0 ≤ |s| := abs_nonneg s
  have h1 : |m * 60000| < 2 ^ 53 := by
    rw [abs_mul]; norm_num; omega
  have h2 : |s * 1000| < 2 ^ 53 := by
    rw [abs_mul]; norm_num; omega
  have h3 : |m * 60000 + s * 1000| < 2 ^ 53 := by
    have := abs_add (m * 60000) (s * 1000)
    rw [abs_mul, abs_mul] at this
    norm_num at this
    omega
  have e1 : (m : ℚ) * 60000 = ((m * 60000 : ℤ) : ℚ) := by push_cast; ring
  have e2 : (s : ℚ) * 1000 = ((s * 1000 : ℤ) : ℚ) := by push_cast; ring
  have e3 : ((m * 60000 : ℤ) : ℚ) + ((s * 1000 : ℤ) : ℚ) = ((m * 60000 + s * 1000 : ℤ) : ℚ) := by
    push_cast; ring
  simp only [JsNumber.mul, JsNumber.add]
  rw [e1, e2, ofRat_intCast _ h1, ofRat_intCast _ h2]
  simp only [JsNumber.add]
  rw [e3, ofRat_intCast _ h3]

theorem dropWhile_spaces_append (ws l : List Char) (hws : ∀ c ∈ ws, isJsSpace c = true)
    (hl : ∀ c, l.head? = some c → isJsSpace c = false) :
    (ws ++ l).dropWhile isJsSpace = l := by
  induction ws with
  | nil =>
    cases l with
    | nil => rfl
    | cons c rest => simp [List.dropWhile, hl c rfl]
  | cons w ws ih =>
    have hw := hws w (List.mem_cons_self w ws)
    rw [List.cons_append, List.dropWhile_cons, if_pos hw]
    exact ih fun c hc => hws c (List.mem_cons_of_mem w hc)

theorem takeWhile_digits_append (ds r : List Char) (hd : ∀ c ∈ ds, c.isDigit = true)
    (hr : ∀ c, r.head? = some c → c.isDigit = false) :
    (ds ++ r).takeWhile Char.isDigit = ds := by
  induction ds with
  | nil =>
    cases r with
    | nil => rfl
    | cons c rest => simp [List.takeWhile, hr c rfl]
  | cons d ds ih =>
    have h := hd d (List.mem_cons_self d ds)
    rw [List.cons_append, List.takeWhile_cons, if_pos h,
      ih fun c hc => hd c (List.mem_cons_of_mem d hc)]

theorem stripSign_of_head (l : List Char) (h : ∀ c, l.head? = some c → c ≠ '-' ∧ c ≠ '+') :
    stripSign l = (1, l) := by
  cases l with
  | nil => rfl
  | cons c rest => exact stripSign_cons c rest (h c rfl).1 (h c rfl).2

/-- What `parseInt(s, 10)` reads: after white space `ws` and a sign text `sg` (empty, "+"
or "-") the digits `ds`, up to a rest `r` that does not start with a digit. -/
theorem parseInt10_shape (ws sg ds r : List Char) (hws : ∀ c ∈ ws, isJsSpace c = true)
    (hsg : sg = [] ∨ sg = ['+'] ∨ sg = ['-']) (hd : ∀ c ∈ ds, c.isDigit = true)
    (hr : ∀ c, r.head? = some c → c.isDigit = false)
    (hbare : ds = [] → sg = [] →
      ∀ c, r.head? = some c → isJsSpace c = false ∧ c ≠ '-' ∧ c ≠ '+') :
    parseInt10 (ws ++ sg ++ ds ++ r) =
      if ds = [] then JsNumber.nan
      else JsNumber.ofRat ((signOf sg * (digitsValue ds : ℤ) : ℤ) : ℚ) := by
  have hdigit_sign : ∀ c : Char, c.isDigit = true → c ≠ '-' ∧ c ≠ '+' := by
    intro c hc
    constructor
    · intro e; rw [e] at hc; exact absurd hc (by decide)
    · intro e; rw [e] at hc; exact absurd hc (by decide)
  -- the head of the digits followed by the rest
  have hhead : ∀ c, (ds ++ r).head? = some c → sg = [] →
      isJsSpace c = false ∧ c ≠ '-' ∧ c ≠ '+' := by
    intro c hc hs
    cases ds with
    | nil => exact hbare rfl hs c (by simpa using hc)
    | cons d ds =>
      have hcd : d = c := by simpa using hc
      subst hcd
      have h := hd d (List.mem_cons_self d ds)
      exact ⟨digit_not_space d h, hdigit_sign d h⟩
  have htake := takeWhile_digits_append ds r hd hr
  have hempty : (ds.isEmpty = true) ↔ ds = [] := List.isEmpty_iff
  unfold parseInt10
  rw [List.append_assoc, List.append_assoc]
  rcases hsg with hs | hs | hs
  · subst hs
    rw [List.nil_append, dropWhile_spaces_append ws (ds ++ r) hws (fun c hc => (hhead c hc rfl).1),
      stripSign_of_head (ds ++ r) (fun c hc => (hhead c hc rfl).2)]
    simp only [htake]
    by_cases hds : ds = []
    · simp [hds]
    · simp [hds, signOf]
  · subst hs
    rw [dropWhile_spaces_append ws (['+'] ++ (ds ++ r)) hws (by
      intro c hc
      have : c = '+' := by simpa using hc.symm
      rw [this]; decide)]
    have : stripSign (['+'] ++ (ds ++ r)) = (1, ds ++ r) := rfl
    rw [this]
    simp only [htake]
    by_cases hds : ds = []
    · simp [hds]
    · simp [hds, signOf]
  · subst hs
    rw [dropWhile_spaces_append ws (['-'] ++ (ds ++ r)) hws (by
      intro c hc
      have : c = '-' := by simpa using hc.symm
      rw [this]; decide)]
    have : stripSign (['-'] ++ (ds ++ r)) = (-1, ds ++ r) := rfl
    rw [this]
    simp only [htake]
    by_cases hds : ds = []
    · simp [hds]
    · simp [hds, signOf]

theorem parseTargetToMs_two (a b : List Char) (ha : ':' ∉ a) (hb : ':' ∉ b) :
    parseTargetToMs (String.mk (a ++ ':' :: b)) =
      ((parseInt10 a).orZero.mul (JsNumber.finite 60000)).add
        ((parseInt10 b).orZero.mul (JsNumber.finite 1000)) := by
  have hsplit : jsSplit ':' (a ++ ':' :: b) = [a, b] := by
    rw [jsSplit_append ':' a b ha, jsSplit_no_sep ':' b hb]
  have hne : String.mk (a ++ ':' :: b) ≠ "" := by
    intro e
    have := congrArg String.data e
    simp at this
  unfold parseTargetToMs
  simp [hne, hsplit]

theorem digitsValue_nil : digitsValue [] = 0 := rfl

theorem abs_signOf_mul (sg : List Char) (n : ℕ) : |signOf sg * (n : ℤ)| = (n : ℤ) := by
  unfold signOf
  split_ifs
  · simp
  · simp

/-- The value a segment contributes: its signed digits, 0 when it has none. -/
theorem segment_value (ws sg ds r : List Char) (h : ReadsAs ws sg ds r)
    (hb : digitsValue ds < 2 ^ 53) :
    (parseInt10 (ws ++ sg ++ ds ++ r)).orZero =
      JsNumber.finite ((signOf sg * (digitsValue ds : ℤ) : ℤ) : ℚ) := by
  obtain ⟨hws, hsg, hd, hr, hbare⟩ := h
  rw [parseInt10_shape ws sg ds r hws hsg hd hr hbare]
  by_cases hds : ds = []
  · rw [if_pos hds, hds, digitsValue_nil]
    simp [JsNumber.orZero]
  · rw [if_neg hds, ofRat_intCast _ (by rw [abs_signOf_mul]; exact_mod_cast hb), orZero_finite]

/-- The target of a text with two segments of the shape `parseInt` reads. -/
theorem parseTargetToMs_of_shape (ws1 sg1 ds1 r1 ws2 sg2 ds2 r2 : List Char)
    (h1 : ReadsAs ws1 sg1 ds1 r1) (h2 : ReadsAs ws2 sg2 ds2 r2)
    (hc1 : ':' ∉ ws1 ++ sg1 ++ ds1 ++ r1) (hc2 : ':' ∉ ws2 ++ sg2 ++ ds2 ++ r2)
    (hb : digitsValue ds1 * 60000 + digitsValue ds2 * 1000 < 2 ^ 53) :
    parseTargetToMs (String.mk ((ws1 ++ sg1 ++ ds1 ++ r1) ++ ':' :: (ws2 ++ sg2 ++ ds2 ++ r2))) =
      JsNumber.finite ((signOf sg1 * (digitsValue ds1 : ℤ) * 60000 +
        signOf sg2 * (digitsValue ds2 : ℤ) * 1000 : ℤ) : ℚ) := by
  rw [parseTargetToMs_two _ _ hc1 hc2, segment_value ws1 sg1 ds1 r1 h1 (by omega),
    segment_value ws2 sg2 ds2 r2 h2 (by omega)]
  apply targetSum_exact
  rw [abs_signOf_mul, abs_signOf_mul]
  exact_mod_cast hb

theorem parseTargetToMs_wrong_count (str : String) (h : (jsSplit ':' str.toList).length ≠ 2) :
    parseTargetToMs str = JsNumber.finite 0 := by
  unfold parseTargetToMs
  split
  · rfl
  · simp only []
    rw [if_pos h]

theorem parseTargetToMs_examples :
    parseTargetToMs "01:30" = JsNumber.finite 90000 ∧
    parseTargetToMs "1x:30" = JsNumber.finite 90000 ∧
    parseTargetToMs ":30" = JsNumber.finite 30000 ∧
    parseTargetToMs "ab:30" = JsNumber.finite 30000 ∧
    parseTargetToMs " 1:30" = JsNumber.finite 90000 ∧
    parseTargetToMs "-1:30" = JsNumber.finite (-30000) ∧
    parseTargetToMs "+2: 7" = JsNumber.finite 127000 ∧
    parseTargetToMs "- 1:2" = JsNumber.finite 2000 := by
  have hnone : ∀ c : Char, ([] : List Char).head? = some c → c.isDigit = false := by
    intro c hc; cases hc
  have hnone2 : ∀ c : Char, ([] : List Char).head? = some c →
      isJsSpace c = false ∧ c ≠ '-' ∧ c ≠ '+' := by
    intro c hc; cases hc
  refine ⟨?_, ?_, ?_, ?_, ?_, ?_, ?_, ?_⟩
  · have := parseTargetToMs_of_shape [] [] ['0', '1'] [] [] [] ['3', '0'] []
      ⟨by simp, by simp, by decide, hnone, by simp⟩ ⟨by simp, by simp, by decide, hnone, by simp⟩
      (by decide) (by decide) (by decide)
    rw [show "01:30" = String.mk (([] ++ [] ++ ['0', '1'] ++ []) ++ ':' ::
      ([] ++ [] ++ ['3', '0'] ++ [])) by decide, this]
    have e : (signOf [] * (digitsValue ['0', '1'] : ℤ) * 60000 +
        signOf [] * (digitsValue ['3', '0'] : ℤ) * 1000 : ℤ) = (90000) := by decide
    rw [e]
    norm_num
  · have := parseTargetToMs_of_shape [] [] ['1'] ['x'] [] [] ['3', '0'] []
      ⟨by simp, by simp, by decide, by intro c hc; cases hc; decide, by simp⟩
      ⟨by simp, by simp, by decide, hnone, by simp⟩
      (by decide) (by decide) (by decide)
    rw [show "1x:30" = String.mk (([] ++ [] ++ ['1'] ++ ['x']) ++ ':' ::
      ([] ++ [] ++ ['3', '0'] ++ [])) by decide, this]
    have e : (signOf [] * (digitsValue ['1'] : ℤ) * 60000 +
        signOf [] * (digitsValue ['3', '0'] : ℤ) * 1000 : ℤ) = (90000) := by decide
    rw [e]
    norm_num
  · have := parseTargetToMs_of_shape [] [] [] [] [] [] ['3', '0'] []
      ⟨by simp, by simp, by decide, hnone, fun _ _ => hnone2⟩
      ⟨by simp, by simp, by decide, hnone, by simp⟩
      (by decide) (by decide) (by decide)
    rw [show ":30" = String.mk (([] ++ [] ++ [] ++ []) ++ ':' ::
      ([] ++ [] ++ ['3', '0'] ++ [])) by decide, this]
    have e : (signOf [] * (digitsValue [] : ℤ) * 60000 +
        signOf [] * (digitsValue ['3', '0'] : ℤ) * 1000 : ℤ) = (30000) := by decide
    rw [e]
    norm_num
  · have := parseTargetToMs_of_shape [] [] [] ['a', 'b'] [] [] ['3', '0'] []
      ⟨by simp, by simp, by decide, by intro c hc; cases hc; decide,
        by intro _ _ c hc; cases hc; decide⟩
      ⟨by simp, by simp, by decide, hnone, by simp⟩
      (by decide) (by decide) (by decide)
    rw [show "ab:30" = String.mk (([] ++ [] ++ [] ++ ['a', 'b']) ++ ':' ::
      ([] ++ [] ++ ['3', '0'] ++ [])) by decide, this]
    have e : (signOf [] * (digitsValue [] : ℤ) * 60000 +
        signOf [] * (digitsValue ['3', '0'] : ℤ) * 1000 : ℤ) = (30000) := by decide
    rw [e]
    norm_num
  · have := parseTargetToMs_of_shape [' '] [] ['1'] [] [] [] ['3', '0'] []
      ⟨by decide, by simp, by decide, hnone, by simp⟩
      ⟨by simp, by simp, by decide, hnone, by simp⟩
      (by decide) (by decide) (by decide)
    rw [show " 1:30" = String.mk (([' '] ++ [] ++ ['1'] ++ []) ++ ':' ::
      ([] ++ [] ++ ['3', '0'] ++ [])) by decide, this]
    have e : (signOf [] * (digitsValue ['1'] : ℤ) * 60000 +
        signOf [] * (digitsValue ['3', '0'] : ℤ) * 1000 : ℤ) = (90000) := by decide
    rw [e]
    norm_num
  · have := parseTargetToMs_of_shape [] ['-'] ['1'] [] [] [] ['3', '0'] []
      ⟨by simp, by simp, by decide, hnone, by simp⟩
      ⟨by simp, by simp, by decide, hnone, by simp⟩
      (by decide) (by decide) (by decide)
    rw [show "-1:30" = String.mk (([] ++ ['-'] ++ ['1'] ++ []) ++ ':' ::
      ([] ++ [] ++ ['3', '0'] ++ [])) by decide, this]
    have e : (signOf ['-'] * (digitsValue ['1'] : ℤ) * 60000 +
        signOf [] * (digitsValue ['3', '0'] : ℤ) * 1000 : ℤ) = (-30000) := by decide
    rw [e]
    norm_num
  · have := parseTargetToMs_of_shape [] ['+'] ['2'] [] [' '] [] ['7'] []
      ⟨by simp, by simp, by decide, hnone, by simp⟩
      ⟨by decide, by simp, by decide, hnone, by simp⟩
      (by decide) (by decide) (by decide)
    rw [show "+2: 7" = String.mk (([] ++ ['+'] ++ ['2'] ++ []) ++ ':' ::
      ([' '] ++ [] ++ ['7'] ++ [])) by decide, this]
    have e : (signOf ['+'] * (digitsValue ['2'] : ℤ) * 60000 +
        signOf [] * (digitsValue ['7'] : ℤ) * 1000 : ℤ) = (127000) := by decide
    rw [e]
    norm_num
  · have := parseTargetToMs_of_shape [] ['-'] [] [' ', '1'] [] [] ['2'] []
      ⟨by simp, by simp, by decide, by intro c hc; cases hc; decide, by simp⟩
      ⟨by simp, by simp, by decide, hnone, by simp⟩
      (by decide) (by decide) (by decide)
    rw [show "- 1:2" = String.mk (([] ++ ['-'] ++ [] ++ [' ', '1']) ++ ':' ::
      ([] ++ [] ++ ['2'] ++ [])) by decide, this]
    have e : (signOf ['-'] * (digitsValue [] : ℤ) * 60000 +
        signOf [] * (digitsValue ['2'] : ℤ) * 1000 : ℤ) = (2000) := by decide
    rw [e]
    norm_num

theorem ofRat_eval (x : ℚ) (l m : ℤ) (h1 : (2 : ℚ) ^ l ≤ |x|) (h2 : |x| < (2 : ℚ) ^ (l + 1))
    (hl : -1022 ≤ l) (h3 : (m : ℚ) - 1 / 2 < x / 2 ^ (l - 52))
    (h4 : x / 2 ^ (l - 52) < (m : ℚ) + 1 / 2) (hfin : |(m : ℚ) * 2 ^ (l - 52)| < 2 ^ 1024) :
    JsNumber.ofRat x = JsNumber.finite ((m : ℚ) * 2 ^ (l - 52)) := by
  unfold JsNumber.ofRat
  rw [toDouble_eval x l m h1 h2 hl h3 h4, if_neg (not_le.2 hfin)]

theorem rounded_mul : JsNumber.ofRat ((150119987579016 : ℚ) * 60000) =
    JsNumber.finite 9007199254740960256 := by
  have := ofRat_eval ((150119987579016 : ℚ) * 60000) 62 8796093022207969
    (by rw [abs_of_pos (by norm_num)]; norm_num) (by rw [abs_of_pos (by norm_num)]; norm_num)
    (by norm_num) (by norm_num) (by norm_num)
    (by rw [abs_of_pos (by norm_num)]; norm_num)
  rw [this]; norm_num

theorem rounded_add : JsNumber.ofRat ((9007199254740960256 : ℚ) + 59000) =
    JsNumber.finite 9007199254741019648 := by
  have := ofRat_eval ((9007199254740960256 : ℚ) + 59000) 62 8796093022208027
    (by rw [abs_of_pos (by norm_num)]; norm_num) (by rw [abs_of_pos (by norm_num)]; norm_num)
    (by norm_num) (by norm_num) (by norm_num)
    (by rw [abs_of_pos (by norm_num)]; norm_num)
  rw [this]; norm_num

theorem rounded_segments :
    (parseInt10 "150119987579016".toList).orZero = JsNumber.finite 150119987579016 ∧
    (parseInt10 "59".toList).orZero = JsNumber.finite 59 := by
  have hnone : ∀ c : Char, ([] : List Char).head? = some c → c.isDigit = false := by
    intro c hc; cases hc
  have h1 := segment_value [] [] "150119987579016".toList []
    ⟨by simp, by simp, by decide, hnone, by simp⟩ (by decide)
  have h2 := segment_value [] [] "59".toList []
    ⟨by simp, by simp, by decide, hnone, by simp⟩ (by decide)
  have e1 : (signOf [] * (digitsValue "150119987579016".toList : ℤ) : ℤ) = 150119987579016 := by
    decide
  have e2 : (signOf [] * (digitsValue "59".toList : ℤ) : ℤ) = 59 := by decide
  rw [e1] at h1
  rw [e2] at h2
  simp only [List.nil_append, List.append_nil] at h1 h2
  constructor
  · rw [h1]; norm_num
  · rw [h2]; norm_num

theorem rounded_mul2 : JsNumber.ofRat ((59 : ℚ) * 1000) = JsNumber.finite 59000 := by
  have := ofRat_intCast 59000 (by norm_num)
  norm_num at this ⊢
  exact this

theorem parseTargetToMs_rounded :
    parseTargetToMs "150119987579016:59" = JsNumber.finite 9007199254741019648 := by
  have hs : "150119987579016:59" = String.mk ("150119987579016".toList ++ ':' :: "59".toList) := by
    decide
  rw [hs, parseTargetToMs_two _ _ (by decide) (by decide), rounded_segments.1,
    rounded_segments.2]
  show JsNumber.add (JsNumber.ofRat ((150119987579016 : ℚ) * 60000))
    (JsNumber.ofRat ((59 : ℚ) * 1000)) = _
  rw [rounded_mul, rounded_mul2]
  exact rounded_add

/-- C19 (as stated, refuted): the segment "1x" is not a valid number, yet it contributes
60000 and not 0: "1x:30" gives 90000 where ":30" gives 30000. And for two segments of
decimal digits the result is not always `MM * 60000 + SS * 1000`: "150119987579016:59"
gives 9007199254741019648, the binary64 value next to 9007199254741019000. -/
theorem parseTargetToMs_prefix_counterexample :
    parseTargetToMs "1x:30" = JsNumber.finite 90000 ∧
    parseTargetToMs ":30" = JsNumber.finite 30000 ∧
    parseTargetToMs "150119987579016:59" = JsNumber.finite 9007199254741019648 ∧
    150119987579016 * 60000 + 59 * 1000 = 9007199254741019000 ∧
    parseTargetToMs "150119987579016:59" ≠
      JsNumber.finite ((150119987579016 * 60000 + 59 * 1000 : ℕ) : ℚ) := by
  refine ⟨parseTargetToMs_examples.2.1, parseTargetToMs_examples.2.2.1,
    parseTargetToMs_rounded, by decide, ?_⟩
  rw [parseTargetToMs_rounded]
  intro h
  have := JsNumber.finite.inj h
  norm_num at this

/-- C19 (amended): for a text `MM:SS` whose two segments are decimal digit strings with
`MM * 60000 + SS * 1000 < 2^53`, `parseTargetToMs` returns `MM * 60000 + SS * 1000` ("01:30"
gives 90000). In a text with exactly two colon-separated segments each segment contributes
the integer `parseInt` reads at its start: leading white space is skipped, an optional sign
`+` or `-` is applied, then comes the longest run of decimal digits, whatever follows it
("1x" counts as 1, " 1" as 1, "-1" as -1); the segment contributes 0 when no digit stands
there (empty, "ab", "- 1"). With the signed values `m` and `s` of the two segments and
`|m| * 60000 + |s| * 1000 < 2^53` the result is `m * 60000 + s * 1000`; in general it is
the binary64 sum of the two binary64 products. Every text that does not consist of exactly
two colon-separated segments, that is, does not hold exactly one colon, gives 0, and so
does the empty text. -/
theorem parseTargetToMs_spec :
    (∀ mm ss : List Char, (∀ c ∈ mm, c.isDigit = true) → (∀ c ∈ ss, c.isDigit = true) →
      digitsValue mm * 60000 + digitsValue ss * 1000 < 2 ^ 53 →
      parseTargetToMs (String.mk (mm ++ ':' :: ss)) =
        JsNumber.finite ((digitsValue mm * 60000 + digitsValue ss * 1000 : ℕ) : ℚ)) ∧
    (∀ ws1 sg1 ds1 r1 ws2 sg2 ds2 r2 : List Char,
      ReadsAs ws1 sg1 ds1 r1 → ReadsAs ws2 sg2 ds2 r2 →
      ':' ∉ ws1 ++ sg1 ++ ds1 ++ r1 → ':' ∉ ws2 ++ sg2 ++ ds2 ++ r2 →
      digitsValue ds1 * 60000 + digitsValue ds2 * 1000 < 2 ^ 53 →
      parseTargetToMs
          (String.mk ((ws1 ++ sg1 ++ ds1 ++ r1) ++ ':' :: (ws2 ++ sg2 ++ ds2 ++ r2))) =
        JsNumber.finite ((signOf sg1 * (digitsValue ds1 : ℤ) * 60000 +
          signOf sg2 * (digitsValue ds2 : ℤ) * 1000 : ℤ) : ℚ)) ∧
    (∀ ws sg ds r : List Char, ReadsAs ws sg ds r →
      parseInt10 (ws ++ sg ++ ds ++ r) =
        if ds = [] then JsNumber.nan
        else JsNumber.ofRat ((signOf sg * (digitsValue ds : ℤ) : ℤ) : ℚ)) ∧
    (∀ n : ℤ, |n| < 2 ^ 53 → JsNumber.ofRat (n : ℚ) = JsNumber.finite (n : ℚ)) ∧
    JsNumber.nan.orZero = JsNumber.finite 0 ∧
    (∀ q : ℚ, (JsNumber.finite q).orZero = JsNumber.finite q) ∧
    (∀ a b : List Char, ':' ∉ a → ':' ∉ b →
      parseTargetToMs (String.mk (a ++ ':' :: b)) =
        ((parseInt10 a).orZero.mul (JsNumber.finite 60000)).add
          ((parseInt10 b).orZero.mul (JsNumber.finite 1000))) ∧
    (∀ m s : ℤ, |m| * 60000 + |s| * 1000 < 2 ^ 53 →
      ((JsNumber.finite (m : ℚ)).mul (JsNumber.finite 60000)).add
          ((JsNumber.finite (s : ℚ)).mul (JsNumber.finite 1000)) =
        JsNumber.finite ((m * 60000 + s * 1000 : ℤ) : ℚ)) ∧
    (∀ str : String, (jsSplit ':' str.toList).length = str.toList.count ':' + 1) ∧
    (∀ str : String, (jsSplit ':' str.toList).length ≠ 2 →
      parseTargetToMs str = JsNumber.finite 0) ∧
    parseTargetToMs "" = JsNumber.finite 0 ∧
    parseTargetToMs "90" = JsNumber.finite 0 ∧ parseTargetToMs "1:2:3" = JsNumber.finite 0 ∧
    parseTargetToMs "01:30" = JsNumber.finite 90000 ∧
    parseTargetToMs "1x:30" = JsNumber.finite 90000 ∧
    parseTargetToMs ":30" = JsNumber.finite 30000 ∧
    parseTargetToMs "ab:30" = JsNumber.finite 30000 ∧
    parseTargetToMs " 1:30" = JsNumber.finite 90000 ∧
    parseTargetToMs "-1:30" = JsNumber.finite (-30000) ∧
    parseTargetToMs "+2: 7" = JsNumber.finite 127000 ∧
    parseTargetToMs "- 1:2" = JsNumber.finite 2000 := by
  have hcolon : ∀ l : List Char, (∀ c ∈ l, c.isDigit = true) → ':' ∉ l := by
    intro l hl hmem
    exact absurd (hl ':' hmem) (by decide)
  have hnone : ∀ c : Char, ([] : List Char).head? = some c → c.isDigit = false := by
    intro c hc; cases hc
  refine ⟨?_, parseTargetToMs_of_shape, ?_, ofRat_intCast, rfl, orZero_finite,
    parseTargetToMs_two, targetSum_exact, fun str => jsSplit_length ':' str.toList,
    parseTargetToMs_wrong_count, parseTargetToMs_wrong_count "" (by decide),
    parseTargetToMs_wrong_count "90" (by decide),
    parseTargetToMs_wrong_count "1:2:3" (by decide), parseTargetToMs_examples⟩
  · intro mm ss hm hs hb
    have := parseTargetToMs_of_shape [] [] mm [] [] [] ss []
      ⟨by simp, by simp, hm, hnone, by simp⟩ ⟨by simp, by simp, hs, hnone, by simp⟩
      (by simpa using hcolon mm hm) (by simpa using hcolon ss hs) hb
    simp only [List.nil_append, List.append_nil] at this
    rw [this]
    simp [signOf]
  · intro ws sg ds r h
    obtain ⟨hws, hsg, hd, hr, hbare⟩ := h
    exact parseInt10_shape ws sg ds r hws hsg hd hr hbare

/-! ## Chart data -/

theorem objGet_cons (k : String) (x : JsValue) (rest : JsObject) (key : String) :
    objGet ((k, x) :: rest) key = if k = key then some x else objGet rest key := rfl

theorem objReplace_cons (key : String) (v : JsValue) (k : String) (x : JsValue)
    (rest : JsObject) :
    objReplace key v ((k, x) :: rest) =
      if k = key then (key, v) :: objReplace key v rest
      else (k, x) :: objReplace key v rest := rfl

theorem objGet_replace (o : JsObject) (key : String) (v : JsValue) (k2 : String) :
    objGet (objReplace key v o) k2 =
      if k2 = key then (objGet o key).map (fun _ => v) else objGet o k2 := by
  induction o with
  | nil => simp [objGet, objReplace]
  | cons p rest ih =>
    obtain ⟨k, x⟩ := p
    by_cases hk : k = key <;> by_cases h2 : k2 = key
    · subst hk; subst h2
      simp [objReplace_cons, objGet_cons]
    · subst hk
      have h3 : ¬ k = k2 := fun e => h2 e.symm
      simp [objReplace_cons, objGet_cons, ih, h2, h3]
    · subst h2
      simp [objReplace_cons, objGet_cons, ih, hk]
    · simp [objReplace_cons, objGet_cons, ih, hk, h2]

theorem objGet_append (o : JsObject) (key : String) (v : JsValue) (k2 : String) :
    objGet (o ++ [(key, v)]) k2 =
      match objGet o k2 with
      | some x => some x
      | none => if key = k2 then some v else none := by
  induction o with
  | nil => simp [objGet]
  | cons p rest ih =>
    obtain ⟨k, x⟩ := p
    simp only [List.cons_append, objGet]
    split
    · rfl
    · exact ih

theorem objGet_objSet (o : JsObject) (key : String) (v : JsValue) (k2 : String)
    (hp : key ≠ "__proto__") :
    objGet (objSet o key v) k2 = if k2 = key then some v else objGet o k2 := by
  unfold objSet
  rw [if_neg hp]
  split
  · rename_i hs
    rw [objGet_replace]
    split
    · obtain ⟨x, hx⟩ := Option.isSome_iff_exists.1 hs
      simp [hx]
    · rfl
  · rename_i hs
    rw [objGet_append]
    by_cases h2 : k2 = key
    · subst h2
      have : objGet o k2 = none := by simpa using hs
      simp [this]
    · have h3 : ¬ key = k2 := fun e => h2 e.symm
      simp only [if_neg h2, if_neg h3]
      cases objGet o k2 <;> rfl

theorem objGet_objSet_other (o : JsObject) (key : String) (v : JsValue) (k2 : String)
    (h : key ≠ k2) : objGet (objSet o key v) k2 = objGet o k2 := by
  by_cases hp : key = "__proto__"
  · simp [objSet, hp]
  · rw [objGet_objSet o key v k2 hp, if_neg (fun e => h e.symm)]

theorem chartStep_other (f : String) (i : Nat) (point : JsObject) (r : Runner) (key : String)
    (h : r.name ≠ key) : objGet (chartStep f i point r) key = objGet point key := by
  unfold chartStep
  split
  · rfl
  · split
    · exact objGet_objSet_other _ _ _ _ h
    · rfl

theorem chartFold_other (f : String) (i : Nat) (key : String) (l : List Runner) :
    ∀ acc : JsObject, (∀ r ∈ l, r.name ≠ key) →
      objGet (l.foldl (chartStep f i) acc) key = objGet acc key := by
  induction l with
  | nil => intro _ _; rfl
  | cons r rest ih =>
    intro acc h
    rw [List.foldl_cons, ih _ (fun x hx => h x (List.mem_cons_of_mem r hx)),
      chartStep_other f i acc r key (h r (List.mem_cons_self r rest))]

theorem chartFold_source (f : String) (i : Nat) (key : String) (v : JsValue)
    (l : List Runner) : ∀ acc : JsObject,
      objGet (l.foldl (chartStep f i) acc) key = some v →
        (∃ x, objGet acc key = some x) ∨
        ∃ r ∈ l, r.name = key ∧ ∃ s ∈ r.splits, s.index = (i : Int) := by
  induction l with
  | nil => intro acc h; exact Or.inl ⟨v, h⟩
  | cons r rest ih =>
    intro acc h
    rw [List.foldl_cons] at h
    rcases ih _ h with ⟨x, hx⟩ | ⟨r2, hr2, hn, hs⟩
    · by_cases hk : r.name = key
      · by_cases hfind : (r.splits.find? fun s => s.index = (i : Int)) = none
        · left
          refine ⟨x, ?_⟩
          have : chartStep f i acc r = acc := by
            unfold chartStep
            split
            · rfl
            · rw [hfind]
          rw [this] at hx
          exact hx
        · right
          obtain ⟨s, hs⟩ := Option.ne_none_iff_exists'.1 hfind
          exact ⟨r, List.mem_cons_self r rest, hk, s, List.mem_of_find?_eq_some hs,
            by simpa using List.find?_some hs⟩
      · left
        exact ⟨x, by rw [← chartStep_other f i acc r key hk]; exact hx⟩
    · exact Or.inr ⟨r2, List.mem_cons_of_mem r hr2, hn, hs⟩


theorem objGet_none_iff (o : JsObject) (key : String) :
    objGet o key = none ↔ key ∉ o.map Prod.fst := by
  induction o with
  | nil => simp [objGet]
  | cons p rest ih =>
    obtain ⟨k, x⟩ := p
    rw [objGet_cons]
    by_cases hk : k = key
    · simp [hk]
    · have h3 : ¬ key = k := fun e => hk e.symm
      simp [hk, h3, ih]

theorem objReplace_keys (key : String) (v : JsValue) (o : JsObject) :
    (objReplace key v o).map Prod.fst = o.map Prod.fst := by
  induction o with
  | nil => rfl
  | cons p rest ih =>
    obtain ⟨k, x⟩ := p
    rw [objReplace_cons]
    by_cases hk : k = key
    · simp [hk, ih]
    · simp [hk, ih]

theorem objSet_nodup (o : JsObject) (key : String) (v : JsValue)
    (h : (o.map Prod.fst).Nodup) : ((objSet o key v).map Prod.fst).Nodup := by
  unfold objSet
  split
  · exact h
  · split
    · rw [objReplace_keys]; exact h
    · rename_i hs
      have hn : objGet o key = none := by simpa using hs
      rw [List.map_append, List.nodup_append]
      refine ⟨h, by simp, ?_⟩
      intro x hx hx2
      simp only [List.map_cons, List.map_nil, List.mem_singleton] at hx2
      subst hx2
      exact (objGet_none_iff o _).1 hn hx

theorem chartPoint_nodup (f : String) (rs : List Runner) (i : Nat) :
    ((chartPoint f rs i).map Prod.fst).Nodup := by
  unfold chartPoint
  have : ∀ (l : List Runner) (acc : JsObject), (acc.map Prod.fst).Nodup →
      ((l.foldl (chartStep f i) acc).map Prod.fst).Nodup := by
    intro l
    induction l with
    | nil => intro acc h; exact h
    | cons r rest ih =>
      intro acc h
      rw [List.foldl_cons]
      apply ih
      unfold chartStep
      split
      · exact h
      · split
        · exact objSet_nodup _ _ _ h
        · exact h
  exact this rs _ (by simp)

theorem chartStep_all (i : Nat) (point : JsObject) (r : Runner) :
    chartStep "all" i point r =
      match r.splits.find? fun s => s.index = (i : Int) with
      | some split => objSet point r.name (JsValue.num split.lap)
      | none => point := by
  unfold chartStep
  rw [if_neg (fun h => h.1 rfl)]

theorem chartPoint_entry (rs : List Runner) (hnames : (rs.map fun r => r.name).Nodup)
    (i : Nat) (r : Runner) (hr : r ∈ rs) (hl : r.name ≠ "lapName")
    (hp : r.name ≠ "__proto__") :
    objGet (chartPoint "all" rs i) r.name =
      (r.splits.find? fun s => s.index = (i : Int)).map fun s => JsValue.num s.lap := by
  obtain ⟨pre, post, hsplit⟩ := List.append_of_mem hr
  subst hsplit
  rw [List.map_append, List.map_cons, List.nodup_append] at hnames
  obtain ⟨_, hpost, hdisj⟩ := hnames
  have hpre : ∀ x ∈ pre, x.name ≠ r.name := by
    intro x hx e
    exact hdisj (List.mem_map_of_mem (fun r => r.name) hx) (e ▸ List.mem_cons_self _ _)
  have hpost2 : ∀ x ∈ post, x.name ≠ r.name := by
    intro x hx e
    exact (List.nodup_cons.1 hpost).1 (e ▸ List.mem_map_of_mem (fun r => r.name) hx)
  unfold chartPoint
  rw [List.foldl_append, List.foldl_cons, chartFold_other "all" i r.name post _ hpost2,
    chartStep_all]
  cases hfind : (r.splits.find? fun s => s.index = (i : Int)) with
  | some s =>
    simp only [Option.map_some']
    rw [objGet_objSet _ _ _ _ hp, if_pos rfl]
  | none =>
    simp only [Option.map_none']
    rw [chartFold_other "all" i r.name pre _ hpre, objGet_cons,
      if_neg (fun e => hl e.symm)]
    rfl

theorem maxLaps_ge (rs : List Runner) : ∀ r ∈ rs, r.splits.length ≤ maxLaps rs := by
  intro r hr
  exact (foldl_max_ge _ 0).2 _ (List.mem_map_of_mem (fun r => r.splits.length) hr)

theorem maxLaps_attained (rs : List Runner) :
    maxLaps rs = 0 ∨ ∃ r ∈ rs, r.splits.length = maxLaps rs := by
  rcases foldl_max_mem (rs.map fun r => r.splits.length) 0 with h | h
  · exact Or.inl h
  · obtain ⟨r, hr, e⟩ := List.mem_map.1 h
    exact Or.inr ⟨r, hr, e⟩

theorem chartStep_no_split (f : String) (i : Nat) (point : JsObject) (r : Runner)
    (h : ∀ s ∈ r.splits, s.index ≠ (i : Int)) : chartStep f i point r = point := by
  have hfind : (r.splits.find? fun s => s.index = (i : Int)) = none := by
    rw [List.find?_eq_none]
    intro s hs
    simpa using h s hs
  unfold chartStep
  split
  · rfl
  · rw [hfind]

theorem chartFold_keep (f : String) (i : Nat) (key : String) (l : List Runner) :
    ∀ acc : JsObject, (∀ r ∈ l, r.name = key → ∀ s ∈ r.splits, s.index ≠ (i : Int)) →
      objGet (l.foldl (chartStep f i) acc) key = objGet acc key := by
  induction l with
  | nil => intro _ _; rfl
  | cons r rest ih =>
    intro acc h
    rw [List.foldl_cons, ih _ (fun x hx => h x (List.mem_cons_of_mem r hx))]
    by_cases hk : r.name = key
    · rw [chartStep_no_split f i acc r (h r (List.mem_cons_self r rest) hk)]
    · exact chartStep_other f i acc r key hk

theorem chartStep_proto (f : String) (i : Nat) (point : JsObject) (r : Runner) :
    objGet (chartStep f i point r) "__proto__" = objGet point "__proto__" := by
  by_cases hk : r.name = "__proto__"
  · unfold chartStep
    split
    · rfl
    · split
      · simp [objSet, hk]
      · rfl
  · exact chartStep_other f i point r "__proto__" hk

theorem chartPoint_proto (f : String) (i : Nat) (l : List Runner) :
    ∀ acc : JsObject, objGet (l.foldl (chartStep f i) acc) "__proto__" =
      objGet acc "__proto__" := by
  induction l with
  | nil => intro _; rfl
  | cons r rest ih =>
    intro acc
    rw [List.foldl_cons, ih, chartStep_proto]

/-- The entry under a name is written by the last runner of that name with a split of the
lap index. -/
theorem chartPoint_last (i : Nat) (pre post : List Runner) (r : Runner) (s : Split)
    (hfind : (r.splits.find? fun s => s.index = (i : Int)) = some s)
    (hpost : ∀ x ∈ post, x.name = r.name → ∀ s ∈ x.splits, s.index ≠ (i : Int))
    (hp : r.name ≠ "__proto__") :
    objGet (chartPoint "all" (pre ++ r :: post) i) r.name = some (JsValue.num s.lap) := by
  unfold chartPoint
  rw [List.foldl_append, List.foldl_cons, chartFold_keep "all" i r.name post _ hpost,
    chartStep_all, hfind]
  simp only []
  rw [objGet_objSet _ _ _ _ hp, if_pos rfl]

theorem chartPoint_absent (i : Nat) (key : String) (rs : List Runner)
    (h : ∀ r ∈ rs, r.name = key → ∀ s ∈ r.splits, s.index ≠ (i : Int)) :
    objGet (chartPoint "all" rs i) key =
      if key = "lapName" then some (JsValue.str ("Lap " ++ toString i)) else none := by
  unfold chartPoint
  rw [chartFold_keep "all" i key rs _ h, objGet_cons]
  by_cases hk : key = "lapName"
  · rw [if_pos hk, if_pos hk.symm]
  · rw [if_neg hk, if_neg (fun e => hk e.symm)]
    rfl

/-- C17 (as stated, refuted): two runners named "Budi" each have a split with index 1, yet
the point for lap 1 holds a single entry "Budi", with the lap of the second runner. -/
theorem chartData_names_collide_counterexample :
    chartData "all" sameNameStore =
      [[("lapName", JsValue.str "Lap 1"), ("Budi", JsValue.num 15000)]] := by
  decide

/-- C17 (amended): with no runner filter, `chartData` has one point for each lap index from
1 to the greatest log length, in increasing order, labelled "Lap i". A point is keyed by
runner name, so runners that share a name share one entry: whatever the names in the store,
the point for index `i` holds under a runner name other than "__proto__" the `lap` of the
(first) split with `index = i` of the last runner in store order that has this name and
such a split; under a name of which no runner has such a split it holds no entry (the label
stays under "lapName"); it holds nothing under "__proto__", no entry besides the label and
those of runners with such a split, and its keys are pairwise distinct. When the runner
names are pairwise distinct and none is "lapName" or "__proto__", the point for index `i`
thus holds under each runner's name the `lap` of that runner's split with `index = i`, and
no entry for a runner without such a split. -/
theorem chartData_points (rs : List Runner) :
    (chartData "all" rs).length = maxLaps rs ∧
    (∀ r ∈ rs, r.splits.length ≤ maxLaps rs) ∧
    (maxLaps rs = 0 ∨ ∃ r ∈ rs, r.splits.length = maxLaps rs) ∧
    (∀ k : Nat, k < maxLaps rs →
      (chartData "all" rs)[k]? = some (chartPoint "all" rs (k + 1))) ∧
    (∀ (i : Nat) (pre post : List Runner) (r : Runner) (s : Split), rs = pre ++ r :: post →
      (r.splits.find? fun s => s.index = (i : Int)) = some s →
      (∀ x ∈ post, x.name = r.name → ∀ s ∈ x.splits, s.index ≠ (i : Int)) →
      r.name ≠ "__proto__" →
        objGet (chartPoint "all" rs i) r.name = some (JsValue.num s.lap)) ∧
    (∀ (i : Nat) (key : String),
      (∀ r ∈ rs, r.name = key → ∀ s ∈ r.splits, s.index ≠ (i : Int)) →
        objGet (chartPoint "all" rs i) key =
          if key = "lapName" then some (JsValue.str ("Lap " ++ toString i)) else none) ∧
    (∀ i : Nat, objGet (chartPoint "all" rs i) "__proto__" = none) ∧
    (∀ (i : Nat) (key : String) (v : JsValue), objGet (chartPoint "all" rs i) key = some v →
      key = "lapName" ∨ ∃ r ∈ rs, r.name = key ∧ ∃ s ∈ r.splits, s.index = (i : Int)) ∧
    (∀ i : Nat, ((chartPoint "all" rs i).map Prod.fst).Nodup) ∧
    ((rs.map fun r => r.name).Nodup → (∀ r ∈ rs, r.name ≠ "lapName" ∧ r.name ≠ "__proto__") →
      (∀ i : Nat,
        objGet (chartPoint "all" rs i) "lapName" = some (JsValue.str ("Lap " ++ toString i))) ∧
      (∀ (i : Nat), ∀ r ∈ rs, ∀ s : Split,
        (r.splits.find? fun s => s.index = (i : Int)) = some s →
          objGet (chartPoint "all" rs i) r.name = some (JsValue.num s.lap)) ∧
      (∀ (i : Nat), ∀ r ∈ rs, (∀ s ∈ r.splits, s.index ≠ (i : Int)) →
        objGet (chartPoint "all" rs i) r.name = none)) ∧
    objGet (chartPoint "all" sameNameStore 1) "Budi" = some (JsValue.num 15000) := by
  refine ⟨by simp [chartData], maxLaps_ge rs, maxLaps_attained rs, ?_, ?_,
    fun i key h => chartPoint_absent i key rs h, ?_, ?_, fun i => chartPoint_nodup "all" rs i,
    ?_, by decide⟩
  · intro k hk
    simp [chartData, List.getElem?_map, List.getElem?_range hk]
  · intro i pre post r s hrs hfind hpost hp
    rw [hrs]
    exact chartPoint_last i pre post r s hfind hpost hp
  · intro i
    unfold chartPoint
    rw [chartPoint_proto]
    rfl
  · intro i key v h
    rcases chartFold_source "all" i key v rs _ h with ⟨x, hx⟩ | h2
    · left
      rw [objGet_cons] at hx
      by_contra hne
      rw [if_neg (fun e => hne e.symm)] at hx
      simp [objGet] at hx
    · exact Or.inr h2
  · intro hnames hres
    refine ⟨?_, ?_, ?_⟩
    · intro i
      unfold chartPoint
      rw [chartFold_other "all" i "lapName" rs _ (fun r hr => (hres r hr).1)]
      simp [objGet]
    · intro i r hr s hs
      rw [chartPoint_entry rs hnames i r hr (hres r hr).1 (hres r hr).2, hs]
      rfl
    · intro i r hr hno
      rw [chartPoint_entry rs hnames i r hr (hres r hr).1 (hres r hr).2]
      have : (r.splits.find? fun s => s.index = (i : Int)) = none := by
        rw [List.find?_eq_none]
        intro s hs
        simpa using hno s hs
      rw [this]
      rfl

/-- C17 (amended), on two stores: with runner A (two splits) and runner B (one) the point
for lap 2 holds A's second lap and no entry for B; with two runners named "Budi" the point
for lap 1 holds under "Budi" the lap of the second of them. -/
theorem chartData_points_witness :
    objGet (chartPoint "all" chartStore 2) "A" = some (JsValue.num 8000) ∧
    objGet (chartPoint "all" chartStore 2) "B" = none ∧
    objGet (chartPoint "all" sameNameStore 1) "Budi" = some (JsValue.num 15000) :=
  ⟨((chartData_points chartStore).2.2.2.2.2.2.2.2.2.1 (by decide) (by decide)).2.1 2
      { id := 1, name := "A", finished := false, finalTime := none,
        splits := [{ index := 1, total := 12000, lap := 12000, isFinish := false, id := 7 },
                   { index := 2, total := 20000, lap := 8000, isFinish := false, id := 8 }] }
      (by decide) { index := 2, total := 20000, lap := 8000, isFinish := false, id := 8 }
      (by decide),
   ((chartData_points chartStore).2.2.2.2.2.2.2.2.2.1 (by decide) (by decide)).2.2 2
      { id := 2, name := "B", finished := false, finalTime := none,
        splits := [{ index := 1, total := 15000, lap := 15000, isFinish := false, id := 9 }] }
      (by decide) (by decide),
   (chartData_points sameNameStore).2.2.2.2.1 1
      [{ id := 1, name := "Budi", finished := false, finalTime := none,
         splits := [{ index := 1, total := 12000, lap := 12000, isFinish := false,
                      id := 7 }] }]
      []
      { id := 2, name := "Budi", finished := false, finalTime := none,
        splits := [{ index := 1, total := 15000, lap := 15000, isFinish := false, id := 8 }] }
      { index := 1, total := 15000, lap := 15000, isFinish := false, id := 8 }
      rfl (by decide) (by simp) (by decide)⟩

/-! ## Export -/

theorem toDigitsCore_no_dash (fuel : Nat) : ∀ (n : Nat) (ds : List Char),
    (∀ c ∈ ds, c ≠ '-') → ∀ c ∈ Nat.toDigitsCore 10 fuel n ds, c ≠ '-' := by
  induction fuel with
  | zero => intro n ds h c hc; simp [Nat.toDigitsCore] at hc; exact h c hc
  | succ fuel ih =>
    intro n ds h c hc
    have hd : Nat.digitChar (n % 10) ≠ '-' := by
      have hlt : n % 10 < 10 := Nat.mod_lt _ (by decide)
      interval_cases (n % 10) <;> decide
    have hds : ∀ x ∈ Nat.digitChar (n % 10) :: ds, x ≠ '-' := by
      intro x hx
      rcases List.mem_cons.1 hx with e | e
      · rw [e]; exact hd
      · exact h x e
    simp only [Nat.toDigitsCore] at hc
    split at hc
    · exact hds c hc
    · exact ih _ _ hds c hc

theorem toString_nat_ne_dash (n : Nat) : toString n ≠ "-" := by
  intro e
  have h : (Nat.toDigits 10 n) = ['-'] := congrArg String.data e
  have := toDigitsCore_no_dash (n + 1) n [] (by simp) '-' (by
    have : Nat.toDigits 10 n = Nat.toDigitsCore 10 (n + 1) n [] := rfl
    rw [← this, h]; simp)
  exact this rfl

theorem getRank_eq (rs : List Runner) (id : Int) :
    getRank rs id = match rankOf rs id with
      | none => "-"
      | some n => toString n := by
  rw [rankOf_eq]
  unfold getRank
  cases findIndex (fun r => decide (r.id = id)) (finishedRunners rs) <;> rfl

theorem getRank_dash_iff (rs : List Runner) (id : Int) :
    getRank rs id = "-" ↔ rankOf rs id = none := by
  rw [getRank_eq]
  cases rankOf rs id with
  | none => simp
  | some n => simp [toString_nat_ne_dash]

theorem csvRows_eq (rs : List Runner) : ∀ l : List Runner,
    (l.flatMap fun r => r.splits.map fun s =>
      [getRank rs r.id, "\"" ++ r.name ++ "\"", toString s.index, formatTime s.lap,
       formatTime s.total, if s.isFinish then "Finish" else "Split"]).map
        (String.intercalate ",") =
      (ownedSplits l).map fun p => rowText (getRank rs p.1.id) p.1 p.2 := by
  intro l
  induction l with
  | nil => rfl
  | cons r rest ih =>
    simp only [List.flatMap_cons, List.map_append, ownedSplits, ih, List.map_map]
    congr 1
    apply List.map_congr_left
    intro s _
    simp only [Function.comp, String.intercalate, String.intercalate.go, rowText,
      String.append_assoc]


theorem ownedSplits_length (rs : List Runner) :
    (ownedSplits rs).length = (rs.map fun r => r.splits.length).sum := by
  induction rs with
  | nil => rfl
  | cons r rest ih => simp [ownedSplits, ih]

theorem csvContent_eq (rs : List Runner) :
    csvContent rs =
      String.intercalate "\n"
        ("Peringkat,Nama Pelari,Lap #,Waktu Lap,Waktu Total,Status" ::
          (ownedSplits rs).map fun p => rowText (getRank rs p.1.id) p.1 p.2) := by
  unfold csvContent csvRows
  rw [csvRows_eq rs rs]
  rfl

theorem getRank_dash_iff_unranked (rs : List Runner) (id : Int) :
    getRank rs id = "-" ↔ ∀ r ∈ rs, r.id = id → isRanked r = false := by
  rw [getRank_dash_iff, rankOf_eq]
  constructor
  · intro h r hr hid
    have hnone : findIndex (fun r => decide (r.id = id)) (finishedRunners rs) = none := by
      cases hf : findIndex (fun r => decide (r.id = id)) (finishedRunners rs) with
      | none => rfl
      | some k => rw [hf] at h; simp at h
    by_contra hk
    have hk2 : isRanked r = true := by simpa using hk
    have := findIndex_none _ _ hnone r ((mem_finishedRunners rs r).2 ⟨hr, hk2⟩)
    simp [hid] at this
  · intro h
    cases hf : findIndex (fun r => decide (r.id = id)) (finishedRunners rs) with
    | none => rfl
    | some k =>
      obtain ⟨r, hr, hp⟩ := findIndex_some _ _ k hf
      have hmem := (mem_finishedRunners rs r).1 (List.mem_iff_getElem?.2 ⟨k, hr⟩)
      have := h r hmem.1 (by simpa using hp)
      rw [hmem.2] at this
      exact absurd this (by decide)

/-- C18 (as stated, refuted): in the store left by an import that raced with `addRunner`
the imported runner "Budi" shares the id 2 with the finished runner "Pelari 2". Budi is not
finished, yet the rank cell of Budi's row is `1`, not the placeholder `-`. -/
theorem exportToCSV_shared_id_counterexample :
    raceStore =
      [{ id := 1, name := "Pelari 1", splits := [], finished := false, finalTime := none },
       { id := 2, name := "Pelari 2", finished := true, finalTime := some 60000,
         splits := [{ index := 1, total := 60000, lap := 60000, isFinish := true, id := 7 },
                    { index := 2, total := 70000, lap := 10000, isFinish := false,
                      id := 8 }] },
       { id := 2, name := "Budi", finished := false, finalTime := none,
         splits := [{ index := 1, total := 70000, lap := 70000, isFinish := false,
                      id := 8 }] }] ∧
    csvContent raceStore =
      "Peringkat,Nama Pelari,Lap #,Waktu Lap,Waktu Total,Status\n" ++
      "1,\"Pelari 2\",1,01:00.00,01:00.00,Finish\n" ++
      "1,\"Pelari 2\",2,00:10.00,01:10.00,Split\n" ++
      "1,\"Budi\",1,01:10.00,01:10.00,Split" := by
  have hs : raceStore =
      [{ id := 1, name := "Pelari 1", splits := [], finished := false, finalTime := none },
       { id := 2, name := "Pelari 2", finished := true, finalTime := some 60000,
         splits := [{ index := 1, total := 60000, lap := 60000, isFinish := true, id := 7 },
                    { index := 2, total := 70000, lap := 10000, isFinish := false,
                      id := 8 }] },
       { id := 2, name := "Budi", finished := false, finalTime := none,
         splits := [{ index := 1, total := 70000, lap := 70000, isFinish := false,
                      id := 8 }] }] := by
    decide
  have f1 : formatTime 60000 = "01:00.00" := formatTime_eval 60000 _ (by norm_num) (by decide)
  have f2 : formatTime 70000 = "01:10.00" := formatTime_eval 70000 _ (by norm_num) (by decide)
  have f3 : formatTime 10000 = "00:10.00" := formatTime_eval 10000 _ (by norm_num) (by decide)
  refine ⟨hs, ?_⟩
  rw [hs, csvContent_eq]
  simp only [ownedSplits, List.map_cons, List.map_nil, List.nil_append, List.cons_append,
    rowText, f1, f2, f3]
  set_option maxRecDepth 100000 in decide

/-- C18 (amended): the exported text is the header line
`Peringkat,Nama Pelari,Lap #,Waktu Lap,Waktu Total,Status` followed, each after a line
feed, by exactly one row per split, runners in store order and splits in log order within a
runner. A row is the rank cell, the runner's name in double quotes, the split's `index`,
`formatTime(lap)`, `formatTime(total)` and `Finish` or `Split`, joined by commas. The rank
cell is looked up by the runner's id: it is the rank `getRankData` reports for that id, in
decimal, and `-` exactly when it reports none, which is exactly when no runner of the store
with that id passes the filter `finished && finalTime !== null`. In a store with pairwise
distinct ids the cell is `-` exactly when the owning runner fails that filter, and where
also `finished` holds exactly when `finalTime` is set, exactly when the owning runner is not
finished. -/
theorem exportToCSV_rows (rs : List Runner) :
    csvContent rs =
      String.intercalate "\n"
        ("Peringkat,Nama Pelari,Lap #,Waktu Lap,Waktu Total,Status" ::
          (ownedSplits rs).map fun p => rowText (getRank rs p.1.id) p.1 p.2) ∧
    (ownedSplits rs).length = (rs.map fun r => r.splits.length).sum ∧
    (∀ (r : Runner) (rest : List Runner),
      ownedSplits (r :: rest) = r.splits.map (fun s => (r, s)) ++ ownedSplits rest) ∧
    (∀ id : Int, getRank rs id = "-" ↔ rankOf rs id = none) ∧
    (∀ (id : Int) (n : Nat), rankOf rs id = some n → getRank rs id = toString n) ∧
    (∀ id : Int, getRank rs id = "-" ↔ ∀ r ∈ rs, r.id = id → isRanked r = false) ∧
    ((rs.map fun r => r.id).Nodup →
      ∀ r ∈ rs, (getRank rs r.id = "-" ↔ isRanked r = false)) ∧
    ((rs.map fun r => r.id).Nodup → (∀ r ∈ rs, FinishedIffFinal r) →
      ∀ r ∈ rs, (getRank rs r.id = "-" ↔ r.finished = false)) ∧
    csvContent exportStore =
      "Peringkat,Nama Pelari,Lap #,Waktu Lap,Waktu Total,Status\n" ++
      "1,\"A\",1,00:12.00,00:12.00,Split\n" ++
      "1,\"A\",2,00:08.05,00:20.05,Finish\n" ++
      "-,\"B\",1,00:15.00,00:15.00,Split" := by
  have hranked : (rs.map fun r => r.id).Nodup →
      ∀ r ∈ rs, (getRank rs r.id = "-" ↔ isRanked r = false) := by
    intro hnd r hr
    rw [getRank_dash_iff]
    constructor
    · intro hnone
      by_contra hk
      have hk2 : isRanked r = true := by simpa using hk
      obtain ⟨k, hk3⟩ := List.mem_iff_getElem?.1 ((mem_finishedRunners rs r).2 ⟨hr, hk2⟩)
      have := findIndex_of_nodup _ k r (finishedRunners_nodup rs hnd) hk3
      rw [rankOf_eq, this] at hnone
      simp at hnone
    · intro hun
      have := getRankData_none_of_unranked rs hnd r hr hun
      simp [rankOf, this]
  have f1 : formatTime 12000 = "00:12.00" := formatTime_eval 12000 _ (by norm_num) (by decide)
  have f2 : formatTime 8050 = "00:08.05" := formatTime_eval 8050 _ (by norm_num) (by decide)
  have f3 : formatTime 20050 = "00:20.05" := formatTime_eval 20050 _ (by norm_num) (by decide)
  have f4 : formatTime 15000 = "00:15.00" := formatTime_eval 15000 _ (by norm_num) (by decide)
  refine ⟨csvContent_eq rs, ownedSplits_length rs, fun _ _ => rfl, getRank_dash_iff rs, ?_,
    getRank_dash_iff_unranked rs, hranked, ?_, ?_⟩
  · intro id n hn
    rw [getRank_eq, hn]
  · intro hnd hinv r hr
    rw [hranked hnd r hr]
    have := hinv r hr
    unfold FinishedIffFinal at this
    cases hf : r.finished <;> cases ht : r.finalTime <;> simp_all [isRanked]
  · rw [csvContent_eq]
    simp only [exportStore, ownedSplits, List.map_cons, List.map_nil, List.nil_append,
      List.cons_append, rowText, f1, f2, f3, f4]
    decide

/-! ## The split table -/

theorem flattenSplits_cons (r : Runner) (rest : List Runner) :
    flattenSplits (r :: rest) =
      (r.splits.map fun s => ({ split := s, runnerName := r.name, runnerId := r.id } : SplitRow))
        ++ flattenSplits rest := by
  simp [flattenSplits]

theorem flattenSplits_filter (f : String) (rs : List Runner) :
    (flattenSplits rs).filter (fun s => toString s.runnerId = f) =
      flattenSplits (rs.filter fun r => toString r.id = f) := by
  induction rs with
  | nil => rfl
  | cons r rest ih =>
    rw [flattenSplits_cons, List.filter_append, ih]
    by_cases h : toString r.id = f
    · rw [List.filter_cons_of_pos (by simpa using h), flattenSplits_cons]
      congr 1
      apply List.filter_eq_self.2
      intro row hrow
      obtain ⟨s, _, rfl⟩ := List.mem_map.1 hrow
      simpa using h
    · rw [List.filter_cons_of_neg (by simpa using h)]
      have : (r.splits.map fun s =>
          ({ split := s, runnerName := r.name, runnerId := r.id } : SplitRow)).filter
            (fun s => toString s.runnerId = f) = [] := by
        apply List.filter_eq_nil_iff.2
        intro row hrow
        obtain ⟨s, _, rfl⟩ := List.mem_map.1 hrow
        simpa using h
      rw [this, List.nil_append]

theorem processedSplits_eq (rs : List Runner) (f mode : String) :
    processedSplits rs f mode =
      if mode = "chronological" then jsSort cmpChronological (flattenSplits (selectedRunners rs f))
      else jsSort cmpGrouped (flattenSplits (selectedRunners rs f)) := by
  unfold processedSplits selectedRunners
  by_cases hf : f = "all"
  · simp [hf]
  · simp only [ne_eq, hf, not_false_eq_true, if_true, if_false, flattenSplits_filter]

theorem mem_flattenSplits (rs : List Runner) (row : SplitRow) :
    row ∈ flattenSplits rs ↔
      ∃ r ∈ rs, row.split ∈ r.splits ∧ row.runnerName = r.name ∧ row.runnerId = r.id := by
  unfold flattenSplits
  simp only [List.mem_flatMap, List.mem_map]
  constructor
  · rintro ⟨r, hr, s, hs, rfl⟩
    exact ⟨r, hr, hs, rfl, rfl⟩
  · rintro ⟨r, hr, hs, hn, hi⟩
    refine ⟨r, hr, row.split, hs, ?_⟩
    cases row
    simp_all

theorem cmpGrouped_trans (x y z : SplitRow) (h1 : cmpGrouped x y ≤ 0)
    (h2 : cmpGrouped y z ≤ 0) : cmpGrouped x z ≤ 0 := by
  unfold cmpGrouped at *
  split_ifs at * <;> omega

theorem cmpGrouped_total (x y : SplitRow) : cmpGrouped x y ≤ 0 ∨ cmpGrouped y x ≤ 0 := by
  unfold cmpGrouped
  split_ifs <;> omega

theorem cmpGrouped_le (x y : SplitRow) (h : cmpGrouped x y ≤ 0) :
    x.runnerId < y.runnerId ∨ (x.runnerId = y.runnerId ∧ x.split.index ≤ y.split.index) := by
  unfold cmpGrouped at h
  split_ifs at h <;> omega

theorem rowBefore_pairwise (l : List SplitRow) : l.Pairwise (RowBefore l) :=
  List.pairwise_iff_forall_sublist.2 fun h => h

/-- C20: for every store, filter value and sort mode, `processedSplits` is a rearrangement
of the flattened splits of the selected runners (all runners for "all", else the runners
whose id prints as the filter value), each row being a split of the store with its `index`,
`total` and `lap` and its owner's name and id. In chronological mode the rows are in
descending order of `total`; in any other (grouped) mode they are in ascending order of
`(runnerId, index)`; in both, rows that compare equal keep their flattened order. The
projection only reads the store: the source sorts the fresh array built by `flatMap` and
`filter`, whose elements are copies of the splits. -/
theorem processedSplits_projection (rs : List Runner) (f mode : String) :
    (processedSplits rs f mode).Perm (flattenSplits (selectedRunners rs f)) ∧
    (∀ row : SplitRow, row ∈ processedSplits rs f mode ↔
      ∃ r ∈ selectedRunners rs f,
        row.split ∈ r.splits ∧ row.runnerName = r.name ∧ row.runnerId = r.id) ∧
    selectedRunners rs "all" = rs ∧
    (f ≠ "all" → selectedRunners rs f = rs.filter fun r => toString r.id = f) ∧
    (mode = "chronological" →
      (processedSplits rs f mode).Pairwise (fun a b => b.split.total ≤ a.split.total) ∧
      (processedSplits rs f mode).Pairwise
        (StableOrder cmpChronological (RowBefore (flattenSplits (selectedRunners rs f))))) ∧
    (mode ≠ "chronological" →
      (processedSplits rs f mode).Pairwise (fun a b =>
        a.runnerId < b.runnerId ∨
          (a.runnerId = b.runnerId ∧ a.split.index ≤ b.split.index)) ∧
      (processedSplits rs f mode).Pairwise
        (StableOrder cmpGrouped (RowBefore (flattenSplits (selectedRunners rs f))))) := by
  have hperm : (processedSplits rs f mode).Perm (flattenSplits (selectedRunners rs f)) := by
    rw [processedSplits_eq]
    split
    · exact jsSort_perm _ _
    · exact jsSort_perm _ _
  refine ⟨hperm, ?_, rfl, ?_, ?_, ?_⟩
  · intro row
    rw [hperm.mem_iff, mem_flattenSplits]
  · intro hf
    simp [selectedRunners, hf]
  · intro hm
    have hst : (processedSplits rs f mode).Pairwise
        (StableOrder cmpChronological (RowBefore (flattenSplits (selectedRunners rs f)))) := by
      rw [processedSplits_eq, if_pos hm]
      apply jsSort_stable
      · intro x y z h1 h2
        unfold cmpChronological at *
        omega
      · intro x y
        unfold cmpChronological
        omega
      · exact rowBefore_pairwise _
    refine ⟨hst.imp ?_, hst⟩
    intro a b hab
    have := hab.1
    unfold cmpChronological at this
    omega
  · intro hm
    have hst : (processedSplits rs f mode).Pairwise
        (StableOrder cmpGrouped (RowBefore (flattenSplits (selectedRunners rs f)))) := by
      rw [processedSplits_eq, if_neg hm]
      exact jsSort_stable cmpGrouped _ cmpGrouped_trans cmpGrouped_total _
        (rowBefore_pairwise _)
    exact ⟨hst.imp fun hab => cmpGrouped_le _ _ hab.1, hst⟩

/-! ## Operations on a runner or split that is not there -/

theorem recalcFrom_of_inv (l : List Split) : ∀ (idx : Nat) (prev : Int),
    IndexLapFrom idx prev l → recalcFrom idx prev l = l := by
  induction l with
  | nil => intro _ _ _; rfl
  | cons a l ih =>
    intro idx prev h
    have h2 : IndexLapFrom idx prev (a :: l) := h
    obtain ⟨hi, hl, hrest⟩ := h2
    rw [recalcFrom_cons, ih (idx + 1) a.total hrest]
    congr 1
    cases a
    simp only [Split.mk.injEq, and_true, true_and] at *
    exact ⟨hi.symm, hl.symm⟩

theorem map_id_of_no_match (f : Runner → Runner) (prev : List Runner)
    (h : ∀ r ∈ prev, f r = r) : prev.map f = prev := by
  induction prev with
  | nil => rfl
  | cons r rest ih =>
    rw [List.map_cons, h r (List.mem_cons_self r rest),
      ih fun x hx => h x (List.mem_cons_of_mem r hx)]

/-- C21: `recordSplit`, `finishRunner` and `deleteSplit` called with a runner id that no
runner of the store has return the store unchanged; `deleteSplit` called for an existing
runner with a split id that is not in its log returns that runner unchanged, its log
included, whenever the log satisfies the index/lap invariant. (Without the invariant the
log is still recomputed: a lone split stored with `index` 5 and `lap` 3 gets `index` 1 and
`lap` equal to its `total`.) -/
theorem not_found_is_noop (prev : List Runner) :
    (∀ (t : Int) (newId : SplitId) (id : Int), (∀ r ∈ prev, r.id ≠ id) →
      recordSplit t newId id prev = prev ∧ finishRunner t newId id prev = prev) ∧
    (∀ (runnerId : Int) (sid : SplitId), (∀ r ∈ prev, r.id ≠ runnerId) →
      deleteSplit runnerId sid prev = prev) ∧
    (∀ (runnerId : Int) (sid : SplitId) (i : Nat) (r : Runner), prev[i]? = some r →
      r.id = runnerId → (∀ s ∈ r.splits, s.id ≠ sid) → IndexLapInv r.splits →
      (deleteSplit runnerId sid prev)[i]? = some r) ∧
    deleteSplit 1 99
        [{ id := 1, name := "A", finished := false, finalTime := none,
           splits := [{ index := 5, total := 10, lap := 3, isFinish := false, id := 7 }] }]
      = [{ id := 1, name := "A", finished := false, finalTime := none,
           splits := [{ index := 1, total := 10, lap := 10, isFinish := false,
                        id := 7 }] }] := by
  refine ⟨?_, ?_, ?_, by decide⟩
  · intro t newId id hno
    constructor
    · exact map_id_of_no_match _ prev fun r hr => by simp [hno r hr]
    · exact map_id_of_no_match _ prev fun r hr => by simp [hno r hr]
  · intro runnerId sid hno
    exact map_id_of_no_match _ prev fun r hr => by simp [hno r hr]
  · intro runnerId sid i r hr hid hsid hinv
    have hfilter : (r.splits.filter fun s => s.id ≠ sid) = r.splits :=
      List.filter_eq_self.2 fun s hs => by simpa using hsid s hs
    rw [deleteSplit_getElem, hr, Option.map_some', if_neg (by simp [hid]), hfilter,
      recalcFrom_of_inv r.splits 0 0 hinv]

/-! ## The finish marker -/

theorem finish_mark_last (pre : List Split) (x : Split)
    (hpre : ∀ s ∈ pre, s.isFinish = false) (hx : x.isFinish = true) :
    ((pre ++ [x]).filter fun s => s.isFinish).length = 1 ∧
    ∀ (k : Nat) (s : Split), (pre ++ [x])[k]? = some s → s.isFinish = true →
      k + 1 = (pre ++ [x]).length ∧ s = x := by
  constructor
  · have h1 : pre.filter (fun s => s.isFinish) = [] :=
      List.filter_eq_nil_iff.2 fun s hs => by simp [hpre s hs]
    rw [List.filter_append, h1]
    simp [hx]
  · intro k s hk hs
    have hlt : k < (pre ++ [x]).length := (List.getElem?_eq_some_iff.1 hk).1
    by_cases hkp : k < pre.length
    · exfalso
      rw [List.getElem?_append_left hkp] at hk
      have := hpre s (List.mem_iff_getElem?.2 ⟨k, hk⟩)
      rw [this] at hs
      exact Bool.false_ne_true hs
    · have hke : k = pre.length := by
        simp only [List.length_append, List.length_singleton] at hlt
        omega
      subst hke
      rw [List.getElem?_append_right (le_refl _)] at hk
      simp only [Nat.sub_self, List.getElem?_cons_zero, Option.some.injEq] at hk
      exact ⟨by simp, hk.symm⟩

/-- C22 (as stated, refuted): a runner with one split at 5000 ms that is finished at the
clock value 5000 gets no new split: the existing split is marked, so the finish row's
total equals `finalTime` although no split was appended. -/
theorem finish_row_equal_without_append_counterexample :
    finishRunner 5000 9 1 splitAt5000 =
      [{ id := 1, name := "A", finished := true, finalTime := some 5000,
         splits := [{ index := 1, total := 5000, lap := 5000, isFinish := true,
                      id := 7 }] }] := by
  decide

/-- C22 (amended): after `finishRunner` at clock value `t` on a runner whose log has no
finish-marked split and whose last total is at most `t`, at most one split of the new log
is finish-marked, it is the last one, and its total `T` satisfies `t - 100 ≤ T ≤ t`, where
`t` is the new `finalTime`. When a split was appended, `T = t`; otherwise the log keeps its
length and `T` is the total of the previously last split, which is `t` only if the finish
came at that very clock value. The new log has no finish-marked split exactly when the old
log was empty and `t ≤ 100`. -/
theorem finish_marker (prev : List Runner) (t : Int) (newId : SplitId) (id : Int)
    (i : Nat) (r : Runner) (hr : prev[i]? = some r) (hid : r.id = id)
    (hno : ∀ s ∈ r.splits, s.isFinish = false)
    (ht : ∀ s, r.splits.getLast? = some s → s.total ≤ t) :
    ∃ log : List Split,
      (finishRunner t newId id prev)[i]? =
        some { r with finished := true, finalTime := some t, splits := log } ∧
      (log.filter fun s => s.isFinish).length ≤ 1 ∧
      (∀ (k : Nat) (s : Split), log[k]? = some s → s.isFinish = true →
        k + 1 = log.length ∧ t - 100 ≤ s.total ∧ s.total ≤ t) ∧
      (log.length = r.splits.length + 1 →
        ∀ s ∈ log, s.isFinish = true → s.total = t) ∧
      (log.length ≠ r.splits.length + 1 →
        log.length = r.splits.length ∧
        ∀ s ∈ log, s.isFinish = true → s.total = lastTotal r.splits) ∧
      ((∀ s ∈ log, s.isFinish = false) ↔ (r.splits = [] ∧ t ≤ 100)) := by
  refine ⟨finishSplits t newId r.splits, ?_, ?_⟩
  · rw [finishRunner_getElem, hr]; simp [hid]
  simp only [finishSplits, lastSplitTime_eq_lastTotal]
  by_cases hd : t - lastTotal r.splits > 100
  · rw [if_pos hd]
    obtain ⟨h1, h2⟩ := finish_mark_last r.splits
      { index := (r.splits.length : Int) + 1, total := t, lap := t - lastTotal r.splits,
        isFinish := true, id := newId } hno rfl
    refine ⟨by rw [h1], ?_, ?_, ?_, ?_⟩
    · intro k s hk hs
      obtain ⟨e1, e2⟩ := h2 k s hk hs
      subst e2
      exact ⟨e1, by simp, le_refl _⟩
    · intro _ s hs hfin
      obtain ⟨k, hk⟩ := List.mem_iff_getElem?.1 hs
      rw [(h2 k s hk hfin).2]
    · intro hlen
      exact absurd (by simp) hlen
    · constructor
      · intro hall
        have := hall _ (List.mem_append_right r.splits (List.mem_singleton_self _))
        simp at this
      · rintro ⟨hempty, hle⟩
        rw [hempty] at hd
        simp only [lastTotal, List.getLast?_nil] at hd
        omega
  · rw [if_neg hd]
    rcases List.eq_nil_or_concat r.splits with hnil | ⟨pre, s0, hcat⟩
    · rw [hnil]
      rw [hnil] at hd
      simp only [lastTotal, List.getLast?_nil] at hd
      refine ⟨by simp, ?_, ?_, ?_, ?_⟩
      · intro k s hk; simp at hk
      · intro h; simp at h
      · intro _; exact ⟨rfl, by intro s hs; simp at hs⟩
      · constructor
        · intro _; exact ⟨rfl, by omega⟩
        · intro _ s hs; simp at hs
    · rw [List.concat_eq_append] at hcat
      have hlast : lastTotal r.splits = s0.total := by
        rw [hcat]; simp [lastTotal]
      have hs0 : s0.total ≤ t := ht s0 (by rw [hcat]; simp)
      have hpre : ∀ s ∈ pre, s.isFinish = false := fun s hs =>
        hno s (by rw [hcat]; exact List.mem_append_left _ hs)
      rw [hlast] at hd
      rw [hcat, if_pos (by simp), markLastFinish_concat]
      obtain ⟨h1, h2⟩ := finish_mark_last pre { s0 with isFinish := true } hpre rfl
      refine ⟨by rw [h1], ?_, ?_, ?_, ?_⟩
      · intro k s hk hs
        obtain ⟨e1, e2⟩ := h2 k s hk hs
        subst e2
        refine ⟨e1, ?_, hs0⟩
        show t - 100 ≤ s0.total
        omega
      · intro hlen
        simp at hlen
      · intro _
        refine ⟨by simp, ?_⟩
        intro s hs hfin
        obtain ⟨k, hk⟩ := List.mem_iff_getElem?.1 hs
        rw [(h2 k s hk hfin).2]
        simp [lastTotal]
      · constructor
        · intro hall
          have := hall _ (List.mem_append_right pre (List.mem_singleton_self _))
          simp at this
        · rintro ⟨hempty, _⟩
          simp at hempty

/-- C22 (amended), on a runner with splits at 12000 and 20000 ms finished at 20050 ms: the
second split becomes the finish row, 50 ms before the final time. -/
theorem finish_marker_witness :
    ∃ log : List Split,
      (finishRunner 20050 9 1 twoSplits)[0]? =
        some { id := 1, name := "A", finished := true, finalTime := some 20050,
               splits := log } ∧
      (log.filter fun s => s.isFinish).length ≤ 1 := by
  obtain ⟨log, h1, h2, _⟩ := finish_marker twoSplits 20050 9 1 0
    { id := 1, name := "A", finished := false, finalTime := none,
      splits := [{ index := 1, total := 12000, lap := 12000, isFinish := false, id := 7 },
                 { index := 2, total := 20000, lap := 8000, isFinish := false, id := 8 }] }
    rfl rfl (by decide) (by intro s hs; simp at hs; subst hs; decide)
  exact ⟨log, h1, h2⟩

end Stopwatch
